import Mathlib

/-!
Verification of the TSP heuristics and the algorithm runner of
`competing-salesmen` against its specification.

The TypeScript sources are embedded shallowly:

* JS numbers are idealized as rationals (`ℚ`); the irrational `Math`
  primitives (`Math.sqrt`, `Math.pow`, `Math.exp`) are abstracted into a
  `NumOps` record so that every theorem holds for every interpretation of
  them, in particular for the real Euclidean one.
* `Math.random()` is modelled as an explicit stream of rationals (`Rng`);
  `Rng.Valid` states that the stream only produces values in `[0, 1)`,
  which is what `Math.random()` guarantees.
* The mutable `OperationCounter` object is threaded through explicitly.
* `performance.now()` (wall-clock time) is modelled as the constant 0; no
  claim concerns the `runtime` field beyond its existence.
* Unbounded `while` loops whose termination is data-dependent
  (`while (improved)`, re-roll loops) take an explicit fuel parameter; all
  proved properties hold for every fuel value.
-/

open List

/-- `src/types/tsp.ts` `Node`: stable id plus 2D coordinates.  The open
`[key: string]: unknown` passthrough bag is never interpreted by any
algorithm and is omitted. -/
structure Node where
  id : ℕ
  x : ℚ
  y : ℚ
deriving DecidableEq, Repr, Inhabited

/-- `src/types/tsp.ts` `Edge` (display-only; `from`/`to` renamed because
`from` is a Lean keyword). -/
structure Edge where
  id : ℕ
  fromNode : Node
  toNode : Node
deriving DecidableEq, Repr

/-- `src/types/tsp.ts` `Graph`. -/
structure Graph where
  nodes : List Node
  edges : List Edge
deriving DecidableEq, Repr

/-- `src/algorithms/utils.ts` `OperationCounter`. -/
structure OperationCounter where
  reads : ℕ
  writes : ℕ
deriving DecidableEq, Repr

/-- `src/types/tsp.ts` `Performance`.  `distance` can be JS `Infinity`
(e.g. `bestDistance` initialised to `Infinity` and never improved), hence
`WithTop ℚ`. -/
structure Performance where
  distance : WithTop ℚ
  runtime : ℚ
  reads : ℕ
  writes : ℕ
deriving DecidableEq, Repr

/-- `src/types/tsp.ts` `Result`. -/
structure Result where
  path : List Node
  performance : Performance
deriving DecidableEq, Repr

/-- The JS `Math` primitives used by the heuristics.  They are irrational
on `ℚ`, so they are kept abstract; `sqrt_zero` records the JS fact
`Math.sqrt(0) === 0`, which the code relies on for degenerate tours. -/
structure NumOps where
  sqrt : ℚ → ℚ
  pow : ℚ → ℚ → ℚ
  exp : ℚ → ℚ
  sqrt_zero : sqrt 0 = 0

/-- A deterministic model of `Math.random()`: a stream of rationals
consumed left to right. -/
structure Rng where
  stream : ℕ → ℚ
  k : ℕ

/-- One call of `Math.random()`. -/
def Rng.next (g : Rng) : ℚ × Rng := (g.stream g.k, ⟨g.stream, g.k + 1⟩)

/-- `Math.random()` returns values in `[0, 1)`. -/
def Rng.Valid (g : Rng) : Prop := ∀ i, 0 ≤ g.stream i ∧ g.stream i < 1

theorem Rng.Valid.next {g : Rng} (h : g.Valid) : g.next.2.Valid := h

theorem Rng.Valid.fst {g : Rng} (h : g.Valid) : 0 ≤ g.next.1 ∧ g.next.1 < 1 :=
  h g.k

/-- `Math.floor(r * n)` for a random `r` and a natural bound `n`. -/
def randFloor (r : ℚ) (n : ℕ) : ℕ := (⌊r * n⌋).toNat

theorem randFloor_lt {r : ℚ} {n : ℕ} (h0 : 0 ≤ r) (h1 : r < 1) (hn : 0 < n) :
    randFloor r n < n := by
  have hq : (0:ℚ) < n := by exact_mod_cast hn
  have hrn : r * n < n := by
    calc r * n < 1 * n := mul_lt_mul_of_pos_right h1 hq
    _ = n := one_mul _
  have hfl : ⌊r * n⌋ < (n:ℤ) := Int.floor_lt.mpr (by push_cast; exact hrn)
  unfold randFloor
  omega

/-- Pure value of `utils.ts` `distance` (the `Math.sqrt` form of the
Euclidean distance). -/
def distVal (ops : NumOps) (a b : Node) : ℚ :=
  ops.sqrt ((b.x - a.x) * (b.x - a.x) + (b.y - a.y) * (b.y - a.y))

/-- `utils.ts` `distance(a, b, counter)`: 4 coordinate reads per call. -/
def distance (ops : NumOps) (a b : Node) (c : OperationCounter) :
    ℚ × OperationCounter :=
  (distVal ops a b, { c with reads := c.reads + 4 })

theorem distVal_self (ops : NumOps) (a : Node) : distVal ops a a = 0 := by
  simp [distVal, ops.sqrt_zero]

/-- Pure value of `utils.ts` `tourDistance`: consecutive distances plus the
closing edge; 0 for tours shorter than 2. -/
def tourLen (ops : NumOps) (tour : List Node) : ℚ :=
  if tour.length < 2 then 0
  else ((tour.zip tour.tail).map fun p => distVal ops p.1 p.2).sum +
    distVal ops (tour.getD (tour.length - 1) default) (tour.getD 0 default)

/-- `utils.ts` `tourDistance(tour, counter)`. -/
def tourDistance (ops : NumOps) (tour : List Node) (c : OperationCounter) :
    ℚ × OperationCounter :=
  if tour.length < 2 then (0, c)
  else
    let body := (tour.zip tour.tail).foldl
      (fun (acc : ℚ × OperationCounter) p =>
        let dc := distance ops p.1 p.2 acc.2
        (acc.1 + dc.1, dc.2)) (0, c)
    let dc := distance ops (tour.getD (tour.length - 1) default)
      (tour.getD 0 default) body.2
    (body.1 + dc.1, dc.2)

theorem foldl_dist_fst (f : Node × Node → ℚ) (g : OperationCounter → OperationCounter) :
    ∀ (l : List (Node × Node)) (q : ℚ) (c0 : OperationCounter),
      (l.foldl (fun (acc : ℚ × OperationCounter) p => (acc.1 + f p, g acc.2)) (q, c0)).1
        = q + (l.map f).sum := by
  intro l
  induction l with
  | nil => intro q c0; simp
  | cons hd tl ih =>
    intro q c0
    simp only [List.foldl_cons, List.map_cons, List.sum_cons]
    rw [ih]
    ring

theorem tourDistance_fst (ops : NumOps) (tour : List Node) (c : OperationCounter) :
    (tourDistance ops tour c).1 = tourLen ops tour := by
  unfold tourDistance tourLen
  by_cases h : tour.length < 2
  · simp [h]
  · simp only [h, if_false, distance]
    rw [foldl_dist_fst (fun p => distVal ops p.1 p.2)
      (fun c0 => { c0 with reads := c0.reads + 4 })]
    ring

/-- The counter does not influence the distance value. -/
theorem tourDistance_fst_congr (ops : NumOps) (tour : List Node)
    (c c' : OperationCounter) :
    (tourDistance ops tour c).1 = (tourDistance ops tour c').1 := by
  rw [tourDistance_fst, tourDistance_fst]

/-- One comparison of the selection scan in `utils.ts`
`nearestNeighborTour`: keep the first strict minimum (`nearestIdx` starts
at `-1`, `nearestDist` at `Infinity`). -/
def nnStep (ops : NumOps) (nodes : List Node) (currentIdx : ℕ)
    (acc : ℤ × WithTop ℚ × OperationCounter) (idx : ℕ) :
    ℤ × WithTop ℚ × OperationCounter :=
  let dc := distance ops (nodes.getD currentIdx default)
    (nodes.getD idx default) acc.2.2
  if (dc.1 : WithTop ℚ) < acc.2.1 then ((idx : ℤ), (dc.1 : WithTop ℚ), dc.2)
  else (acc.1, acc.2.1, dc.2)

/-- Selection scan of `utils.ts` `nearestNeighborTour`: iterate the
unvisited set in insertion order. -/
def nnSelect (ops : NumOps) (nodes : List Node) (currentIdx : ℕ)
    (unvisited : List ℕ) (c : OperationCounter) :
    ℤ × WithTop ℚ × OperationCounter :=
  unvisited.foldl (nnStep ops nodes currentIdx) (-1, ⊤, c)

theorem nnStep_fst (ops : NumOps) (nodes : List Node) (currentIdx : ℕ)
    (acc : ℤ × WithTop ℚ × OperationCounter) (idx : ℕ) :
    (nnStep ops nodes currentIdx acc idx).1 = acc.1 ∨
    (nnStep ops nodes currentIdx acc idx).1 = (idx : ℤ) := by
  simp only [nnStep]
  by_cases h : ((distance ops (nodes.getD currentIdx default)
      (nodes.getD idx default) acc.2.2).1 : WithTop ℚ) < acc.2.1
  · right; rw [if_pos h]
  · left; rw [if_neg h]

theorem nnStep_top (ops : NumOps) (nodes : List Node) (currentIdx : ℕ)
    (acc : ℤ × WithTop ℚ × OperationCounter) (idx : ℕ) (h : acc.2.1 = ⊤) :
    (nnStep ops nodes currentIdx acc idx).1 = (idx : ℤ) := by
  simp only [nnStep]
  rw [if_pos (h ▸ WithTop.coe_lt_top _)]

theorem nnSelect_mem_aux (ops : NumOps) (nodes : List Node) (currentIdx : ℕ) :
    ∀ (l : List ℕ) (acc : ℤ × WithTop ℚ × OperationCounter),
      (l.foldl (nnStep ops nodes currentIdx) acc).1 = acc.1 ∨
      ∃ i ∈ l, (l.foldl (nnStep ops nodes currentIdx) acc).1 = (i : ℤ) := by
  intro l
  induction l with
  | nil => intro acc; left; rfl
  | cons hd tl ih =>
    intro acc
    simp only [List.foldl_cons]
    rcases ih (nnStep ops nodes currentIdx acc hd) with h | h
    · rw [h]
      rcases nnStep_fst ops nodes currentIdx acc hd with h2 | h2
      · left; exact h2
      · right; exact ⟨hd, List.mem_cons_self _ _, h2⟩
    · rcases h with ⟨i, hi, he⟩
      right; exact ⟨i, List.mem_cons_of_mem _ hi, he⟩

/-- With a nonempty unvisited set the scan always selects a member
(the first comparison against `Infinity` always succeeds). -/
theorem nnSelect_mem (ops : NumOps) (nodes : List Node) (currentIdx : ℕ)
    (unvisited : List ℕ) (c : OperationCounter) (h : unvisited ≠ []) :
    ∃ i ∈ unvisited, (nnSelect ops nodes currentIdx unvisited c).1 = (i : ℤ) := by
  cases unvisited with
  | nil => exact absurd rfl h
  | cons hd tl =>
    unfold nnSelect
    simp only [List.foldl_cons]
    rcases nnSelect_mem_aux ops nodes currentIdx tl
        (nnStep ops nodes currentIdx (-1, ⊤, c) hd) with h2 | h2
    · rw [h2, nnStep_top ops nodes currentIdx _ hd rfl]
      exact ⟨hd, List.mem_cons_self _ _, rfl⟩
    · rcases h2 with ⟨i, hi, he⟩
      exact ⟨i, List.mem_cons_of_mem _ hi, he⟩

/-- Main loop of `utils.ts` `nearestNeighborTour`, with fuel (the source's
`while (unvisited.size > 0)` runs exactly `unvisited.size` times because the
scan always selects a member, which is then deleted). -/
def nnLoop (ops : NumOps) (nodes : List Node) :
    ℕ → ℕ → List ℕ → List Node → OperationCounter →
    List Node × OperationCounter
  | 0, _, _, tour, c => (tour, c)
  | fuel + 1, currentIdx, unvisited, tour, c =>
    if unvisited.isEmpty then (tour, c)
    else
      let sel := nnSelect ops nodes currentIdx unvisited c
      if sel.1 ≠ -1 then
        let ni := sel.1.toNat
        nnLoop ops nodes fuel ni (unvisited.erase ni)
          (tour ++ [nodes.getD ni default])
          { sel.2.2 with reads := sel.2.2.reads + 1, writes := sel.2.2.writes + 1 }
      else (tour, sel.2.2)

/-- `utils.ts` `nearestNeighborTour(nodes, counter)`. -/
def nearestNeighborTour (ops : NumOps) (nodes : List Node) (c : OperationCounter) :
    List Node × OperationCounter :=
  if nodes.length = 0 then ([], c)
  else if nodes.length = 1 then
    ([nodes.getD 0 default], { c with reads := c.reads + 1, writes := c.writes + 1 })
  else
    nnLoop ops nodes nodes.length 0 ((List.range nodes.length).erase 0)
      [nodes.getD 0 default]
      { c with reads := c.reads + 1, writes := c.writes + 1 }

theorem getD_range_map (nodes : List Node) :
    (List.range nodes.length).map (fun i => nodes.getD i default) = nodes := by
  induction nodes with
  | nil => rfl
  | cons a t ih =>
    rw [List.length_cons, List.range_succ_eq_map, List.map_cons, List.map_map]
    simp only [Function.comp_def, Nat.succ_eq_add_one, List.getD_cons_succ,
      List.getD_cons_zero]
    rw [ih]

theorem nnLoop_perm (ops : NumOps) (nodes : List Node) :
    ∀ (fuel : ℕ) (unvisited : List ℕ) (currentIdx : ℕ) (tour : List Node)
      (c : OperationCounter),
      unvisited.length ≤ fuel → unvisited.Nodup →
      (nnLoop ops nodes fuel currentIdx unvisited tour c).1 ~
        tour ++ unvisited.map (fun i => nodes.getD i default) := by
  intro fuel
  induction fuel with
  | zero =>
    intro unvisited currentIdx tour c hle _
    have : unvisited = [] := List.length_eq_zero.mp (Nat.le_zero.mp hle)
    subst this
    simp [nnLoop]
  | succ n ih =>
    intro unvisited currentIdx tour c hle hnd
    by_cases hemp : unvisited.isEmpty
    · have : unvisited = [] := List.isEmpty_iff.mp hemp
      subst this
      simp [nnLoop]
    · have hne : unvisited ≠ [] := fun h => hemp (by simp [h])
      obtain ⟨i, hi, he⟩ := nnSelect_mem ops nodes currentIdx unvisited c hne
      simp only [nnLoop, hemp, if_false]
      have hne1 : (nnSelect ops nodes currentIdx unvisited c).1 ≠ -1 := by
        rw [he]; omega
      simp only [hne1, if_true, ne_eq, not_false_eq_true]
      have htn : (nnSelect ops nodes currentIdx unvisited c).1.toNat = i := by
        rw [he]; exact Int.toNat_natCast i
      rw [htn]
      have hlen : (unvisited.erase i).length ≤ n := by
        rw [List.length_erase_of_mem hi]
        omega
      refine (ih (unvisited.erase i) i (tour ++ [nodes.getD i default]) _
        hlen (hnd.erase i)).trans ?_
      have hperm : unvisited ~ i :: unvisited.erase i := List.perm_cons_erase hi
      calc (tour ++ [nodes.getD i default]) ++
            (unvisited.erase i).map (fun j => nodes.getD j default)
          = tour ++ (i :: unvisited.erase i).map (fun j => nodes.getD j default) := by
            simp
        _ ~ tour ++ unvisited.map (fun j => nodes.getD j default) :=
            List.Perm.append_left tour (List.Perm.map _ hperm.symm)

/-- `nearestNeighborTour` returns a permutation of its input. -/
theorem nearestNeighborTour_perm (ops : NumOps) (nodes : List Node)
    (c : OperationCounter) :
    (nearestNeighborTour ops nodes c).1 ~ nodes := by
  unfold nearestNeighborTour
  by_cases h0 : nodes.length = 0
  · have : nodes = [] := List.length_eq_zero.mp h0
    subst this; simp
  · by_cases h1 : nodes.length = 1
    · obtain ⟨a, ha⟩ := List.length_eq_one.mp h1
      subst ha; simp [h0]
    · simp only [h0, h1, if_false]
      have h2 : 2 ≤ nodes.length := by omega
      have hmem : 0 ∈ List.range nodes.length := by
        rw [List.mem_range]; omega
      refine (nnLoop_perm ops nodes nodes.length
        ((List.range nodes.length).erase 0) 0 [nodes.getD 0 default] _
        (by rw [List.length_erase_of_mem hmem, List.length_range]; omega)
        ((List.nodup_range _).erase 0)).trans ?_
      have hperm : List.range nodes.length ~ 0 :: (List.range nodes.length).erase 0 :=
        List.perm_cons_erase hmem
      have hmap : (List.range nodes.length).map (fun i => nodes.getD i default) ~
          (0 :: (List.range nodes.length).erase 0).map (fun i => nodes.getD i default) :=
        List.Perm.map _ hperm
      rw [getD_range_map] at hmap
      calc [nodes.getD 0 default] ++ ((List.range nodes.length).erase 0).map
            (fun i => nodes.getD i default)
          = (0 :: (List.range nodes.length).erase 0).map
            (fun i => nodes.getD i default) := by
            simp only [List.map_cons, List.singleton_append]
        _ ~ nodes := hmap.symm

/-! ### Generic helpers for embedded JS loops -/

/-- Projection of a fold that threads an extra (counter/rng) component:
the first component is a pure fold of its own. -/
theorem foldl_pair_fst {α γ β : Type _} (F : α × γ → β → α × γ) (G : α → β → α)
    (hFG : ∀ p b, (F p b).1 = G p.1 b) :
    ∀ (l : List β) (p : α × γ), (l.foldl F p).1 = l.foldl G p.1 := by
  intro l
  induction l with
  | nil => intro p; rfl
  | cons hd tl ih =>
    intro p
    simp only [List.foldl_cons]
    rw [ih (F p hd), hFG]

/-- JS `result.push(x)` loops: folding `acc ++ f b` flattens to a map. -/
theorem mem_foldl_append {α β : Type _} (f : β → List α) :
    ∀ (l : List β) (acc : List α) (p : α),
      p ∈ l.foldl (fun a b => a ++ f b) acc ↔ p ∈ acc ∨ ∃ b ∈ l, p ∈ f b := by
  intro l
  induction l with
  | nil => intro acc p; simp
  | cons hd tl ih =>
    intro acc p
    simp only [List.foldl_cons]
    rw [ih]
    simp only [List.mem_append, List.mem_cons]
    constructor
    · rintro (⟨h | h⟩ | ⟨b, hb, hp⟩)
      · exact Or.inl h
      · exact Or.inr ⟨hd, Or.inl rfl, h⟩
      · exact Or.inr ⟨b, Or.inr hb, hp⟩
    · rintro (h | ⟨b, hb | hb, hp⟩)
      · exact Or.inl (Or.inl h)
      · exact Or.inl (Or.inr (hb ▸ hp))
      · exact Or.inr ⟨b, hb, hp⟩

theorem swap_head_perm {α : Type _} :
    ∀ (t : List α) (m : ℕ) (x : α), (hm : m < t.length) →
      t.get ⟨m, hm⟩ :: t.set m x ~ x :: t := by
  intro t
  induction t with
  | nil => intro m x hm; simp at hm
  | cons c t' ih =>
    intro m x hm
    cases m with
    | zero => exact List.Perm.swap x c t'
    | succ m =>
      have hm' : m < t'.length := by simpa using hm
      calc t'.get ⟨m, hm'⟩ :: (c :: t').set (m + 1) x
          = t'.get ⟨m, hm'⟩ :: c :: t'.set m x := by rw [List.set_cons_succ]
        _ ~ c :: t'.get ⟨m, hm'⟩ :: t'.set m x := List.Perm.swap _ _ _
        _ ~ c :: x :: t' := (ih m x hm').cons c
        _ ~ x :: c :: t' := List.Perm.swap _ _ _

theorem set_set_swap_perm {α : Type _} :
    ∀ (l : List α) (i j : ℕ) (hi : i < l.length) (hj : j < l.length),
      (l.set i (l.get ⟨j, hj⟩)).set j (l.get ⟨i, hi⟩) ~ l := by
  intro l
  induction l with
  | nil => intro i j hi _; simp at hi
  | cons x t ih =>
    intro i j hi hj
    cases i with
    | zero =>
      cases j with
      | zero => simp
      | succ m =>
        have hm : m < t.length := by simpa using hj
        have : ((x :: t).set 0 ((x :: t).get ⟨m + 1, hj⟩)).set (m + 1)
            ((x :: t).get ⟨0, by simp⟩) = t.get ⟨m, hm⟩ :: t.set m x := by
          simp
        rw [this]
        exact swap_head_perm t m x hm
    | succ mi =>
      cases j with
      | zero =>
        have hmi : mi < t.length := by simpa using hi
        have : ((x :: t).set (mi + 1) ((x :: t).get ⟨0, by simp⟩)).set 0
            ((x :: t).get ⟨mi + 1, hi⟩) = t.get ⟨mi, hmi⟩ :: t.set mi x := by
          simp
        rw [this]
        exact swap_head_perm t mi x hmi
      | succ mj =>
        have hmi : mi < t.length := by simpa using hi
        have hmj : mj < t.length := by simpa using hj
        have : ((x :: t).set (mi + 1) ((x :: t).get ⟨mj + 1, hj⟩)).set (mj + 1)
            ((x :: t).get ⟨mi + 1, hi⟩) =
            x :: ((t.set mi (t.get ⟨mj, hmj⟩)).set mj (t.get ⟨mi, hmi⟩)) := by
          simp
        rw [this]
        exact (ih mi mj hmi hmj).cons x

/-- The element-swap `[arr[i], arr[j]] = [arr[j], arr[i]]` used throughout
the source.  In the source all uses are in bounds; out of bounds it is the
identity, so it unconditionally preserves the multiset of elements. -/
def listSwap {α : Type _} (l : List α) (i j : ℕ) : List α :=
  if h : i < l.length ∧ j < l.length then
    (l.set i (l.get ⟨j, h.2⟩)).set j (l.get ⟨i, h.1⟩)
  else l

theorem listSwap_perm {α : Type _} (l : List α) (i j : ℕ) : listSwap l i j ~ l := by
  unfold listSwap
  split
  · next h => exact set_set_swap_perm l i j h.1 h.2
  · exact List.Perm.refl _

theorem listSwap_length {α : Type _} (l : List α) (i j : ℕ) :
    (listSwap l i j).length = l.length := by
  unfold listSwap
  split
  · simp
  · rfl

/-! ### `naive.ts` -/

/-- Counterless value of `naive.ts` `permute` (recursion on the length). -/
def permsGo : ℕ → List Node → List (List Node)
  | 0, _ => [[]]
  | n + 1, arr =>
    (List.range (n + 1)).foldl
      (fun acc i => acc ++ (permsGo n (arr.eraseIdx i)).map (arr.getD i default :: ·))
      []

/-- `naive.ts` `permute(arr, counter)`, counters threaded explicitly;
the recursion is on `arr.length` (element removal shortens the list). -/
def permuteGo : ℕ → List Node → OperationCounter → List (List Node) × OperationCounter
  | 0, _, c => ([[]], c)
  | n + 1, arr, c =>
    (List.range (n + 1)).foldl
      (fun (acc : List (List Node) × OperationCounter) i =>
        let c1 : OperationCounter := { acc.2 with reads := acc.2.reads + 1 }
        let rest := arr.eraseIdx i
        let c2 : OperationCounter := { c1 with reads := c1.reads + (arr.length - 1) }
        let pr := permuteGo n rest c2
        pr.1.foldl
          (fun (acc2 : List (List Node) × OperationCounter) perm =>
            (acc2.1 ++ [arr.getD i default :: perm],
              { acc2.2 with writes := acc2.2.writes + perm.length + 1 }))
          (acc.1, pr.2))
      ([], c)

def permute (arr : List Node) (c : OperationCounter) :
    List (List Node) × OperationCounter :=
  permuteGo arr.length arr c

theorem foldl_push_fst {α β γ : Type _} (g : β → α) (h : γ → β → γ) :
    ∀ (l : List β) (a0 : List α) (c0 : γ),
      (l.foldl (fun (acc : List α × γ) p => (acc.1 ++ [g p], h acc.2 p)) (a0, c0)).1
        = a0 ++ l.map g := by
  intro l
  induction l with
  | nil => intro a0 c0; simp
  | cons hd tl ih =>
    intro a0 c0
    simp only [List.foldl_cons, List.map_cons]
    rw [ih]
    simp

theorem permuteGo_fst : ∀ (n : ℕ) (arr : List Node) (c : OperationCounter),
    (permuteGo n arr c).1 = permsGo n arr := by
  intro n
  induction n with
  | zero => intro arr c; rfl
  | succ n ih =>
    intro arr c
    show (List.foldl _ (([], c) : List (List Node) × OperationCounter) _).1 = _
    rw [foldl_pair_fst _
      (fun acc i => acc ++ (permsGo n (arr.eraseIdx i)).map (arr.getD i default :: ·))]
    · rfl
    · intro p i
      simp only
      rw [ih]
      exact foldl_push_fst (arr.getD i default :: ·)
        (fun (c2 : OperationCounter) (perm : List Node) =>
          { c2 with writes := c2.writes + perm.length + 1 })
        (permsGo n (arr.eraseIdx i)) p.1 _

theorem perm_getD_eraseIdx (arr : List Node) (i : ℕ) (hi : i < arr.length) :
    arr ~ arr.getD i default :: arr.eraseIdx i := by
  have hsplit : arr = arr.take i ++ arr.getD i default :: arr.drop (i + 1) := by
    conv_lhs => rw [← List.take_append_drop i arr]
    congr 1
    rw [List.getD_eq_getElem arr default hi]
    exact (List.getElem_cons_drop arr i hi).symm
  have herase : arr.eraseIdx i = arr.take i ++ arr.drop (i + 1) :=
    List.eraseIdx_eq_take_drop_succ arr i
  rw [herase]
  conv_lhs => rw [hsplit]
  exact List.perm_middle

theorem mem_permsGo : ∀ (n : ℕ) (arr : List Node), n = arr.length →
    ∀ p : List Node, p ∈ permsGo n arr ↔ p ~ arr := by
  intro n
  induction n with
  | zero =>
    intro arr h p
    have harr : arr = [] := List.length_eq_zero.mp h.symm
    subst harr
    show p ∈ [[]] ↔ _
    simp only [List.mem_singleton]
    constructor
    · rintro rfl; exact List.Perm.refl _
    · intro hp; exact List.perm_nil.mp hp
  | succ n ih =>
    intro arr h p
    show p ∈ (List.range (n + 1)).foldl _ [] ↔ _
    rw [mem_foldl_append
      (fun i => (permsGo n (arr.eraseIdx i)).map (arr.getD i default :: ·))]
    simp only [List.not_mem_nil, false_or, List.mem_range, List.mem_map]
    constructor
    · rintro ⟨i, hi, q, hq, rfl⟩
      have hi' : i < arr.length := by omega
      have hlen : n = (arr.eraseIdx i).length := by
        rw [List.length_eraseIdx_of_lt hi']
        omega
      have hq' : q ~ arr.eraseIdx i := (ih _ hlen _).mp hq
      exact (hq'.cons _).trans (perm_getD_eraseIdx arr i hi').symm
    · intro hp
      have hlen : p.length = arr.length := hp.length_eq
      cases p with
      | nil =>
        exfalso
        rw [← h] at hlen
        simp at hlen
      | cons a q =>
        have ha : a ∈ arr := hp.subset (List.mem_cons_self a q)
        obtain ⟨⟨i, hi⟩, hget⟩ := List.mem_iff_get.mp ha
        have hgetD : arr.getD i default = a := by
          rw [List.getD_eq_getElem arr default hi]
          exact hget
        refine ⟨i, by omega, q, ?_, ?_⟩
        · have hlen2 : n = (arr.eraseIdx i).length := by
            rw [List.length_eraseIdx_of_lt hi]
            omega
          apply (ih _ hlen2 _).mpr
          have hcons : a :: q ~ a :: arr.eraseIdx i := by
            refine hp.trans ?_
            have := perm_getD_eraseIdx arr i hi
            rwa [hgetD] at this
          exact hcons.cons_inv
        · rw [hgetD]

/-- Value of the inner distance loop of `naive.ts` `solve`:
`for i in 0..n-1: total += distance(perm[i], perm[(i+1) % n])`. -/
def loopLen (ops : NumOps) (n : ℕ) (perm : List Node) : ℚ :=
  ((List.range n).map fun i =>
    distVal ops (perm.getD i default) (perm.getD ((i + 1) % n) default)).sum

/-- The accumulator update of the `totalDistance < minDistance` scan in
`naive.ts` `solve` (`minDistance` starts at `Infinity`). -/
def naiveBestStep (ops : NumOps) (n : ℕ) (acc : WithTop ℚ × List Node)
    (perm : List Node) : WithTop ℚ × List Node :=
  if (loopLen ops n perm : WithTop ℚ) < acc.1 then
    ((loopLen ops n perm : WithTop ℚ), perm)
  else acc

/-- `naive.ts` `solve` (the `Naive` algorithm).  `runtime` is modelled as 0.
Note the source captures the performance metrics before appending the
closing node, so the final `counter` bumps of the closing step never reach
the reported metrics; the embedding reports the same counters the source
reports. -/
def naiveSolve (ops : NumOps) (g : Graph) : Result :=
  let nodes := g.nodes
  let n := nodes.length
  if n = 0 then ⟨[], ⟨(0 : ℚ), 0, 0, 0⟩⟩
  else
    let pr := permute nodes ⟨0, 0⟩
    let c1 : OperationCounter := { pr.2 with reads := pr.2.reads + n }
    let best := pr.1.foldl
      (fun (acc : (WithTop ℚ × List Node) × OperationCounter) perm =>
        let td := (List.range n).foldl
          (fun (acc2 : ℚ × OperationCounter) i =>
            let dc := distance ops (perm.getD i default)
              (perm.getD ((i + 1) % n) default) acc2.2
            (acc2.1 + dc.1, dc.2)) (0, acc.2)
        if (td.1 : WithTop ℚ) < acc.1.1 then
          ((td.1, perm),
            { td.2 with
              reads := td.2.reads + perm.length
              writes := td.2.writes + perm.length })
        else (acc.1, td.2))
      ((⊤, []), c1)
    let bestPath := best.1.2
    let path := if bestPath.length > 1 then bestPath ++ [bestPath.getD 0 default]
      else bestPath
    ⟨path, ⟨best.1.1, 0, best.2.reads, best.2.writes⟩⟩

theorem foldl_distB_fst {β : Type _} (f : β → ℚ) (g : OperationCounter → OperationCounter) :
    ∀ (l : List β) (q : ℚ) (c0 : OperationCounter),
      (l.foldl (fun (acc : ℚ × OperationCounter) b => (acc.1 + f b, g acc.2)) (q, c0)).1
        = q + (l.map f).sum := by
  intro l
  induction l with
  | nil => intro q c0; simp
  | cons hd tl ih =>
    intro q c0
    simp only [List.foldl_cons, List.map_cons, List.sum_cons]
    rw [ih]
    ring

/-- The best-tour scan of `naive.ts` projects to `naiveBestStep`. -/
theorem naiveSolve_best_fst (ops : NumOps) (n : ℕ)
    (perms : List (List Node)) (p : (WithTop ℚ × List Node) × OperationCounter) :
    (perms.foldl
      (fun (acc : (WithTop ℚ × List Node) × OperationCounter) perm =>
        let td := (List.range n).foldl
          (fun (acc2 : ℚ × OperationCounter) i =>
            let dc := distance ops (perm.getD i default)
              (perm.getD ((i + 1) % n) default) acc2.2
            (acc2.1 + dc.1, dc.2)) (0, acc.2)
        if (td.1 : WithTop ℚ) < acc.1.1 then
          ((td.1, perm),
            { td.2 with
              reads := td.2.reads + perm.length
              writes := td.2.writes + perm.length })
        else (acc.1, td.2)) p).1 =
    perms.foldl (naiveBestStep ops n) p.1 := by
  apply foldl_pair_fst
  intro q perm
  have htd : ((List.range n).foldl
      (fun (acc2 : ℚ × OperationCounter) i =>
        let dc := distance ops (perm.getD i default)
          (perm.getD ((i + 1) % n) default) acc2.2
        (acc2.1 + dc.1, dc.2)) (0, q.2)).1 = loopLen ops n perm := by
    show ((List.range n).foldl
      (fun (acc2 : ℚ × OperationCounter) i =>
        (acc2.1 + distVal ops (perm.getD i default) (perm.getD ((i + 1) % n) default),
          { acc2.2 with reads := acc2.2.reads + 4 })) (0, q.2)).1 = _
    rw [foldl_distB_fst
      (fun i => distVal ops (perm.getD i default) (perm.getD ((i + 1) % n) default))
      (fun c0 => { c0 with reads := c0.reads + 4 })]
    simp [loopLen]
  simp only
  rw [htd]
  unfold naiveBestStep
  by_cases hc : (loopLen ops n perm : WithTop ℚ) < q.1.1
  · rw [if_pos hc, if_pos hc]
  · rw [if_neg hc, if_neg hc]

theorem naiveBestStep_le (ops : NumOps) (n : ℕ) :
    ∀ (l : List (List Node)) (acc : WithTop ℚ × List Node),
      (l.foldl (naiveBestStep ops n) acc).1 ≤ acc.1 ∧
      ∀ p ∈ l, (l.foldl (naiveBestStep ops n) acc).1 ≤ (loopLen ops n p : WithTop ℚ) := by
  intro l
  induction l with
  | nil => intro acc; exact ⟨le_refl _, by simp⟩
  | cons hd tl ih =>
    intro acc
    simp only [List.foldl_cons]
    have hstep_le : (naiveBestStep ops n acc hd).1 ≤ acc.1 := by
      unfold naiveBestStep
      split
      · next h => exact le_of_lt h
      · exact le_refl _
    have hstep_hd : (naiveBestStep ops n acc hd).1 ≤ (loopLen ops n hd : WithTop ℚ) := by
      unfold naiveBestStep
      split
      · exact le_refl _
      · next h => exact not_lt.mp h
    refine ⟨(ih _).1.trans hstep_le, ?_⟩
    intro p hp
    rcases List.mem_cons.mp hp with rfl | hp
    · exact (ih _).1.trans hstep_hd
    · exact (ih _).2 p hp

theorem naiveBestStep_mem (ops : NumOps) (n : ℕ) :
    ∀ (l : List (List Node)) (acc : WithTop ℚ × List Node),
      l.foldl (naiveBestStep ops n) acc = acc ∨
      ∃ p ∈ l, l.foldl (naiveBestStep ops n) acc =
        ((loopLen ops n p : WithTop ℚ), p) := by
  intro l
  induction l with
  | nil => intro acc; left; rfl
  | cons hd tl ih =>
    intro acc
    simp only [List.foldl_cons]
    rcases ih (naiveBestStep ops n acc hd) with h | h
    · rw [h]
      unfold naiveBestStep
      split
      · right; exact ⟨hd, List.mem_cons_self _ _, rfl⟩
      · left; rfl
    · rcases h with ⟨p, hp, he⟩
      right; exact ⟨p, List.mem_cons_of_mem _ hp, he⟩

theorem zip_tail_map_sum (F : Node → Node → ℚ) : ∀ (l : List Node),
    ((l.zip l.tail).map fun pr => F pr.1 pr.2).sum =
    ((List.range (l.length - 1)).map fun i =>
      F (l.getD i default) (l.getD (i + 1) default)).sum := by
  intro l
  induction l with
  | nil => rfl
  | cons a t ih =>
    cases t with
    | nil => rfl
    | cons b t' =>
      simp only [List.tail_cons] at ih
      simp only [List.zip_cons_cons, List.tail_cons, List.map_cons, List.sum_cons]
      rw [ih]
      have hlen : (a :: b :: t').length - 1 = (b :: t').length - 1 + 1 := by
        simp
      rw [hlen, List.range_succ_eq_map, List.map_cons, List.sum_cons]
      simp only [List.map_map, Function.comp_def, Nat.succ_eq_add_one,
        List.getD_cons_succ, List.getD_cons_zero]

theorem loopLen_eq_tourLen (ops : NumOps) (p : List Node) (hp : p ≠ []) :
    loopLen ops p.length p = tourLen ops p := by
  rcases Nat.lt_or_ge p.length 2 with h2 | h2
  · -- length 1 (nonempty): single self-distance, `Math.sqrt(0) = 0`
    obtain ⟨a, ha⟩ : ∃ a, p = [a] := by
      cases p with
      | nil => exact absurd rfl hp
      | cons a t =>
        cases t with
        | nil => exact ⟨a, rfl⟩
        | cons b t' =>
          exfalso
          simp only [List.length_cons] at h2
          omega
    subst ha
    have hr1 : List.range 1 = [0] := rfl
    simp [loopLen, tourLen, hr1, distVal_self]
  · have hn : p.length - 1 + 1 = p.length := by omega
    unfold loopLen tourLen
    rw [if_neg (by omega)]
    rw [zip_tail_map_sum (fun u v => distVal ops u v)]
    have hrange : List.range p.length = List.range (p.length - 1) ++ [p.length - 1] := by
      conv_lhs => rw [← hn]
      exact List.range_succ (p.length - 1)
    rw [hrange, List.map_append, List.sum_append, List.map_singleton,
      List.sum_singleton]
    congr 1
    · apply congrArg
      apply List.map_congr_left
      intro i hi
      have hilt : i < p.length - 1 := List.mem_range.mp hi
      rw [Nat.mod_eq_of_lt (by omega)]
    · rw [hn, Nat.mod_self]

theorem naiveSolve_path (ops : NumOps) (g : Graph) (h : g.nodes.length ≠ 0) :
    (naiveSolve ops g).path =
      (let res := (permsGo g.nodes.length g.nodes).foldl
        (naiveBestStep ops g.nodes.length) (⊤, [])
      if res.2.length > 1 then res.2 ++ [res.2.getD 0 default] else res.2) := by
  unfold naiveSolve
  simp only [h, if_false]
  rw [naiveSolve_best_fst]
  rw [show (permute g.nodes ⟨0, 0⟩).1 = permsGo g.nodes.length g.nodes from
    permuteGo_fst _ _ _]

theorem naiveSolve_distance (ops : NumOps) (g : Graph) (h : g.nodes.length ≠ 0) :
    (naiveSolve ops g).performance.distance =
      ((permsGo g.nodes.length g.nodes).foldl
        (naiveBestStep ops g.nodes.length) (⊤, [])).1 := by
  unfold naiveSolve
  simp only [h, if_false]
  rw [naiveSolve_best_fst]
  rw [show (permute g.nodes ⟨0, 0⟩).1 = permsGo g.nodes.length g.nodes from
    permuteGo_fst _ _ _]

/-- Characterization of the Naive solver on a nonempty graph: the reported
distance is the inner-loop length of some permutation of the nodes, it is
minimal over all permutations, and the path is that permutation closed when
longer than one node. -/
theorem naiveSolve_spec (ops : NumOps) (g : Graph) (h : g.nodes ≠ []) :
    ∃ p, p ~ g.nodes ∧
      (naiveSolve ops g).performance.distance =
        (loopLen ops g.nodes.length p : WithTop ℚ) ∧
      (naiveSolve ops g).path =
        (if p.length > 1 then p ++ [p.getD 0 default] else p) ∧
      ∀ q, q ~ g.nodes →
        (naiveSolve ops g).performance.distance ≤
          (loopLen ops g.nodes.length q : WithTop ℚ) := by
  have hlen : g.nodes.length ≠ 0 := by
    intro h0
    exact h (List.length_eq_zero.mp h0)
  have hmemiff := mem_permsGo g.nodes.length g.nodes rfl
  have hself : g.nodes ∈ permsGo g.nodes.length g.nodes :=
    (hmemiff g.nodes).mpr (List.Perm.refl _)
  have hle := naiveBestStep_le ops g.nodes.length (permsGo g.nodes.length g.nodes)
    (⊤, [])
  rcases naiveBestStep_mem ops g.nodes.length (permsGo g.nodes.length g.nodes)
    (⊤, []) with hcase | hcase
  · exfalso
    have h1 := hle.2 g.nodes hself
    rw [hcase] at h1
    exact (WithTop.not_top_le_coe _) h1
  · obtain ⟨p, hp, he⟩ := hcase
    refine ⟨p, (hmemiff p).mp hp, ?_, ?_, ?_⟩
    · rw [naiveSolve_distance ops g hlen, he]
    · rw [naiveSolve_path ops g hlen]
      simp only [he]
    · intro q hq
      rw [naiveSolve_distance ops g hlen]
      exact hle.2 q ((hmemiff q).mpr hq)

theorem naiveSolve_nil (ops : NumOps) (es : List Edge) :
    naiveSolve ops ⟨[], es⟩ = ⟨[], ⟨((0:ℚ) : WithTop ℚ), 0, 0, 0⟩⟩ := rfl

/-! ### `nearest-neighbour.ts` -/

/-- `nearest-neighbour.ts` `solve`. -/
def nearestNeighbourSolve (ops : NumOps) (g : Graph) : Result :=
  let nodes := g.nodes
  let n := nodes.length
  if n = 0 then ⟨[], ⟨((0:ℚ) : WithTop ℚ), 0, 0, 0⟩⟩
  else if n = 1 then ⟨[nodes.getD 0 default], ⟨((0:ℚ) : WithTop ℚ), 0, 1, 0⟩⟩
  else
    let tc := nearestNeighborTour ops nodes ⟨0, 0⟩
    let dc := tourDistance ops tc.1 tc.2
    let c2 : OperationCounter := { dc.2 with
      reads := dc.2.reads + tc.1.length
      writes := dc.2.writes + tc.1.length + 1 }
    let displayPath := tc.1 ++ [tc.1.getD 0 default]
    ⟨displayPath, ⟨(dc.1 : WithTop ℚ), 0, c2.reads, c2.writes⟩⟩

theorem nearestNeighbourSolve_nil (ops : NumOps) (es : List Edge) :
    nearestNeighbourSolve ops ⟨[], es⟩ = ⟨[], ⟨((0:ℚ) : WithTop ℚ), 0, 0, 0⟩⟩ := rfl

theorem nearestNeighbourSolve_single (ops : NumOps) (a : Node) (es : List Edge) :
    nearestNeighbourSolve ops ⟨[a], es⟩ =
      ⟨[a], ⟨((0:ℚ) : WithTop ℚ), 0, 1, 0⟩⟩ := rfl

/-- On `n ≥ 2` the Nearest Neighbour path is a closed permutation tour. -/
theorem nearestNeighbourSolve_path (ops : NumOps) (g : Graph)
    (h2 : 2 ≤ g.nodes.length) :
    ∃ tour, tour ~ g.nodes ∧
      (nearestNeighbourSolve ops g).path = tour ++ [tour.getD 0 default] := by
  have h0 : g.nodes.length ≠ 0 := by omega
  have h1 : g.nodes.length ≠ 1 := by omega
  refine ⟨(nearestNeighborTour ops g.nodes ⟨0, 0⟩).1,
    nearestNeighborTour_perm ops g.nodes ⟨0, 0⟩, ?_⟩
  unfold nearestNeighbourSolve
  simp only [h0, h1, if_false]

/-! ### `src/workers` (execution-context boundary) -/

/-- `src/types/tsp.ts` `AlgorithmConfig`: an open string-keyed bag of
numeric option values. -/
def AlgorithmConfig : Type := String → Option ℚ

/-- `src/workers/types.ts` `WorkerRequest` (the `type` field is a plain
string at runtime; the worker checks it). -/
structure WorkerRequest where
  type : String
  algorithmName : String
  graph : Graph
  config : Option AlgorithmConfig

/-- `src/workers/types.ts` `WorkerResponse`. -/
inductive WorkerResponse where
  | success (result : Result)
  | error (error : String)
deriving DecidableEq, Repr

/-- `src/workers/algorithm.worker.ts` `self.onmessage` for one request.
The registry is the `getAlgorithm` lookup; a heuristic's `solve` can throw
in JS, modelled by `Except.error` carrying the fault's message, which the
worker's `try`/`catch` converts into the error response variant. -/
def workerHandle
    (getAlgorithm : String →
      Option (Graph → Option AlgorithmConfig → Except String Result))
    (req : WorkerRequest) : WorkerResponse :=
  if req.type ≠ "run" then
    WorkerResponse.error ("Unknown message type: " ++ req.type)
  else
    match getAlgorithm req.algorithmName with
    | none => WorkerResponse.error ("Algorithm not found: " ++ req.algorithmName)
    | some solve =>
      match solve req.graph req.config with
      | Except.ok result => WorkerResponse.success result
      | Except.error msg => WorkerResponse.error msg

/-! ### `src/services/algorithmRunner.ts` -/

/-- `src/types/tsp.ts` `RunnerState`. -/
structure RunnerState where
  isRunning : Bool
  canCancel : Bool
  error : Option String
deriving DecidableEq, Repr

/-- The `code` field of `AlgorithmRunnerError`. -/
inductive ErrorCode where
  | TIMEOUT
  | CANCELLED
  | WORKER_ERROR
deriving DecidableEq, Repr

/-- One settlement of a `run()` promise. -/
inductive Outcome where
  | resolved (result : Result)
  | rejected (code : ErrorCode) (message : String)
deriving DecidableEq, Repr

structure Settlement where
  callId : ℕ
  outcome : Outcome
deriving DecidableEq, Repr

/-- A runner instance: the reactive `RunnerState` plus the closure
variables of `createAlgorithmRunner` — `currentReject` (identified by a
fresh id per `run()` call), `currentWorker` (as a liveness flag) and
`timeoutId` (as the armed duration) — plus the fresh-id counter. -/
structure Runner where
  state : RunnerState
  pending : Option ℕ
  worker : Bool
  timer : Option ℤ
  nextId : ℕ
deriving DecidableEq, Repr

/-- The state `createAlgorithmRunner` starts in. -/
def initialRunner : Runner := ⟨⟨false, false, none⟩, none, false, none, 0⟩

/-- The events a runner instance can receive: `run()` (with
`options.timeout` and whether `workerFactory()` throws), a worker
success/error message, an uncaught worker fault (`onerror`), timer expiry,
`cancel()` and `clearError()`. -/
inductive REvent where
  | runCall (timeout : Option ℤ) (create : Except String Unit)
  | msgSuccess (result : Result)
  | msgError (msg : String)
  | fault (msg : String)
  | timerFire
  | cancelCall
  | clearErrorCall

/-- `cleanup()`: clear the timer, terminate and drop the worker, null out
`currentReject`; `state.error` is preserved. -/
def cleanup (r : Runner) : Runner :=
  { r with
    timer := none
    worker := false
    pending := none
    state := { isRunning := false, canCancel := false, error := r.state.error } }

/-- `cancel()`: no-op unless running with a pending reject; otherwise set
the state to idle with `error := null`, run `cleanup()`, then reject the
pending promise with a `CANCELLED` error. -/
def cancelStep (r : Runner) : Runner × List Settlement :=
  match r.pending with
  | none => (r, [])
  | some id =>
    if r.state.isRunning then
      let r1 := { r with
        state := { isRunning := false, canCancel := false, error := none } }
      (cleanup r1,
        [⟨id, Outcome.rejected ErrorCode.CANCELLED "Algorithm cancelled by user"⟩])
    else (r, [])

/-- One event step of the runner; returns the new runner and the
settlements it performs, in order. -/
def runnerStep (r : Runner) (e : REvent) : Runner × List Settlement :=
  match e with
  | .runCall t create =>
    -- `if (state.value.isRunning) cancel()`
    let rs1 := if r.state.isRunning then cancelStep r else (r, [])
    let r1 := rs1.1
    let id := r1.nextId
    -- mark running, clear error; the promise executor stores `reject`
    let r2 := { r1 with
      state := { isRunning := true, canCancel := true, error := none }
      pending := some id
      nextId := id + 1 }
    match create with
    | .error m =>
      -- `workerFactory()` threw: report WORKER_ERROR synchronously
      let msg := "Failed to create worker: " ++ m
      ({ r2 with
          state := { isRunning := false, canCancel := false, error := some msg } },
        rs1.2 ++ [⟨id, Outcome.rejected ErrorCode.WORKER_ERROR msg⟩])
    | .ok _ =>
      let r3 := { r2 with worker := true }
      -- `if (options?.timeout && options.timeout > 0) timeoutId = setTimeout(...)`
      match t with
      | some v => if v ≠ 0 ∧ 0 < v then ({ r3 with timer := some v }, rs1.2)
        else (r3, rs1.2)
      | none => (r3, rs1.2)
  | .msgSuccess result =>
    if r.worker then
      match r.pending with
      | some id =>
        (cleanup { r with
            state := { isRunning := false, canCancel := false, error := none } },
          [⟨id, Outcome.resolved result⟩])
      | none =>
        -- unreachable: a live worker always belongs to a pending call
        (cleanup { r with
            state := { isRunning := false, canCancel := false, error := none } }, [])
    else (r, [])
  | .msgError m =>
    if r.worker then
      match r.pending with
      | some id =>
        (cleanup { r with
            state := { isRunning := false, canCancel := false, error := some m } },
          [⟨id, Outcome.rejected ErrorCode.WORKER_ERROR m⟩])
      | none =>
        (cleanup { r with
            state := { isRunning := false, canCancel := false, error := some m } }, [])
    else (r, [])
  | .fault m =>
    -- `event.message || 'Unknown worker error'` (empty string is falsy)
    let msg := if m = "" then "Unknown worker error" else m
    if r.worker then
      match r.pending with
      | some id =>
        (cleanup { r with
            state := { isRunning := false, canCancel := false, error := some msg } },
          [⟨id, Outcome.rejected ErrorCode.WORKER_ERROR msg⟩])
      | none =>
        (cleanup { r with
            state := { isRunning := false, canCancel := false, error := some msg } }, [])
    else (r, [])
  | .timerFire =>
    match r.timer with
    | some v =>
      let msg := "Algorithm timed out after " ++ toString v ++ "ms"
      match r.pending with
      | some id =>
        (cleanup { r with
            state := { isRunning := false, canCancel := false, error := some msg } },
          [⟨id, Outcome.rejected ErrorCode.TIMEOUT msg⟩])
      | none =>
        (cleanup { r with
            state := { isRunning := false, canCancel := false, error := some msg } }, [])
    | none => (r, [])
  | .cancelCall => cancelStep r
  | .clearErrorCall =>
    ({ r with state := { r.state with error := none } }, [])

/-- Run a whole sequence of events, collecting settlements in order. -/
def runnerTrace : Runner → List REvent → Runner × List Settlement
  | r, [] => (r, [])
  | r, e :: es =>
    let rs := runnerStep r e
    let rest := runnerTrace rs.1 es
    (rest.1, rs.2 ++ rest.2)

/-! #### Step equations for the runner -/

theorem cancelStep_no_pending {r : Runner} (hp : r.pending = none) :
    cancelStep r = (r, []) := by
  unfold cancelStep
  rw [hp]

theorem cancelStep_not_running {r : Runner} (h : r.state.isRunning = false) :
    cancelStep r = (r, []) := by
  unfold cancelStep
  cases hp : r.pending with
  | none => rfl
  | some id => rw [h]; simp

theorem cancelStep_running {r : Runner} {id : ℕ} (hrun : r.state.isRunning = true)
    (hp : r.pending = some id) :
    cancelStep r = (⟨⟨false, false, none⟩, none, false, none, r.nextId⟩,
      [⟨id, Outcome.rejected ErrorCode.CANCELLED "Algorithm cancelled by user"⟩]) := by
  unfold cancelStep
  rw [hp, hrun]
  simp [cleanup]

theorem runnerStep_msgSuccess_eq {r : Runner} {id : ℕ} (res : Result)
    (hw : r.worker = true) (hp : r.pending = some id) :
    runnerStep r (.msgSuccess res) =
      (⟨⟨false, false, none⟩, none, false, none, r.nextId⟩,
        [⟨id, Outcome.resolved res⟩]) := by
  unfold runnerStep
  rw [hw, hp]
  simp [cleanup]

theorem runnerStep_msgSuccess_no_worker {r : Runner} (res : Result)
    (hw : r.worker = false) : runnerStep r (.msgSuccess res) = (r, []) := by
  unfold runnerStep
  rw [hw]
  simp

theorem runnerStep_msgError_eq {r : Runner} {id : ℕ} (m : String)
    (hw : r.worker = true) (hp : r.pending = some id) :
    runnerStep r (.msgError m) =
      (⟨⟨false, false, some m⟩, none, false, none, r.nextId⟩,
        [⟨id, Outcome.rejected ErrorCode.WORKER_ERROR m⟩]) := by
  unfold runnerStep
  rw [hw, hp]
  simp [cleanup]

theorem runnerStep_msgError_no_worker {r : Runner} (m : String)
    (hw : r.worker = false) : runnerStep r (.msgError m) = (r, []) := by
  unfold runnerStep
  rw [hw]
  simp

theorem runnerStep_fault_eq {r : Runner} {id : ℕ} (m : String)
    (hw : r.worker = true) (hp : r.pending = some id) :
    runnerStep r (.fault m) =
      (⟨⟨false, false, some (if m = "" then "Unknown worker error" else m)⟩,
        none, false, none, r.nextId⟩,
        [⟨id, Outcome.rejected ErrorCode.WORKER_ERROR
          (if m = "" then "Unknown worker error" else m)⟩]) := by
  unfold runnerStep
  rw [hw, hp]
  simp [cleanup]

theorem runnerStep_fault_no_worker {r : Runner} (m : String)
    (hw : r.worker = false) : runnerStep r (.fault m) = (r, []) := by
  unfold runnerStep
  rw [hw]
  simp

theorem runnerStep_timerFire_eq {r : Runner} {v : ℤ} {id : ℕ}
    (ht : r.timer = some v) (hp : r.pending = some id) :
    runnerStep r .timerFire =
      (⟨⟨false, false, some ("Algorithm timed out after " ++ toString v ++ "ms")⟩,
        none, false, none, r.nextId⟩,
        [⟨id, Outcome.rejected ErrorCode.TIMEOUT
          ("Algorithm timed out after " ++ toString v ++ "ms")⟩]) := by
  unfold runnerStep
  rw [ht, hp]
  simp [cleanup]

theorem runnerStep_timerFire_none {r : Runner} (ht : r.timer = none) :
    runnerStep r .timerFire = (r, []) := by
  unfold runnerStep
  rw [ht]

theorem runnerStep_clearError_eq (r : Runner) :
    runnerStep r .clearErrorCall =
      ({ r with state := { r.state with error := none } }, []) := rfl

theorem runnerStep_cancel_eq (r : Runner) :
    runnerStep r .cancelCall = cancelStep r := rfl

theorem runnerStep_runCall_running_ok {r : Runner} {p : ℕ} (t : Option ℤ)
    (hrun : r.state.isRunning = true) (hp : r.pending = some p) :
    runnerStep r (.runCall t (.ok ())) =
      (⟨⟨true, true, none⟩, some r.nextId, true,
        (match t with
          | some v => if v ≠ 0 ∧ 0 < v then some v else none
          | none => none), r.nextId + 1⟩,
      [⟨p, Outcome.rejected ErrorCode.CANCELLED "Algorithm cancelled by user"⟩]) := by
  unfold runnerStep
  cases t with
  | none => simp [hrun, cancelStep_running hrun hp]
  | some v =>
    by_cases hv : v ≠ 0 ∧ 0 < v
    · simp only [hrun, cancelStep_running hrun hp, if_pos hv]
      simp
    · simp only [hrun, cancelStep_running hrun hp, if_neg hv]
      simp

theorem runnerStep_runCall_idle_ok {r : Runner} (t : Option ℤ)
    (hrun : r.state.isRunning = false) :
    runnerStep r (.runCall t (.ok ())) =
      (⟨⟨true, true, none⟩, some r.nextId, true,
        (match t with
          | some v => if v ≠ 0 ∧ 0 < v then some v else r.timer
          | none => r.timer), r.nextId + 1⟩, []) := by
  unfold runnerStep
  cases t with
  | none => simp [hrun]
  | some v =>
    by_cases hv : v ≠ 0 ∧ 0 < v
    · simp only [hrun, if_pos hv]
      simp
    · simp only [hrun, if_neg hv]
      simp

theorem runnerStep_runCall_running_err {r : Runner} {p : ℕ} (t : Option ℤ)
    (m : String) (hrun : r.state.isRunning = true) (hp : r.pending = some p) :
    runnerStep r (.runCall t (.error m)) =
      (⟨⟨false, false, some ("Failed to create worker: " ++ m)⟩,
        some r.nextId, false, none, r.nextId + 1⟩,
      [⟨p, Outcome.rejected ErrorCode.CANCELLED "Algorithm cancelled by user"⟩,
        ⟨r.nextId, Outcome.rejected ErrorCode.WORKER_ERROR
          ("Failed to create worker: " ++ m)⟩]) := by
  unfold runnerStep
  simp [hrun, cancelStep_running hrun hp]

theorem runnerStep_runCall_idle_err {r : Runner} (t : Option ℤ) (m : String)
    (hrun : r.state.isRunning = false) :
    runnerStep r (.runCall t (.error m)) =
      (⟨⟨false, false, some ("Failed to create worker: " ++ m)⟩,
        some r.nextId, r.worker, r.timer, r.nextId + 1⟩,
      [⟨r.nextId, Outcome.rejected ErrorCode.WORKER_ERROR
        ("Failed to create worker: " ++ m)⟩]) := by
  unfold runnerStep
  simp [hrun]

/-- Reachability invariant of a runner instance, relative to the list of
call ids whose promises have already settled. -/
structure RInv (r : Runner) (settled : List ℕ) : Prop where
  lt_next : ∀ id ∈ settled, id < r.nextId
  pending_lt : ∀ id, r.pending = some id → id < r.nextId
  running_pending : r.state.isRunning = true → ∃ id, r.pending = some id ∧ id ∉ settled
  worker_running : r.worker = true → r.state.isRunning = true
  timer_running : ∀ v, r.timer = some v → r.state.isRunning = true

theorem RInv_initial : RInv initialRunner [] := by
  constructor <;> simp [initialRunner]

/-- An idle runner after a settlement: nothing pending, nothing live. -/
theorem RInv_settled {st : RunnerState} {nid newId : ℕ} {settled : List ℕ}
    (hst : st.isRunning = false)
    (hlt : ∀ id ∈ settled, id < nid) (hnew : newId < nid) :
    RInv ⟨st, none, false, none, nid⟩ (settled ++ [newId]) := by
  constructor
  · intro id hid
    rcases List.mem_append.mp hid with h | h
    · exact hlt id h
    · rw [List.mem_singleton.mp h]; exact hnew
  · intro id h; exact Option.noConfusion h
  · intro h; rw [hst] at h; exact Bool.noConfusion h
  · intro h; exact Bool.noConfusion h
  · intro v h; exact Option.noConfusion h

/-- One runner step preserves the invariant; everything it settles is fresh
and settled at most once within the step. -/
theorem runnerStep_inv {r : Runner} {settled : List ℕ} (e : REvent)
    (h : RInv r settled) :
    RInv (runnerStep r e).1 (settled ++ (runnerStep r e).2.map (·.callId)) ∧
    (∀ s ∈ (runnerStep r e).2, s.callId ∉ settled) ∧
    ((runnerStep r e).2.map (·.callId)).Nodup := by
  have noop : ∀ (r' : Runner), runnerStep r e = (r', []) → RInv r' settled →
      RInv (runnerStep r e).1 (settled ++ (runnerStep r e).2.map (·.callId)) ∧
      (∀ s ∈ (runnerStep r e).2, s.callId ∉ settled) ∧
      ((runnerStep r e).2.map (·.callId)).Nodup := by
    intro r' he hinv
    rw [he]
    simpa using hinv
  cases e with
  | clearErrorCall =>
    rw [runnerStep_clearError_eq]
    refine ⟨?_, by simp, by simp⟩
    simp only [List.map_nil, List.append_nil]
    constructor
    · exact h.lt_next
    · exact h.pending_lt
    · exact h.running_pending
    · exact h.worker_running
    · exact h.timer_running
  | msgSuccess res =>
    cases hw : r.worker with
    | false => exact noop r (runnerStep_msgSuccess_no_worker res hw) h
    | true =>
      obtain ⟨id, hp, hid⟩ := h.running_pending (h.worker_running hw)
      rw [runnerStep_msgSuccess_eq res hw hp]
      refine ⟨RInv_settled rfl h.lt_next (h.pending_lt id hp), ?_, by simp⟩
      intro s hs
      rw [List.mem_singleton.mp hs]
      exact hid
  | msgError m =>
    cases hw : r.worker with
    | false => exact noop r (runnerStep_msgError_no_worker m hw) h
    | true =>
      obtain ⟨id, hp, hid⟩ := h.running_pending (h.worker_running hw)
      rw [runnerStep_msgError_eq m hw hp]
      refine ⟨RInv_settled rfl h.lt_next (h.pending_lt id hp), ?_, by simp⟩
      intro s hs
      rw [List.mem_singleton.mp hs]
      exact hid
  | fault m =>
    cases hw : r.worker with
    | false => exact noop r (runnerStep_fault_no_worker m hw) h
    | true =>
      obtain ⟨id, hp, hid⟩ := h.running_pending (h.worker_running hw)
      rw [runnerStep_fault_eq m hw hp]
      refine ⟨RInv_settled rfl h.lt_next (h.pending_lt id hp), ?_, by simp⟩
      intro s hs
      rw [List.mem_singleton.mp hs]
      exact hid
  | timerFire =>
    cases ht : r.timer with
    | none => exact noop r (runnerStep_timerFire_none ht) h
    | some v =>
      obtain ⟨id, hp, hid⟩ := h.running_pending (h.timer_running v ht)
      rw [runnerStep_timerFire_eq ht hp]
      refine ⟨RInv_settled rfl h.lt_next (h.pending_lt id hp), ?_, by simp⟩
      intro s hs
      rw [List.mem_singleton.mp hs]
      exact hid
  | cancelCall =>
    rw [runnerStep_cancel_eq]
    cases hrun : r.state.isRunning with
    | false =>
      rw [cancelStep_not_running hrun]
      simpa using h
    | true =>
      obtain ⟨id, hp, hid⟩ := h.running_pending hrun
      rw [cancelStep_running hrun hp]
      refine ⟨RInv_settled rfl h.lt_next (h.pending_lt id hp), ?_, by simp⟩
      intro s hs
      rw [List.mem_singleton.mp hs]
      exact hid
  | runCall t create =>
    cases hrun : r.state.isRunning with
    | false =>
      have hwf : r.worker = false := by
        cases hwc : r.worker with
        | false => rfl
        | true => rw [h.worker_running hwc] at hrun; exact Bool.noConfusion hrun
      have htf : r.timer = none := by
        cases htc : r.timer with
        | none => rfl
        | some v => rw [h.timer_running v htc] at hrun; exact Bool.noConfusion hrun
      cases create with
      | ok u =>
        cases u
        rw [runnerStep_runCall_idle_ok t hrun]
        refine ⟨?_, by simp, by simp⟩
        simp only [List.map_nil, List.append_nil]
        refine ⟨?_, ?_, ?_, ?_, ?_⟩
        · intro id hid
          show id < r.nextId + 1
          exact Nat.lt_succ_of_lt (h.lt_next id hid)
        · intro id hid
          have : r.nextId = id := Option.some.inj hid
          show id < r.nextId + 1
          omega
        · intro _
          refine ⟨r.nextId, rfl, fun hmem => ?_⟩
          exact absurd (h.lt_next _ hmem) (Nat.lt_irrefl _)
        · intro _; rfl
        · intro v hv
          rfl
      | error m =>
        rw [runnerStep_runCall_idle_err t m hrun, hwf, htf]
        have hfresh : r.nextId ∉ settled := fun hmem =>
          absurd (h.lt_next _ hmem) (Nat.lt_irrefl _)
        refine ⟨?_, ?_, by simp⟩
        · refine ⟨?_, ?_, ?_, ?_, ?_⟩
          · intro id hid
            show id < r.nextId + 1
            rcases List.mem_append.mp hid with hmem | hmem
            · exact Nat.lt_succ_of_lt (h.lt_next id hmem)
            · simp only [List.map_cons, List.map_nil, List.mem_singleton] at hmem
              omega
          · intro id hid
            have : r.nextId = id := Option.some.inj hid
            show id < r.nextId + 1
            omega
          · intro hcontra; exact Bool.noConfusion hcontra
          · intro hw; exact Bool.noConfusion hw
          · intro v hv; exact Option.noConfusion hv
        · intro s hs
          rw [List.mem_singleton.mp hs]
          exact hfresh
    | true =>
      obtain ⟨p, hp, hpid⟩ := h.running_pending hrun
      have hplt : p < r.nextId := h.pending_lt p hp
      have hfresh : r.nextId ∉ settled := fun hmem =>
        absurd (h.lt_next _ hmem) (Nat.lt_irrefl _)
      cases create with
      | ok u =>
        cases u
        rw [runnerStep_runCall_running_ok t hrun hp]
        refine ⟨?_, ?_, by simp⟩
        · refine ⟨?_, ?_, ?_, ?_, ?_⟩
          · intro id hid
            show id < r.nextId + 1
            rcases List.mem_append.mp hid with hmem | hmem
            · exact Nat.lt_succ_of_lt (h.lt_next id hmem)
            · simp only [List.map_cons, List.map_nil, List.mem_singleton] at hmem
              omega
          · intro id hid
            have : r.nextId = id := Option.some.inj hid
            show id < r.nextId + 1
            omega
          · intro _
            refine ⟨r.nextId, rfl, fun hmem => ?_⟩
            rcases List.mem_append.mp hmem with hmem | hmem
            · exact absurd (h.lt_next _ hmem) (Nat.lt_irrefl _)
            · simp only [List.map_cons, List.map_nil, List.mem_singleton] at hmem
              omega
          · intro _; rfl
          · intro v hv; rfl
        · intro s hs
          rw [List.mem_singleton.mp hs]
          exact hpid
      | error m =>
        rw [runnerStep_runCall_running_err t m hrun hp]
        refine ⟨?_, ?_, ?_⟩
        · refine ⟨?_, ?_, ?_, ?_, ?_⟩
          · intro id hid
            show id < r.nextId + 1
            rcases List.mem_append.mp hid with hmem | hmem
            · exact Nat.lt_succ_of_lt (h.lt_next id hmem)
            · simp only [List.map_cons, List.map_nil, List.mem_cons,
                List.mem_singleton, List.not_mem_nil, or_false] at hmem
              rcases hmem with hmem | hmem <;> omega
          · intro id hid
            have : r.nextId = id := Option.some.inj hid
            show id < r.nextId + 1
            omega
          · intro hcontra; exact Bool.noConfusion hcontra
          · intro hw; exact Bool.noConfusion hw
          · intro v hv; exact Option.noConfusion hv
        · intro s hs
          rcases List.mem_cons.mp hs with hs | hs
          · rw [hs]; exact hpid
          · rw [List.mem_singleton.mp hs]
            exact hfresh
        · simp only [List.map_cons, List.map_nil]
          refine List.nodup_cons.mpr ⟨?_, by simp⟩
          simp only [List.mem_cons, List.not_mem_nil, or_false,
            List.mem_singleton]
          omega

theorem runnerTrace_inv : ∀ (es : List REvent) (r : Runner) (settled : List ℕ),
    RInv r settled → settled.Nodup →
    (settled ++ (runnerTrace r es).2.map (·.callId)).Nodup := by
  intro es
  induction es with
  | nil =>
    intro r settled _ hnd
    simpa [runnerTrace] using hnd
  | cons e rest ih =>
    intro r settled h hnd
    obtain ⟨hinv, hfresh, hnodup⟩ := runnerStep_inv e h
    have hnd1 : (settled ++ (runnerStep r e).2.map (·.callId)).Nodup := by
      rw [List.nodup_append]
      refine ⟨hnd, hnodup, ?_⟩
      intro a ha hb
      obtain ⟨s, hs, hsid⟩ := List.mem_map.mp hb
      rw [← hsid] at ha
      exact hfresh s hs ha
    have := ih (runnerStep r e).1 _ hinv hnd1
    show (settled ++ (runnerTrace r (e :: rest)).2.map (·.callId)).Nodup
    have htr : (runnerTrace r (e :: rest)).2 =
        (runnerStep r e).2 ++ (runnerTrace (runnerStep r e).1 rest).2 := rfl
    rw [htr, List.map_append, ← List.append_assoc]
    exact this

/-- Over any event sequence from the initial state, no `run()` call's
promise is settled twice. -/
theorem runnerTrace_settles_once (es : List REvent) :
    ((runnerTrace initialRunner es).2.map (·.callId)).Nodup := by
  have := runnerTrace_inv es initialRunner [] RInv_initial List.nodup_nil
  simpa using this

/-! ### `kopt.ts` -/

/-- The improvement epsilon `1e-10` used by the local searches. -/
def eps : ℚ := 1 / 10000000000

/-- Mutable locals of the `kopt.ts` optimization loops:
`currentTour`, `bestDistance`, `improved`, and the shared counter. -/
structure OptSt where
  tour : List Node
  best : ℚ
  improved : Bool
  cnt : OperationCounter

/-- `kopt.ts` `twoOptSwap(tour, i, j, counter)`: `tour.slice(0, i)`, then
`tour[j] .. tour[i]` downwards, then `tour[j+1] ..` upwards — i.e. the
segment `[i, j]` reversed in place. -/
def koptTwoOptSwap (tour : List Node) (i j : ℕ) (c : OperationCounter) :
    List Node × OperationCounter :=
  (tour.take i ++ ((tour.take (j + 1)).drop i).reverse ++ tour.drop (j + 1),
    { c with reads := c.reads + tour.length, writes := c.writes + tour.length })

theorem take_decomp {α : Type _} (l : List α) {a b : ℕ} (hab : a ≤ b) :
    l.take b = l.take a ++ (l.take b).drop a := by
  conv_lhs => rw [← List.take_append_drop a (l.take b)]
  rw [List.take_take, min_eq_left hab]

theorem drop_decomp {α : Type _} (l : List α) {a b : ℕ} (hab : a ≤ b) :
    (l.take b).drop a ++ l.drop b = l.drop a := by
  rcases le_or_lt a l.length with hle | hlt
  · conv_rhs => rw [← List.take_append_drop b l]
    rw [List.drop_append_eq_append_drop]
    have hmin : (l.take b).length = min b l.length := List.length_take _ _
    have : a - (l.take b).length = 0 := by omega
    rw [this, List.drop_zero]
  · have h1 : (l.take b).drop a = [] := by
      apply List.drop_eq_nil_of_le
      rw [List.length_take]
      omega
    have h2 : l.drop b = [] := List.drop_eq_nil_of_le (by omega)
    have h3 : l.drop a = [] := List.drop_eq_nil_of_le (by omega)
    rw [h1, h2, h3]
    rfl

theorem koptTwoOptSwap_perm (tour : List Node) {i j : ℕ} (c : OperationCounter)
    (hij : i ≤ j + 1) : (koptTwoOptSwap tour i j c).1 ~ tour := by
  unfold koptTwoOptSwap
  have hsplit : tour = (tour.take i ++ (tour.take (j + 1)).drop i) ++ tour.drop (j + 1) := by
    conv_lhs => rw [← List.take_append_drop (j + 1) tour]
    congr 1
    exact take_decomp tour hij
  conv_rhs => rw [hsplit]
  exact ((List.Perm.refl _).append
    ((tour.take (j + 1)).drop i).reverse_perm).append (List.Perm.refl _)

/-- One candidate test of `optimize2Opt` (the `j === i + 1` `continue` can
never fire since `j` starts at `i + 2`). -/
def opt2Try (ops : NumOps) (st : OptSt) (i j : ℕ) : OptSt :=
  let sw := koptTwoOptSwap st.tour (i + 1) j st.cnt
  let dc := tourDistance ops sw.1 sw.2
  if dc.1 < st.best - eps then ⟨sw.1, dc.1, true, dc.2⟩
  else ⟨st.tour, st.best, st.improved, dc.2⟩

/-- One full `i`/`j` sweep of `optimize2Opt`. -/
def opt2Pass (ops : NumOps) (len : ℕ) (st : OptSt) : OptSt :=
  (List.range (len - 1)).foldl (fun st1 i =>
    (List.range' (i + 2) (len - (i + 2))).foldl (fun st2 j => opt2Try ops st2 i j) st1) st

/-- The `while (improved)` loop of `optimize2Opt`, with fuel. -/
def opt2Loop (ops : NumOps) (len : ℕ) : ℕ → OptSt → OptSt
  | 0, st => st
  | fuel + 1, st =>
    let p := opt2Pass ops len { st with improved := false }
    if p.improved then opt2Loop ops len fuel p else p

/-- `kopt.ts` `optimize2Opt(tour, counter)`. -/
def optimize2Opt (ops : NumOps) (fuel : ℕ) (tour : List Node) (c : OperationCounter) :
    List Node × OperationCounter :=
  if tour.length < 4 then (tour, c)
  else
    let c1 : OperationCounter := { c with
      reads := c.reads + tour.length
      writes := c.writes + tour.length }
    let dc := tourDistance ops tour c1
    let res := opt2Loop ops tour.length fuel ⟨tour, dc.1, true, dc.2⟩
    (res.tour, res.cnt)

/-- `kopt.ts` `generate3OptCandidates`: segments `A = [0..i]`,
`B = [i+1..j]`, `C = [j+1..k]`, `D = [k+1..]` and the 7 non-identity
reconnections. -/
def generate3OptCandidates (tour : List Node) (i j k : ℕ) (c : OperationCounter) :
    List (List Node) × OperationCounter :=
  let A := tour.take (i + 1)
  let B := (tour.take (j + 1)).drop (i + 1)
  let C := (tour.take (k + 1)).drop (j + 1)
  let D := tour.drop (k + 1)
  ([A ++ B.reverse ++ C ++ D,
    A ++ B ++ C.reverse ++ D,
    A ++ B.reverse ++ C.reverse ++ D,
    A ++ C ++ B ++ D,
    A ++ C ++ B.reverse ++ D,
    A ++ C.reverse ++ B ++ D,
    A ++ C.reverse ++ B.reverse ++ D],
   { c with
      reads := c.reads + tour.length * 7
      writes := c.writes + tour.length * 7 })

/-- One break-point triple of `optimize3Opt`: generate the 7 candidates
from the current tour and accept improvements in order. -/
def opt3Try (ops : NumOps) (st : OptSt) (i j k : ℕ) : OptSt :=
  let gc := generate3OptCandidates st.tour i j k st.cnt
  gc.1.foldl (fun st2 cand =>
    let dc := tourDistance ops cand st2.cnt
    if dc.1 < st2.best - eps then ⟨cand, dc.1, true, dc.2⟩
    else { st2 with cnt := dc.2 }) ⟨st.tour, st.best, st.improved, gc.2⟩

/-- One full `i`/`j`/`k` sweep of `optimize3Opt`. -/
def opt3Pass (ops : NumOps) (len : ℕ) (st : OptSt) : OptSt :=
  (List.range (len - 4)).foldl (fun st1 i =>
    (List.range' (i + 2) ((len - 2) - (i + 2))).foldl (fun st2 j =>
      (List.range' (j + 2) (len - (j + 2))).foldl (fun st3 k =>
        opt3Try ops st3 i j k) st2) st1) st

def opt3Loop (ops : NumOps) (len : ℕ) : ℕ → OptSt → OptSt
  | 0, st => st
  | fuel + 1, st =>
    let p := opt3Pass ops len { st with improved := false }
    if p.improved then opt3Loop ops len fuel p else p

/-- `kopt.ts` `optimize3Opt(tour, counter)` (falls back to 2-opt below 6
nodes). -/
def optimize3Opt (ops : NumOps) (fuel : ℕ) (tour : List Node) (c : OperationCounter) :
    List Node × OperationCounter :=
  if tour.length < 6 then optimize2Opt ops fuel tour c
  else
    let c1 : OperationCounter := { c with
      reads := c.reads + tour.length
      writes := c.writes + tour.length }
    let dc := tourDistance ops tour c1
    let res := opt3Loop ops tour.length fuel ⟨tour, dc.1, true, dc.2⟩
    (res.tour, res.cnt)

/-- The ascending `ℤ` index list `start, start+1, ..., start+count-1` of a
JS `for (let i = start; i <= maxStart; i++)` loop. -/
def intRange (start : ℤ) (count : ℕ) : List ℤ :=
  (List.range count).map (fun (d : ℕ) => start + (d : ℤ))

theorem mem_intRange {start : ℤ} {count : ℕ} {i : ℤ} (h : i ∈ intRange start count) :
    start ≤ i := by
  obtain ⟨d, _, rfl⟩ := List.mem_map.mp h
  have : (0:ℤ) ≤ (d : ℤ) := Int.natCast_nonneg d
  omega

/-- The recursion of `kopt.ts` `generateKOptPositions`: `rem` is
`k - current.length`; `maxStart = n - remaining * minGap` is a JS number
that can go negative, hence `ℤ`. -/
def kOptPosGo (n : ℕ) : (rem : ℕ) → List ℕ → ℤ → List (List ℕ)
  | 0, current, _ => [current]
  | rem + 1, current, start =>
    let maxStart : ℤ := (n : ℤ) - (rem + 1) * 2
    (intRange start ((maxStart - start + 1).toNat)).foldl
      (fun acc i => acc ++ kOptPosGo n rem (current ++ [i.toNat]) (i + 2)) []

/-- The `i += step` sub-sampling loop of `generateKOptPositions`
(`for (i = 0; i < len; i += step)` visits `⌈len / step⌉` indices for
`step ≥ 1`; the source guarantees `step ≥ 1` because it only samples when
`len > 1000`). -/
def sampleEvery (xs : List (List ℕ)) (step : ℕ) : List (List ℕ) :=
  (List.range ((xs.length + step - 1) / step)).map (fun t => xs.getD (t * step) [])

/-- `kopt.ts` `generateKOptPositions(n, k)`. -/
def generateKOptPositions (n k : ℕ) : List (List ℕ) :=
  let positions := kOptPosGo n k [] 0
  if positions.length > 1000 then sampleEvery positions (positions.length / 1000)
  else positions

/-- Leaf of `kopt.ts` `generateSegmentPermutations`: for a fully permuted
index array, push one segment arrangement per reversal mask
(`mask & (1 << i)` tests bit `i`). -/
def segPermLeaf (segments : List (List Node)) (arr : List ℕ) :
    List (List (List Node)) :=
  (List.range (2 ^ arr.length)).map (fun mask =>
    (List.range arr.length).map (fun i =>
      let segment := segments.getD (arr.getD i 0) []
      if Nat.testBit mask i then segment.reverse else segment))

/-- The swap-based index permutation recursion of
`generateSegmentPermutations`; `rem = arr.length - start`. -/
def segPermGo (segments : List (List Node)) : (rem : ℕ) → List ℕ → List (List (List Node))
  | 0, arr => segPermLeaf segments arr
  | rem + 1, arr =>
    let start := arr.length - (rem + 1)
    (List.range' start (rem + 1)).foldl (fun acc i =>
      acc ++ segPermGo segments rem (listSwap arr start i)) []

/-- `kopt.ts` `generateSegmentPermutations(segments)` (results capped at
100). -/
def generateSegmentPermutations (segments : List (List Node)) :
    List (List (List Node)) :=
  if segments.length = 0 then [[]]
  else if segments.length = 1 then
    [[segments.getD 0 []], [(segments.getD 0 []).reverse]]
  else
    let results := segPermGo segments segments.length (List.range segments.length)
    if results.length > 100 then results.take 100 else results

/-- The `segments` construction of `generateKOptCandidates`: consecutive
`tour.slice(prevPos, pos + 1)` pieces plus the final `tour.slice(prevPos)`
piece when anything remains. -/
def buildSegments (tour : List Node) (positions : List ℕ) : List (List Node) :=
  let segsAcc := positions.foldl
    (fun (acc : List (List Node) × ℕ) pos =>
      (acc.1 ++ [(tour.take (pos + 1)).drop acc.2], pos + 1)) ([], 0)
  if segsAcc.2 < tour.length
    then segsAcc.1 ++ [tour.drop segsAcc.2] else segsAcc.1

/-- `kopt.ts` `generateKOptCandidates(tour, positions, counter)`. -/
def generateKOptCandidates (tour : List Node) (positions : List ℕ)
    (c : OperationCounter) : List (List Node) × OperationCounter :=
  let segments := buildSegments tour positions
  let middleSegments := (segments.drop 1).dropLast
  let permutations := generateSegmentPermutations middleSegments
  let candidates := permutations.foldl (fun acc perm =>
    let newTour := (segments.getD 0 []) ++ perm.flatten ++
      (segments.getD (segments.length - 1) [])
    if newTour.length = tour.length then acc ++ [newTour] else acc) []
  (candidates,
    { c with
      reads := c.reads + tour.length
      writes := c.writes + tour.length * permutations.length })

/-- Candidate scan of `optimizeKOpt` (breaks at the first improvement). -/
def kOptScan (ops : NumOps) : List (List Node) → OptSt → OptSt
  | [], st => st
  | cand :: rest, st =>
    let dc := tourDistance ops cand st.cnt
    if dc.1 < st.best - eps then ⟨cand, dc.1, true, dc.2⟩
    else kOptScan ops rest { st with cnt := dc.2 }

/-- Position scan of `optimizeKOpt` (breaks once an improvement is found). -/
def kOptPosScan (ops : NumOps) : List (List ℕ) → OptSt → OptSt
  | [], st => st
  | pos :: rest, st =>
    let gc := generateKOptCandidates st.tour pos st.cnt
    let st1 := kOptScan ops gc.1 { st with cnt := gc.2 }
    if st1.improved then st1 else kOptPosScan ops rest st1

def kOptLoop (ops : NumOps) (positions : List (List ℕ)) : ℕ → OptSt → OptSt
  | 0, st => st
  | fuel + 1, st =>
    let p := kOptPosScan ops positions { st with improved := false }
    if p.improved then kOptLoop ops positions fuel p else p

/-- `kopt.ts` `optimizeKOpt(tour, k, counter)` (for `k > 3`; falls back to
3-opt when the tour is shorter than `2k`). -/
def optimizeKOpt (ops : NumOps) (fuel : ℕ) (k : ℕ) (tour : List Node)
    (c : OperationCounter) : List Node × OperationCounter :=
  if tour.length < 2 * k then optimize3Opt ops fuel tour c
  else
    let t3 := optimize3Opt ops fuel tour c
    let dc := tourDistance ops t3.1 t3.2
    let positions := generateKOptPositions t3.1.length k
    let res := kOptLoop ops positions fuel ⟨t3.1, dc.1, true, dc.2⟩
    (res.tour, res.cnt)

/-- `kopt.ts` `solve` (the `k-opt` algorithm); `k` is
`(config?.k as number) ?? 2`. -/
def koptSolve (ops : NumOps) (fuel : ℕ) (k : ℕ) (g : Graph) : Result :=
  let nodes := g.nodes
  let n := nodes.length
  if n = 0 then ⟨[], ⟨((0:ℚ) : WithTop ℚ), 0, 0, 0⟩⟩
  else if n = 1 then ⟨[nodes.getD 0 default], ⟨((0:ℚ) : WithTop ℚ), 0, 1, 0⟩⟩
  else
    let tc := nearestNeighborTour ops nodes ⟨0, 0⟩
    let opt := if k = 2 then optimize2Opt ops fuel tc.1 tc.2
      else if k = 3 then optimize3Opt ops fuel tc.1 tc.2
      else optimizeKOpt ops fuel k tc.1 tc.2
    let dc := tourDistance ops opt.1 opt.2
    let c2 : OperationCounter := { dc.2 with
      reads := dc.2.reads + opt.1.length
      writes := dc.2.writes + opt.1.length + 1 }
    let displayPath := opt.1 ++ [opt.1.getD 0 default]
    ⟨displayPath, ⟨(dc.1 : WithTop ℚ), 0, c2.reads, c2.writes⟩⟩

theorem opt2Try_perm (ops : NumOps) (st : OptSt) {i j : ℕ} (hij : i ≤ j) :
    (opt2Try ops st i j).tour ~ st.tour := by
  unfold opt2Try
  dsimp only
  split
  · exact koptTwoOptSwap_perm st.tour st.cnt (by omega)
  · exact List.Perm.refl _

theorem opt2Pass_perm (ops : NumOps) (len : ℕ) (st : OptSt) :
    (opt2Pass ops len st).tour ~ st.tour := by
  unfold opt2Pass
  have inner : ∀ (i : ℕ) (js : List ℕ), (∀ j ∈ js, i ≤ j) → ∀ (s : OptSt),
      ((js.foldl (fun st2 j => opt2Try ops st2 i j) s).tour) ~ s.tour := by
    intro i js
    induction js with
    | nil => intro _ s; exact List.Perm.refl _
    | cons hd tl ih =>
      intro hmem s
      simp only [List.foldl_cons]
      exact (ih (fun j hj => hmem j (List.mem_cons_of_mem _ hj)) _).trans
        (opt2Try_perm ops s (hmem hd (List.mem_cons_self _ _)))
  have outer : ∀ (is : List ℕ) (s : OptSt),
      ((is.foldl (fun st1 i =>
        (List.range' (i + 2) (len - (i + 2))).foldl
          (fun st2 j => opt2Try ops st2 i j) st1) s).tour) ~ s.tour := by
    intro is
    induction is with
    | nil => intro s; exact List.Perm.refl _
    | cons hd tl ih =>
      intro s
      simp only [List.foldl_cons]
      refine (ih _).trans (inner hd _ ?_ s)
      intro j hj
      have := List.mem_range'_1.mp hj
      omega
  exact outer _ st

theorem opt2Loop_perm (ops : NumOps) (len : ℕ) :
    ∀ (fuel : ℕ) (st : OptSt), (opt2Loop ops len fuel st).tour ~ st.tour := by
  intro fuel
  induction fuel with
  | zero => intro st; exact List.Perm.refl _
  | succ n ih =>
    intro st
    simp only [opt2Loop]
    split
    · exact (ih _).trans (opt2Pass_perm ops len _)
    · exact opt2Pass_perm ops len _

theorem optimize2Opt_perm (ops : NumOps) (fuel : ℕ) (tour : List Node)
    (c : OperationCounter) : (optimize2Opt ops fuel tour c).1 ~ tour := by
  unfold optimize2Opt
  split
  · exact List.Perm.refl _
  · exact opt2Loop_perm ops tour.length fuel _

theorem generate3OptCandidates_perm (tour : List Node) {i j k : ℕ}
    (c : OperationCounter) (hij : i ≤ j) (hjk : j ≤ k) :
    ∀ cand ∈ (generate3OptCandidates tour i j k c).1, cand ~ tour := by
  have hsplit : tour = ((tour.take (i + 1) ++ (tour.take (j + 1)).drop (i + 1)) ++
      (tour.take (k + 1)).drop (j + 1)) ++ tour.drop (k + 1) := by
    conv_lhs => rw [← List.take_append_drop (k + 1) tour]
    congr 1
    conv_lhs => rw [take_decomp tour (show j + 1 ≤ k + 1 by omega)]
    congr 1
    exact take_decomp tour (show i + 1 ≤ j + 1 by omega)
  intro cand hcand
  simp only [generate3OptCandidates, List.mem_cons, List.not_mem_nil, or_false]
    at hcand
  set A := tour.take (i + 1) with hA
  set B := (tour.take (j + 1)).drop (i + 1) with hB
  set C := (tour.take (k + 1)).drop (j + 1) with hC
  set D := tour.drop (k + 1) with hD
  have base : ∀ X Y : List Node, X ~ B → Y ~ C →
      A ++ X ++ Y ++ D ~ tour := by
    intro X Y hX hY
    conv_rhs => rw [hsplit]
    exact (((List.Perm.refl A).append hX).append hY).append (List.Perm.refl D)
  have swapped : ∀ X Y : List Node, X ~ C → Y ~ B →
      A ++ X ++ Y ++ D ~ tour := by
    intro X Y hX hY
    have h1 : A ++ X ++ Y ~ A ++ B ++ C := by
      calc A ++ X ++ Y
          ~ A ++ C ++ B := ((List.Perm.refl A).append hX).append hY
        _ = A ++ (C ++ B) := List.append_assoc _ _ _
        _ ~ A ++ (B ++ C) := List.Perm.append_left A List.perm_append_comm
        _ = A ++ B ++ C := (List.append_assoc _ _ _).symm
    calc A ++ X ++ Y ++ D ~ A ++ B ++ C ++ D := h1.append (List.Perm.refl D)
      _ = tour := hsplit.symm
  rcases hcand with rfl | rfl | rfl | rfl | rfl | rfl | rfl
  · exact base _ _ B.reverse_perm (List.Perm.refl C)
  · exact base _ _ (List.Perm.refl B) C.reverse_perm
  · exact base _ _ B.reverse_perm C.reverse_perm
  · exact swapped _ _ (List.Perm.refl C) (List.Perm.refl B)
  · exact swapped _ _ (List.Perm.refl C) B.reverse_perm
  · exact swapped _ _ C.reverse_perm (List.Perm.refl B)
  · exact swapped _ _ C.reverse_perm B.reverse_perm

theorem opt3Try_perm (ops : NumOps) (st : OptSt) {i j k : ℕ}
    (hij : i ≤ j) (hjk : j ≤ k) : (opt3Try ops st i j k).tour ~ st.tour := by
  unfold opt3Try
  dsimp only
  have hc := generate3OptCandidates_perm st.tour st.cnt hij hjk
  generalize hl : (generate3OptCandidates st.tour i j k st.cnt).1 = cands at hc
  have main : ∀ (l : List (List Node)) (s : OptSt),
      (∀ cand ∈ l, cand ~ st.tour) → s.tour ~ st.tour →
      ((l.foldl (fun st2 cand =>
        let dc := tourDistance ops cand st2.cnt
        if dc.1 < st2.best - eps then (⟨cand, dc.1, true, dc.2⟩ : OptSt)
        else { st2 with cnt := dc.2 }) s).tour) ~ st.tour := by
    intro l
    induction l with
    | nil => intro s _ hs; exact hs
    | cons hd tl ih =>
      intro s hmem hs
      simp only [List.foldl_cons]
      refine ih _ (fun c hc2 => hmem c (List.mem_cons_of_mem _ hc2)) ?_
      dsimp only
      split
      · exact hmem hd (List.mem_cons_self _ _)
      · exact hs
  exact main cands _ hc (List.Perm.refl _)

theorem opt3Pass_perm (ops : NumOps) (len : ℕ) (st : OptSt) :
    (opt3Pass ops len st).tour ~ st.tour := by
  unfold opt3Pass
  have inner2 : ∀ (i j : ℕ), i ≤ j → ∀ (ks : List ℕ), (∀ k ∈ ks, j ≤ k) →
      ∀ (s : OptSt),
      ((ks.foldl (fun st3 k => opt3Try ops st3 i j k) s).tour) ~ s.tour := by
    intro i j hij ks
    induction ks with
    | nil => intro _ s; exact List.Perm.refl _
    | cons hd tl ih =>
      intro hmem s
      simp only [List.foldl_cons]
      exact (ih (fun k hk => hmem k (List.mem_cons_of_mem _ hk)) _).trans
        (opt3Try_perm ops s hij (hmem hd (List.mem_cons_self _ _)))
  have inner1 : ∀ (i : ℕ) (js : List ℕ), (∀ j ∈ js, i ≤ j) → ∀ (s : OptSt),
      ((js.foldl (fun st2 j =>
        (List.range' (j + 2) (len - (j + 2))).foldl
          (fun st3 k => opt3Try ops st3 i j k) st2) s).tour) ~ s.tour := by
    intro i js
    induction js with
    | nil => intro _ s; exact List.Perm.refl _
    | cons hd tl ih =>
      intro hmem s
      simp only [List.foldl_cons]
      refine (ih (fun j hj => hmem j (List.mem_cons_of_mem _ hj)) _).trans ?_
      refine inner2 i hd (hmem hd (List.mem_cons_self _ _)) _ ?_ s
      intro k hk
      have := List.mem_range'_1.mp hk
      omega
  have outer : ∀ (is : List ℕ) (s : OptSt),
      ((is.foldl (fun st1 i =>
        (List.range' (i + 2) ((len - 2) - (i + 2))).foldl (fun st2 j =>
          (List.range' (j + 2) (len - (j + 2))).foldl
            (fun st3 k => opt3Try ops st3 i j k) st2) st1) s).tour) ~ s.tour := by
    intro is
    induction is with
    | nil => intro s; exact List.Perm.refl _
    | cons hd tl ih =>
      intro s
      simp only [List.foldl_cons]
      refine (ih _).trans ?_
      refine inner1 hd _ ?_ s
      intro j hj
      have := List.mem_range'_1.mp hj
      omega
  exact outer _ st

theorem opt3Loop_perm (ops : NumOps) (len : ℕ) :
    ∀ (fuel : ℕ) (st : OptSt), (opt3Loop ops len fuel st).tour ~ st.tour := by
  intro fuel
  induction fuel with
  | zero => intro st; exact List.Perm.refl _
  | succ n ih =>
    intro st
    simp only [opt3Loop]
    split
    · exact (ih _).trans (opt3Pass_perm ops len _)
    · exact opt3Pass_perm ops len _

theorem optimize3Opt_perm (ops : NumOps) (fuel : ℕ) (tour : List Node)
    (c : OperationCounter) : (optimize3Opt ops fuel tour c).1 ~ tour := by
  unfold optimize3Opt
  split
  · exact optimize2Opt_perm ops fuel tour c
  · exact opt3Loop_perm ops tour.length fuel _

theorem flatten_perm_of_perm {α : Type _} :
    ∀ {l₁ l₂ : List (List α)}, l₁ ~ l₂ → l₁.flatten ~ l₂.flatten := by
  intro l₁ l₂ h
  induction h with
  | nil => exact List.Perm.refl _
  | cons x _ ih => simpa using ih.append_left x
  | swap x y l =>
    simp only [List.flatten_cons]
    calc y ++ (x ++ l.flatten) = (y ++ x) ++ l.flatten := by
          rw [List.append_assoc]
      _ ~ (x ++ y) ++ l.flatten := List.perm_append_comm.append_right _
      _ = x ++ (y ++ l.flatten) := List.append_assoc _ _ _
  | trans _ _ ih1 ih2 => exact ih1.trans ih2

theorem getD_range_map' {α : Type _} (l : List α) (d : α) :
    (List.range l.length).map (fun i => l.getD i d) = l := by
  induction l with
  | nil => rfl
  | cons a t ih =>
    rw [List.length_cons, List.range_succ_eq_map, List.map_cons, List.map_map]
    simp only [Function.comp_def, Nat.succ_eq_add_one, List.getD_cons_succ,
      List.getD_cons_zero]
    rw [ih]

/-- Every position list emitted by the `generateKOptPositions` recursion is
ascending with gaps of at least `minGap = 2`. -/
theorem kOptPosGo_chain (n : ℕ) : ∀ (rem : ℕ) (current : List ℕ) (start : ℤ),
    0 ≤ start → List.Chain' (fun a b => a + 2 ≤ b) current →
    (∀ x ∈ current.getLast?, (x : ℤ) + 2 ≤ start) →
    ∀ l ∈ kOptPosGo n rem current start,
      List.Chain' (fun a b => a + 2 ≤ b) l := by
  intro rem
  induction rem with
  | zero =>
    intro current start _ hc _ l hl
    simp only [kOptPosGo, List.mem_singleton] at hl
    rw [hl]
    exact hc
  | succ rem ih =>
    intro current start hs hc hlast l hl
    simp only [kOptPosGo] at hl
    rw [mem_foldl_append
      (fun i => kOptPosGo n rem (current ++ [i.toNat]) (i + 2))] at hl
    rcases hl with hl | ⟨i, hi, hl⟩
    · exact absurd hl (List.not_mem_nil l)
    · have hge : start ≤ i := mem_intRange hi
      refine ih (current ++ [i.toNat]) (i + 2) (by omega) ?_ ?_ l hl
      · rw [List.chain'_append]
        refine ⟨hc, List.chain'_singleton _, ?_⟩
        intro x hx y hy
        simp only [List.head?_cons, Option.mem_some_iff] at hy
        subst hy
        have h1 := hlast x hx
        omega
      · intro x hx
        rw [List.getLast?_concat] at hx
        simp only [Option.mem_some_iff] at hx
        subst hx
        omega

theorem sampleEvery_mem (xs : List (List ℕ)) (step : ℕ) (hstep : 1 ≤ step) :
    ∀ y ∈ sampleEvery xs step, y ∈ xs := by
  intro y hy
  obtain ⟨t, ht, rfl⟩ := List.mem_map.mp hy
  have htlt : t < (xs.length + step - 1) / step := List.mem_range.mp ht
  have hts : t * step < xs.length := by
    have h1 : (t + 1) * step ≤ ((xs.length + step - 1) / step) * step :=
      Nat.mul_le_mul_right step htlt
    have h2 : ((xs.length + step - 1) / step) * step ≤ xs.length + step - 1 :=
      Nat.div_mul_le_self _ _
    have h3 : (t + 1) * step = t * step + step := by ring
    omega
  rw [List.getD_eq_getElem xs [] hts]
  exact List.getElem_mem _

/-- Every list actually explored by `generateKOptPositions` (exhaustive or
sub-sampled) is gap-2 ascending. -/
theorem generateKOptPositions_chain (n k : ℕ) :
    ∀ l ∈ generateKOptPositions n k, List.Chain' (fun a b => a + 2 ≤ b) l := by
  intro l hl
  have hraw : ∀ p ∈ kOptPosGo n k [] 0, List.Chain' (fun a b => a + 2 ≤ b) p :=
    kOptPosGo_chain n k [] 0 le_rfl List.chain'_nil (by simp)
  simp only [generateKOptPositions] at hl
  split at hl
  · next h1000 =>
    have hlen : 1000 < (kOptPosGo n k [] 0).length := h1000
    have hstep : 1 ≤ (kOptPosGo n k [] 0).length / 1000 :=
      (Nat.one_le_div_iff (by omega)).mpr (by omega)
    exact hraw l (sampleEvery_mem _ _ hstep l hl)
  · exact hraw l hl

theorem buildSegments_flatten_aux (tour : List Node) :
    ∀ (ps : List ℕ) (prev : ℕ) (acc : List (List Node)),
      List.Chain' (· ≤ ·) ps → (∀ p ∈ ps.head?, prev ≤ p + 1) →
      (let r := ps.foldl (fun (acc : List (List Node) × ℕ) pos =>
        (acc.1 ++ [(tour.take (pos + 1)).drop acc.2], pos + 1)) (acc, prev)
       ((if r.2 < tour.length then r.1 ++ [tour.drop r.2] else r.1).flatten))
        = acc.flatten ++ tour.drop prev := by
  intro ps
  induction ps with
  | nil =>
    intro prev acc _ _
    dsimp only [List.foldl_nil]
    split
    · simp
    · next hge =>
      have : tour.drop prev = [] := List.drop_eq_nil_of_le (by omega)
      simp [this]
  | cons p ps ih =>
    intro prev acc hc hhead
    have hprev : prev ≤ p + 1 := hhead p rfl
    have hc' : List.Chain' (· ≤ ·) ps := (List.chain'_cons'.mp hc).2
    have hhead' : ∀ q ∈ ps.head?, p + 1 ≤ q + 1 := by
      intro q hq
      have := (List.chain'_cons'.mp hc).1 q hq
      omega
    dsimp only [List.foldl_cons]
    have := ih (p + 1) (acc ++ [(tour.take (p + 1)).drop prev]) hc' hhead'
    dsimp only at this
    rw [this]
    rw [List.flatten_append]
    simp only [List.flatten_cons, List.flatten_nil, List.append_nil]
    rw [List.append_assoc]
    rw [drop_decomp tour hprev]

/-- With ascending positions the segments exactly partition the tour. -/
theorem buildSegments_flatten (tour : List Node) (ps : List ℕ)
    (hc : List.Chain' (· ≤ ·) ps) :
    (buildSegments tour ps).flatten = tour := by
  have := buildSegments_flatten_aux tour ps 0 [] hc (by intro p _; omega)
  dsimp only at this
  unfold buildSegments
  dsimp only
  rw [this]
  simp

theorem list_decomp2 {α : Type _} (l : List α) (d : α) (h : 2 ≤ l.length) :
    l = l.getD 0 d :: ((l.drop 1).dropLast ++ [l.getD (l.length - 1) d]) := by
  cases l with
  | nil => simp at h
  | cons a t =>
    have ht : t ≠ [] := by
      intro hnil
      rw [hnil] at h
      simp at h
    simp only [List.getD_cons_zero, List.drop_one, List.tail_cons]
    have hlen : (a :: t).length - 1 = (t.length - 1) + 1 := by
      simp only [List.length_cons]
      have := List.length_pos.mpr ht
      omega
    rw [hlen, List.getD_cons_succ]
    have hgetD : t.getD (t.length - 1) d = t.getLast ht := by
      rw [List.getD_eq_getElem t d (by have := List.length_pos.mpr ht; omega)]
      rw [List.getLast_eq_getElem]
    rw [hgetD, List.dropLast_append_getLast ht]

theorem segPermLeaf_flatten (segments : List (List Node)) (arr : List ℕ)
    (harr : arr ~ List.range segments.length) :
    ∀ out ∈ segPermLeaf segments arr, out.flatten ~ segments.flatten := by
  intro out hout
  obtain ⟨mask, _, rfl⟩ := List.mem_map.mp hout
  have h1 : List.Forall₂ (· ~ ·)
      ((List.range arr.length).map (fun i =>
        let segment := segments.getD (arr.getD i 0) []
        if Nat.testBit mask i then segment.reverse else segment))
      ((List.range arr.length).map (fun i => segments.getD (arr.getD i 0) [])) := by
    rw [List.forall₂_map_right_iff, List.forall₂_map_left_iff]
    rw [List.forall₂_same]
    intro i _
    dsimp only
    split
    · exact (segments.getD (arr.getD i 0) []).reverse_perm
    · exact List.Perm.refl _
  refine (List.Perm.flatten_congr h1).trans ?_
  have h2 : (List.range arr.length).map (fun i => segments.getD (arr.getD i 0) []) =
      arr.map (fun idx => segments.getD idx []) := by
    conv_rhs => rw [← getD_range_map' arr 0]
    rw [List.map_map]
    rfl
  rw [h2]
  refine (flatten_perm_of_perm (harr.map _)).trans ?_
  rw [show (List.range segments.length).map (fun idx => segments.getD idx []) =
    segments from getD_range_map' segments []]

theorem segPermGo_flatten (segments : List (List Node)) :
    ∀ (rem : ℕ) (arr : List ℕ), arr ~ List.range segments.length →
      ∀ out ∈ segPermGo segments rem arr, out.flatten ~ segments.flatten := by
  intro rem
  induction rem with
  | zero =>
    intro arr harr out hout
    exact segPermLeaf_flatten segments arr harr out hout
  | succ rem ih =>
    intro arr harr out hout
    simp only [segPermGo] at hout
    rw [mem_foldl_append
      (fun i => segPermGo segments rem (listSwap arr (arr.length - (rem + 1)) i))]
      at hout
    rcases hout with hout | ⟨i, _, hout⟩
    · exact absurd hout (List.not_mem_nil out)
    · exact ih (listSwap arr (arr.length - (rem + 1)) i)
        ((listSwap_perm arr _ i).trans harr) out hout

theorem generateSegmentPermutations_flatten (segments : List (List Node)) :
    ∀ out ∈ generateSegmentPermutations segments,
      out.flatten ~ segments.flatten := by
  intro out hout
  unfold generateSegmentPermutations at hout
  split at hout
  · next h0 =>
    have : segments = [] := List.length_eq_zero.mp h0
    subst this
    simp only [List.mem_singleton] at hout
    rw [hout]
  · split at hout
    · next h1 =>
      obtain ⟨s, hs⟩ := List.length_eq_one.mp h1
      subst hs
      simp only [List.mem_cons, List.mem_singleton, List.not_mem_nil, or_false]
        at hout
      rcases hout with rfl | rfl
      · exact List.Perm.refl _
      · simp only [List.getD_cons_zero, List.flatten_cons, List.flatten_nil,
          List.append_nil]
        exact s.reverse_perm
    · have hout' : out ∈ segPermGo segments segments.length
          (List.range segments.length) := by
        dsimp only at hout
        split at hout
        · exact List.mem_of_mem_take hout
        · exact hout
      exact segPermGo_flatten segments segments.length (List.range segments.length)
        (List.Perm.refl _) out hout'

theorem mem_foldl_append_ite {α β : Type _} (f : β → α) (P : α → Prop)
    [DecidablePred P] :
    ∀ (l : List β) (acc : List α) (y : α),
      y ∈ l.foldl (fun a b => if P (f b) then a ++ [f b] else a) acc ↔
      y ∈ acc ∨ ∃ b ∈ l, P (f b) ∧ y = f b := by
  intro l
  induction l with
  | nil => intro acc y; simp
  | cons hd tl ih =>
    intro acc y
    simp only [List.foldl_cons]
    by_cases hP : P (f hd)
    · rw [if_pos hP, ih]
      constructor
      · rintro (h | ⟨b, hb, hPb, rfl⟩)
        · rcases List.mem_append.mp h with h | h
          · exact Or.inl h
          · rw [List.mem_singleton] at h
            exact Or.inr ⟨hd, List.mem_cons_self _ _, hP, h⟩
        · exact Or.inr ⟨b, List.mem_cons_of_mem _ hb, hPb, rfl⟩
      · rintro (h | ⟨b, hb, hPb, rfl⟩)
        · exact Or.inl (List.mem_append.mpr (Or.inl h))
        · rcases List.mem_cons.mp hb with rfl | hb
          · exact Or.inl (List.mem_append.mpr (Or.inr (List.mem_singleton.mpr rfl)))
          · exact Or.inr ⟨b, hb, hPb, rfl⟩
    · rw [if_neg hP, ih]
      constructor
      · rintro (h | ⟨b, hb, hPb, rfl⟩)
        · exact Or.inl h
        · exact Or.inr ⟨b, List.mem_cons_of_mem _ hb, hPb, rfl⟩
      · rintro (h | ⟨b, hb, hPb, rfl⟩)
        · exact Or.inl h
        · rcases List.mem_cons.mp hb with rfl | hb
          · exact absurd hPb hP
          · exact Or.inr ⟨b, hb, hPb, rfl⟩

theorem generateKOptCandidates_perm (tour : List Node) (pos : List ℕ)
    (c : OperationCounter) (hchain : List.Chain' (· ≤ ·) pos) :
    ∀ cand ∈ (generateKOptCandidates tour pos c).1, cand ~ tour := by
  intro cand hcand
  have hflat : (buildSegments tour pos).flatten = tour :=
    buildSegments_flatten tour pos hchain
  simp only [generateKOptCandidates] at hcand
  rw [mem_foldl_append_ite
    (fun (perm : List (List Node)) => (buildSegments tour pos).getD 0 [] ++
      perm.flatten ++
      (buildSegments tour pos).getD ((buildSegments tour pos).length - 1) [])
    (fun x => x.length = tour.length)] at hcand
  rcases hcand with hcand | ⟨perm, hperm, hlen, rfl⟩
  · exact absurd hcand (List.not_mem_nil _)
  · have hpf : perm.flatten ~
        (((buildSegments tour pos).drop 1).dropLast).flatten :=
      generateSegmentPermutations_flatten _ perm hperm
    rcases Nat.lt_or_ge (buildSegments tour pos).length 2 with hlt | hge
    · -- 0 or 1 segments: the length filter forces everything empty
      rcases hB : buildSegments tour pos with _ | ⟨s, t⟩
      · -- no segments at all
        try rw [hB] at hflat
        try rw [hB] at hpf
        try rw [hB] at hlen
        try rw [hB]
        try simp only [List.flatten_nil] at hflat
        have hpnil : perm.flatten = [] := List.perm_nil.mp (by simpa using hpf)
        simp only [List.getD_nil, hpnil, List.append_nil, List.nil_append]
        rw [← hflat]
      · rcases t with _ | ⟨s1, rest⟩
        · -- exactly one segment: the length filter forces everything empty
          try rw [hB] at hflat
          try rw [hB] at hpf
          try rw [hB] at hlen
          try rw [hB]
          simp only [List.flatten_cons, List.flatten_nil, List.append_nil] at hflat
          have hpnil : perm.flatten = [] := List.perm_nil.mp (by simpa using hpf)
          simp only [List.getD_cons_zero, hpnil, List.append_nil,
            List.length_cons, List.length_nil] at hlen ⊢
          rw [← hflat] at hlen ⊢
          simp only [List.length_append] at hlen
          simp only [Nat.add_sub_cancel, List.getD_cons_zero] at hlen ⊢
          have hs : s.length = 0 := by omega
          rw [List.length_eq_zero.mp hs]
          simp
        · try rw [hB] at hlt
          simp only [List.length_cons] at hlt
          omega
    · have hdec := list_decomp2 (buildSegments tour pos) ([] : List Node) hge
      have hmain : (buildSegments tour pos).getD 0 [] ++ perm.flatten ++
          (buildSegments tour pos).getD ((buildSegments tour pos).length - 1) [] ~
          (buildSegments tour pos).flatten := by
        conv_rhs => rw [hdec]
        simp only [List.flatten_cons, List.flatten_append, List.flatten_nil,
          List.append_nil]
        calc (buildSegments tour pos).getD 0 [] ++ perm.flatten ++
            (buildSegments tour pos).getD ((buildSegments tour pos).length - 1) []
            ~ (buildSegments tour pos).getD 0 [] ++
              (((buildSegments tour pos).drop 1).dropLast).flatten ++
              (buildSegments tour pos).getD ((buildSegments tour pos).length - 1) [] :=
              ((List.Perm.refl _).append hpf).append (List.Perm.refl _)
          _ = (buildSegments tour pos).getD 0 [] ++
              ((((buildSegments tour pos).drop 1).dropLast).flatten ++
              (buildSegments tour pos).getD ((buildSegments tour pos).length - 1) []) := by
              rw [List.append_assoc]
      rw [hflat] at hmain
      exact hmain

theorem kOptScan_perm (ops : NumOps) (t : List Node) :
    ∀ (cands : List (List Node)) (st : OptSt),
      (∀ c ∈ cands, c ~ t) → st.tour ~ t → (kOptScan ops cands st).tour ~ t := by
  intro cands
  induction cands with
  | nil => intro st _ hst; exact hst
  | cons hd tl ih =>
    intro st hmem hst
    simp only [kOptScan]
    split
    · exact hmem hd (List.mem_cons_self _ _)
    · exact ih _ (fun c hc => hmem c (List.mem_cons_of_mem _ hc)) hst

theorem kOptPosScan_perm (ops : NumOps) :
    ∀ (ps : List (List ℕ)) (st : OptSt),
      (∀ p ∈ ps, List.Chain' (· ≤ ·) p) →
      (kOptPosScan ops ps st).tour ~ st.tour := by
  intro ps
  induction ps with
  | nil => intro st _; exact List.Perm.refl _
  | cons hd tl ih =>
    intro st hchain
    simp only [kOptPosScan]
    have hcands := generateKOptCandidates_perm st.tour hd st.cnt
      (hchain hd (List.mem_cons_self _ _))
    have hst1 : (kOptScan ops (generateKOptCandidates st.tour hd st.cnt).1
        { st with cnt := (generateKOptCandidates st.tour hd st.cnt).2 }).tour ~
        st.tour :=
      kOptScan_perm ops st.tour _ _ hcands (List.Perm.refl _)
    split
    · exact hst1
    · exact (ih _ (fun p hp => hchain p (List.mem_cons_of_mem _ hp))).trans hst1

theorem kOptLoop_perm (ops : NumOps) (positions : List (List ℕ))
    (hpos : ∀ p ∈ positions, List.Chain' (· ≤ ·) p) :
    ∀ (fuel : ℕ) (st : OptSt), (kOptLoop ops positions fuel st).tour ~ st.tour := by
  intro fuel
  induction fuel with
  | zero => intro st; exact List.Perm.refl _
  | succ n ih =>
    intro st
    simp only [kOptLoop]
    split
    · exact (ih _).trans (kOptPosScan_perm ops positions _ hpos)
    · exact kOptPosScan_perm ops positions _ hpos

theorem optimizeKOpt_perm (ops : NumOps) (fuel : ℕ) (k : ℕ) (tour : List Node)
    (c : OperationCounter) : (optimizeKOpt ops fuel k tour c).1 ~ tour := by
  unfold optimizeKOpt
  split
  · exact optimize3Opt_perm ops fuel tour c
  · have hpos : ∀ p ∈ generateKOptPositions
        (optimize3Opt ops fuel tour c).1.length k, List.Chain' (· ≤ ·) p := by
      intro p hp
      exact (generateKOptPositions_chain _ k p hp).imp (fun hab => by omega)
    exact (kOptLoop_perm ops _ hpos fuel _).trans
      (optimize3Opt_perm ops fuel tour c)

theorem koptSolve_nil (ops : NumOps) (fuel k : ℕ) (es : List Edge) :
    koptSolve ops fuel k ⟨[], es⟩ = ⟨[], ⟨((0:ℚ) : WithTop ℚ), 0, 0, 0⟩⟩ := rfl

theorem koptSolve_single (ops : NumOps) (fuel k : ℕ) (a : Node) (es : List Edge) :
    koptSolve ops fuel k ⟨[a], es⟩ = ⟨[a], ⟨((0:ℚ) : WithTop ℚ), 0, 1, 0⟩⟩ := rfl

/-- On `n ≥ 2` the k-opt path is a closed permutation tour, for every `k`. -/
theorem koptSolve_path (ops : NumOps) (fuel k : ℕ) (g : Graph)
    (h2 : 2 ≤ g.nodes.length) :
    ∃ tour, tour ~ g.nodes ∧
      (koptSolve ops fuel k g).path = tour ++ [tour.getD 0 default] := by
  have h0 : g.nodes.length ≠ 0 := by omega
  have h1 : g.nodes.length ≠ 1 := by omega
  refine ⟨(if k = 2 then
      optimize2Opt ops fuel (nearestNeighborTour ops g.nodes ⟨0, 0⟩).1
        (nearestNeighborTour ops g.nodes ⟨0, 0⟩).2
    else if k = 3 then
      optimize3Opt ops fuel (nearestNeighborTour ops g.nodes ⟨0, 0⟩).1
        (nearestNeighborTour ops g.nodes ⟨0, 0⟩).2
    else
      optimizeKOpt ops fuel k (nearestNeighborTour ops g.nodes ⟨0, 0⟩).1
        (nearestNeighborTour ops g.nodes ⟨0, 0⟩).2).1, ?_, ?_⟩
  · have hnn := nearestNeighborTour_perm ops g.nodes
      (⟨0, 0⟩ : OperationCounter)
    split
    · exact (optimize2Opt_perm ops fuel _ _).trans hnn
    · split
      · exact (optimize3Opt_perm ops fuel _ _).trans hnn
      · exact (optimizeKOpt_perm ops fuel k _ _).trans hnn
  · unfold koptSolve
    simp only [h0, h1, if_false]

/-! ### k-opt sampling bounds (`generateKOptPositions` /
`generateSegmentPermutations` counting) -/

theorem sampleEvery_length (xs : List (List ℕ)) (step : ℕ) :
    (sampleEvery xs step).length = (xs.length + step - 1) / step := by
  rw [sampleEvery, List.length_map, List.length_range]

/-- When the raw combination count is at most 1000, `generateKOptPositions`
is exhaustive (returns the full recursion output). -/
theorem generateKOptPositions_exhaustive (n k : ℕ)
    (h : (kOptPosGo n k [] 0).length ≤ 1000) :
    generateKOptPositions n k = kOptPosGo n k [] 0 := by
  unfold generateKOptPositions
  rw [if_neg (by omega)]

/-- The stride sub-sampling `step = ⌊count / 1000⌋` does NOT bound the
output by 1000; the tight general bound is 1999 position combinations. -/
theorem generateKOptPositions_len_le (n k : ℕ) :
    (generateKOptPositions n k).length ≤ 1999 := by
  unfold generateKOptPositions
  dsimp only
  split
  · next h =>
    rw [sampleEvery_length]
    set L := (kOptPosGo n k [] 0).length with hL
    have hgt : 1000 < L := h
    set s := L / 1000 with hs
    have hs1 : 1 ≤ s := by omega
    have hL2 : L < 1000 * s + 1000 := by omega
    have key : L + s - 1 < 2000 * s := by omega
    have hdiv : (L + s - 1) / s < 2000 :=
      (Nat.div_lt_iff_lt_mul (by omega)).mpr key
    omega
  · next h => omega

/-- The segment permutation/reversal combinations really are capped at
100 per position set. -/
theorem generateSegmentPermutations_le (segments : List (List Node)) :
    (generateSegmentPermutations segments).length ≤ 100 := by
  unfold generateSegmentPermutations
  split
  · simp
  · split
    · simp
    · dsimp only
      split
      · next h => rw [List.length_take]; omega
      · next h => omega

/-! ### `simulated-annealing.ts` -/

/-- `Math.random()` produces values in `[0, 1)`: validity of the modelled
random stream (the `k`-th call reads `R k`). -/
def ValidStream (R : ℕ → ℚ) : Prop := ∀ i, 0 ≤ R i ∧ R i < 1

/-- The element-swapping `while (left < right)` loop of `twoOptSwap` in
`simulated-annealing.ts` (duplicated verbatim in `grasp.ts`); each pass
swaps `newTour[left]` and `newTour[right]` and moves both pointers inward,
so `right - left` passes are ample fuel. -/
def saSwapRec : ℕ → List Node → ℕ → ℕ → OperationCounter →
    List Node × OperationCounter
  | 0, t, _, _, c => (t, c)
  | f + 1, t, left, right, c =>
    if left < right then
      saSwapRec f (listSwap t left right) (left + 1) (right - 1)
        { c with reads := c.reads + 2, writes := c.writes + 2 }
    else (t, c)

/-- `twoOptSwap(tour, i, j, counter)` of `simulated-annealing.ts` /
`grasp.ts`. -/
def saTwoOptSwap (tour : List Node) (i j : ℕ) (c : OperationCounter) :
    List Node × OperationCounter :=
  saSwapRec (j - i) tour i j
    { c with reads := c.reads + tour.length, writes := c.writes + tour.length }

theorem saSwapRec_perm :
    ∀ (f : ℕ) (t : List Node) (l r : ℕ) (c : OperationCounter),
      (saSwapRec f t l r c).1 ~ t := by
  intro f
  induction f with
  | zero => intro t l r c; exact List.Perm.refl _
  | succ f ih =>
    intro t l r c
    simp only [saSwapRec]
    split
    · exact (ih _ _ _ _).trans (listSwap_perm t l r)
    · exact List.Perm.refl _

theorem saTwoOptSwap_perm (tour : List Node) (i j : ℕ) (c : OperationCounter) :
    (saTwoOptSwap tour i j c).1 ~ tour := saSwapRec_perm _ _ _ _ _

/-- `calculateDelta(tour, i, j, counter)` of `simulated-annealing.ts` /
`grasp.ts`: the incremental 2-opt distance change over the four affected
nodes; 16 coordinate reads. -/
def calculateDelta (ops : NumOps) (tour : List Node) (i j : ℕ)
    (c : OperationCounter) : ℚ × OperationCounter :=
  let n := tour.length
  let a := if 0 < i then tour.getD (i - 1) default else tour.getD (n - 1) default
  let b := tour.getD i default
  let c' := tour.getD j default
  let d := tour.getD ((j + 1) % n) default
  let oldAB := ops.sqrt ((b.x - a.x) * (b.x - a.x) + (b.y - a.y) * (b.y - a.y))
  let oldCD := ops.sqrt ((d.x - c'.x) * (d.x - c'.x) + (d.y - c'.y) * (d.y - c'.y))
  let newAC := ops.sqrt ((c'.x - a.x) * (c'.x - a.x) + (c'.y - a.y) * (c'.y - a.y))
  let newBD := ops.sqrt ((d.x - b.x) * (d.x - b.x) + (d.y - b.y) * (d.y - b.y))
  ((newAC + newBD) - (oldAB + oldCD), { c with reads := c.reads + 16 })

/-- Mutable locals of the annealing loop (`k` is the cursor into the random
stream). -/
structure SaSt where
  cur : List Node
  curD : ℚ
  best : List Node
  bestD : ℚ
  temp : ℚ
  cnt : OperationCounter
  k : ℕ
deriving Repr

/-- The `while (temperature > minTemperature && iteration < maxIterations)`
loop of `simulated-annealing.ts` `solve`: `iteration` increases by exactly 1
per pass (also on `continue`), so the remaining iteration budget is
structural fuel. The `continue` for degenerate `i`, `j` skips the cooling
update, and the acceptance test only consumes a random number when
`delta ≥ 0` (JS `||` short-circuit). -/
def saLoop (ops : NumOps) (R : ℕ → ℚ) (n : ℕ)
    (coolingRate minTemperature : ℚ) : ℕ → SaSt → SaSt
  | 0, st => st
  | rem + 1, st =>
    if minTemperature < st.temp then
      let i0 := randFloor (R st.k) (n - 1) + 1
      let j0 := randFloor (R (st.k + 1)) (n - 1) + 1
      let i := if j0 < i0 then j0 else i0
      let j := if j0 < i0 then i0 else j0
      if i = j ∨ i + 1 = j then
        saLoop ops R n coolingRate minTemperature rem { st with k := st.k + 2 }
      else
        let dd := calculateDelta ops st.cur i j st.cnt
        let acc : Bool × ℕ :=
          if dd.1 < 0 then (true, st.k + 2)
          else (decide (R (st.k + 2) < ops.exp (-dd.1 / st.temp)), st.k + 3)
        if acc.1 then
          let sw := saTwoOptSwap st.cur i j dd.2
          let newD := st.curD + dd.1
          if newD < st.bestD then
            saLoop ops R n coolingRate minTemperature rem
              { cur := sw.1
                curD := newD
                best := sw.1
                bestD := newD
                temp := st.temp * coolingRate
                cnt := { sw.2 with
                  reads := sw.2.reads + sw.1.length
                  writes := sw.2.writes + sw.1.length }
                k := acc.2 }
          else
            saLoop ops R n coolingRate minTemperature rem
              { st with
                cur := sw.1
                curD := newD
                temp := st.temp * coolingRate
                cnt := sw.2
                k := acc.2 }
        else
          saLoop ops R n coolingRate minTemperature rem
            { st with
              temp := st.temp * coolingRate
              cnt := dd.2
              k := acc.2 }
    else st

/-- `simulated-annealing.ts` `solve`: the iteration budget `maxIterations`
is a natural number and runtime is modelled as 0. -/
def saSolve (ops : NumOps) (R : ℕ → ℚ) (g : Graph)
    (initialTemperature coolingRate minTemperature : ℚ)
    (maxIterations : ℕ) : Result :=
  let nodes := g.nodes
  let n := nodes.length
  if n = 0 then ⟨[], ⟨((0:ℚ) : WithTop ℚ), 0, 0, 0⟩⟩
  else if n = 1 then ⟨[nodes.getD 0 default], ⟨((0:ℚ) : WithTop ℚ), 0, 1, 0⟩⟩
  else if n = 2 then
    let dc := tourDistance ops [nodes.getD 0 default, nodes.getD 1 default] ⟨2, 3⟩
    ⟨[nodes.getD 0 default, nodes.getD 1 default, nodes.getD 0 default],
      ⟨(dc.1 : WithTop ℚ), 0, dc.2.reads, dc.2.writes⟩⟩
  else
    let tc := nearestNeighborTour ops nodes ⟨0, 0⟩
    let dc := tourDistance ops tc.1 tc.2
    let c1 : OperationCounter := { dc.2 with
      reads := dc.2.reads + tc.1.length
      writes := dc.2.writes + tc.1.length }
    let res := saLoop ops R n coolingRate minTemperature maxIterations
      ⟨tc.1, dc.1, tc.1, dc.1, initialTemperature, c1, 0⟩
    ⟨res.best ++ [res.best.getD 0 default],
      ⟨(res.bestD : WithTop ℚ), 0, res.cnt.reads, res.cnt.writes⟩⟩

theorem saLoop_perm (ops : NumOps) (R : ℕ → ℚ) (n : ℕ)
    (coolingRate minTemperature : ℚ) (t : List Node) :
    ∀ (rem : ℕ) (st : SaSt), st.cur ~ t → st.best ~ t →
      (saLoop ops R n coolingRate minTemperature rem st).cur ~ t ∧
      (saLoop ops R n coolingRate minTemperature rem st).best ~ t := by
  intro rem
  induction rem with
  | zero => intro st h1 h2; exact ⟨h1, h2⟩
  | succ rem ih =>
    intro st h1 h2
    simp only [saLoop]
    have hsw : ∀ (i j : ℕ) (cc : OperationCounter),
        (saTwoOptSwap st.cur i j cc).1 ~ t :=
      fun i j cc => (saTwoOptSwap_perm _ _ _ _).trans h1
    split
    · repeat' split
      all_goals
        first
          | exact ih _ h1 h2
          | exact ih _ (hsw _ _ _) h2
          | exact ih _ (hsw _ _ _) (hsw _ _ _)
          | exact ⟨h1, h2⟩
    · exact ⟨h1, h2⟩

theorem saSolve_nil (ops : NumOps) (R : ℕ → ℚ) (es : List Edge)
    (t0 t1 t2 : ℚ) (mi : ℕ) :
    saSolve ops R ⟨[], es⟩ t0 t1 t2 mi = ⟨[], ⟨((0:ℚ) : WithTop ℚ), 0, 0, 0⟩⟩ :=
  rfl

theorem saSolve_single (ops : NumOps) (R : ℕ → ℚ) (a : Node) (es : List Edge)
    (t0 t1 t2 : ℚ) (mi : ℕ) :
    saSolve ops R ⟨[a], es⟩ t0 t1 t2 mi =
      ⟨[a], ⟨((0:ℚ) : WithTop ℚ), 0, 1, 0⟩⟩ := rfl

/-- On `n ≥ 2` the Simulated Annealing path is a closed permutation tour. -/
theorem saSolve_path (ops : NumOps) (R : ℕ → ℚ) (g : Graph)
    (t0 t1 t2 : ℚ) (mi : ℕ) (h2 : 2 ≤ g.nodes.length) :
    ∃ tour, tour ~ g.nodes ∧
      (saSolve ops R g t0 t1 t2 mi).path = tour ++ [tour.getD 0 default] := by
  have h0 : g.nodes.length ≠ 0 := by omega
  have h1 : g.nodes.length ≠ 1 := by omega
  by_cases hn2 : g.nodes.length = 2
  · obtain ⟨a, b, hab⟩ : ∃ a b, g.nodes = [a, b] := by
      cases gn : g.nodes with
      | nil => rw [gn] at hn2; simp at hn2
      | cons a t =>
        cases t with
        | nil => rw [gn] at hn2; simp at hn2
        | cons b t2 =>
          cases t2 with
          | nil => exact ⟨a, b, rfl⟩
          | cons c t3 => rw [gn] at hn2; simp at hn2
    refine ⟨[a, b], by rw [hab], ?_⟩
    unfold saSolve
    rw [hab]
    rfl
  · refine ⟨(saLoop ops R g.nodes.length t1 t2 mi
      ⟨(nearestNeighborTour ops g.nodes ⟨0, 0⟩).1,
        (tourDistance ops (nearestNeighborTour ops g.nodes ⟨0, 0⟩).1
          (nearestNeighborTour ops g.nodes ⟨0, 0⟩).2).1,
        (nearestNeighborTour ops g.nodes ⟨0, 0⟩).1,
        (tourDistance ops (nearestNeighborTour ops g.nodes ⟨0, 0⟩).1
          (nearestNeighborTour ops g.nodes ⟨0, 0⟩).2).1,
        t0,
        { (tourDistance ops (nearestNeighborTour ops g.nodes ⟨0, 0⟩).1
            (nearestNeighborTour ops g.nodes ⟨0, 0⟩).2).2 with
          reads := (tourDistance ops (nearestNeighborTour ops g.nodes ⟨0, 0⟩).1
            (nearestNeighborTour ops g.nodes ⟨0, 0⟩).2).2.reads +
            (nearestNeighborTour ops g.nodes ⟨0, 0⟩).1.length
          writes := (tourDistance ops (nearestNeighborTour ops g.nodes ⟨0, 0⟩).1
            (nearestNeighborTour ops g.nodes ⟨0, 0⟩).2).2.writes +
            (nearestNeighborTour ops g.nodes ⟨0, 0⟩).1.length },
        0⟩).best, ?_, ?_⟩
    · exact (saLoop_perm ops R g.nodes.length t1 t2
        (nearestNeighborTour ops g.nodes ⟨0, 0⟩).1 mi _
        (List.Perm.refl _) (List.Perm.refl _)).2.trans
        (nearestNeighborTour_perm ops g.nodes ⟨0, 0⟩)
    · unfold saSolve
      simp only [h0, h1, hn2, if_false]

/-! ### `grasp.ts` -/

/-- Candidate accumulation of the `for (const idx of unvisited)` scan in
`grasp.ts` `graspConstruction` (each `distance` call adds 4 reads). -/
def graspCandidates (ops : NumOps) (nodes : List Node) (currentIdx : ℕ)
    (unvisited : List ℕ) (c : OperationCounter) :
    List (ℕ × ℚ) × OperationCounter :=
  unvisited.foldl (fun (acc : List (ℕ × ℚ) × OperationCounter) idx =>
    let dc := distance ops (nodes.getD currentIdx default)
      (nodes.getD idx default) acc.2
    (acc.1 ++ [(idx, dc.1)], dc.2)) ([], c)

/-- The RCL threshold `minDist + alpha * (maxDist - minDist)`: the source
folds `minDist`/`maxDist` from `±Infinity` with strict-comparison updates,
which on the (always nonempty) candidate list computes its minimum and
maximum. -/
def rclThreshold (alpha : ℚ) (cands : List (ℕ × ℚ)) : ℚ :=
  let dists := cands.map (fun cd => cd.2)
  let minDist := dists.foldl min (dists.headD 0)
  let maxDist := dists.foldl max (dists.headD 0)
  minDist + alpha * (maxDist - minDist)

/-- Main loop of `grasp.ts` `graspConstruction` (fuel — the unvisited size —
is exact: the RCL always contains the nearest candidate, so each pass
selects a member and removes it). -/
def graspLoop (ops : NumOps) (R : ℕ → ℚ) (nodes : List Node) (alpha : ℚ) :
    ℕ → List ℕ → ℕ → List Node → OperationCounter → ℕ →
    List Node × OperationCounter × ℕ
  | 0, _, _, tour, c, k => (tour, c, k)
  | fuel + 1, unvisited, currentIdx, tour, c, k =>
    if unvisited.isEmpty then (tour, c, k)
    else
      let cd := graspCandidates ops nodes currentIdx unvisited c
      let rcl := cd.1.filter (fun x => x.2 ≤ rclThreshold alpha cd.1)
      let selected := rcl.getD (randFloor (R k) rcl.length) (0, 0)
      graspLoop ops R nodes alpha fuel (unvisited.erase selected.1) selected.1
        (tour ++ [nodes.getD selected.1 default])
        { cd.2 with reads := cd.2.reads + 1, writes := cd.2.writes + 1 }
        (k + 1)

/-- `grasp.ts` `graspConstruction(nodes, alpha, counter)`. -/
def graspConstruction (ops : NumOps) (R : ℕ → ℚ) (nodes : List Node)
    (alpha : ℚ) (c : OperationCounter) (k : ℕ) :
    List Node × OperationCounter × ℕ :=
  let n := nodes.length
  if n = 0 then ([], c, k)
  else if n = 1 then
    ([nodes.getD 0 default],
      { c with reads := c.reads + 1, writes := c.writes + 1 }, k)
  else
    let startIdx := randFloor (R k) n
    graspLoop ops R nodes alpha n ((List.range n).erase startIdx) startIdx
      [nodes.getD startIdx default]
      { c with reads := c.reads + 1, writes := c.writes + 1 } (k + 1)

theorem foldl_min_le_init : ∀ (l : List ℚ) (a : ℚ), l.foldl min a ≤ a := by
  intro l
  induction l with
  | nil => intro a; exact le_refl a
  | cons hd tl ih =>
    intro a
    simp only [List.foldl_cons]
    exact (ih (min a hd)).trans (min_le_left a hd)

theorem foldl_le_max_init : ∀ (l : List ℚ) (a : ℚ), a ≤ l.foldl max a := by
  intro l
  induction l with
  | nil => intro a; exact le_refl a
  | cons hd tl ih =>
    intro a
    simp only [List.foldl_cons]
    exact (le_max_left a hd).trans (ih (max a hd))

theorem foldl_min_mem : ∀ (l : List ℚ) (a : ℚ),
    l.foldl min a = a ∨ l.foldl min a ∈ l := by
  intro l
  induction l with
  | nil => intro a; left; rfl
  | cons hd tl ih =>
    intro a
    simp only [List.foldl_cons]
    rcases ih (min a hd) with h | h
    · rw [h]
      rcases min_choice a hd with h2 | h2
      · left; exact h2
      · right; rw [h2]; exact List.mem_cons_self _ _
    · right; exact List.mem_cons_of_mem _ h

/-- With `alpha ≥ 0` the candidate achieving the minimum distance always
passes the RCL threshold. -/
theorem rcl_ne_nil (alpha : ℚ) (halpha : 0 ≤ alpha) (cands : List (ℕ × ℚ))
    (hne : cands ≠ []) :
    cands.filter (fun x => x.2 ≤ rclThreshold alpha cands) ≠ [] := by
  have hdne : cands.map (fun cd => cd.2) ≠ [] := by
    simpa using hne
  have hd0 : (cands.map (fun cd => cd.2)).headD 0 ∈ cands.map (fun cd => cd.2) := by
    cases hc : cands.map (fun cd => cd.2) with
    | nil => exact absurd hc hdne
    | cons a t => exact List.mem_cons_self _ _
  have hminmem : (cands.map (fun cd => cd.2)).foldl min
      ((cands.map (fun cd => cd.2)).headD 0) ∈ cands.map (fun cd => cd.2) := by
    rcases foldl_min_mem (cands.map (fun cd => cd.2))
        ((cands.map (fun cd => cd.2)).headD 0) with h | h
    · rw [h]; exact hd0
    · exact h
  have hminle : (cands.map (fun cd => cd.2)).foldl min
      ((cands.map (fun cd => cd.2)).headD 0) ≤ rclThreshold alpha cands := by
    unfold rclThreshold
    dsimp only
    have h1 := foldl_min_le_init (cands.map (fun cd => cd.2))
      ((cands.map (fun cd => cd.2)).headD 0)
    have h2 := foldl_le_max_init (cands.map (fun cd => cd.2))
      ((cands.map (fun cd => cd.2)).headD 0)
    nlinarith
  obtain ⟨cd, hcd, hcde⟩ := List.mem_map.mp hminmem
  refine List.ne_nil_of_mem (a := cd) (List.mem_filter.mpr ⟨hcd, ?_⟩)
  rw [decide_eq_true_iff]
  rw [hcde]
  exact hminle

/-- The candidate scan collects exactly the unvisited indices with their
distances (the distance value does not depend on the threaded counter). -/
theorem graspCandidates_fst (ops : NumOps) (nodes : List Node)
    (currentIdx : ℕ) (unvisited : List ℕ) (c : OperationCounter) :
    (graspCandidates ops nodes currentIdx unvisited c).1 =
      unvisited.map (fun idx =>
        (idx, distVal ops (nodes.getD currentIdx default)
          (nodes.getD idx default))) := by
  unfold graspCandidates
  exact foldl_push_fst
    (fun idx => (idx, distVal ops (nodes.getD currentIdx default)
      (nodes.getD idx default)))
    (fun cc _ => { cc with reads := cc.reads + 4 }) unvisited [] c

theorem erase_step_perm (nodes tour : List Node) (unvisited : List ℕ) (i : ℕ)
    (hi : i ∈ unvisited) :
    (tour ++ [nodes.getD i default]) ++
      (unvisited.erase i).map (fun j => nodes.getD j default) ~
      tour ++ unvisited.map (fun j => nodes.getD j default) := by
  have hperm : unvisited ~ i :: unvisited.erase i := List.perm_cons_erase hi
  calc (tour ++ [nodes.getD i default]) ++
        (unvisited.erase i).map (fun j => nodes.getD j default)
      = tour ++ (i :: unvisited.erase i).map (fun j => nodes.getD j default) := by
        simp
    _ ~ tour ++ unvisited.map (fun j => nodes.getD j default) :=
        List.Perm.append_left tour (List.Perm.map _ hperm.symm)

theorem graspLoop_perm (ops : NumOps) (R : ℕ → ℚ) (nodes : List Node)
    (alpha : ℚ) (halpha : 0 ≤ alpha) (hR : ValidStream R) :
    ∀ (fuel : ℕ) (unvisited : List ℕ) (currentIdx : ℕ) (tour : List Node)
      (c : OperationCounter) (k : ℕ),
      unvisited.length ≤ fuel → unvisited.Nodup →
      (graspLoop ops R nodes alpha fuel unvisited currentIdx tour c k).1 ~
        tour ++ unvisited.map (fun i => nodes.getD i default) := by
  intro fuel
  induction fuel with
  | zero =>
    intro unvisited currentIdx tour c k hle _
    have : unvisited = [] := List.length_eq_zero.mp (Nat.le_zero.mp hle)
    subst this
    simp [graspLoop]
  | succ n ih =>
    intro unvisited currentIdx tour c k hle hnd
    by_cases hemp : unvisited.isEmpty
    · have : unvisited = [] := List.isEmpty_iff.mp hemp
      subst this
      simp [graspLoop]
    · have hne : unvisited ≠ [] := fun h => hemp (by simp [h])
      have hcne : (graspCandidates ops nodes currentIdx unvisited c).1 ≠ [] := by
        rw [graspCandidates_fst]
        simpa using hne
      have hrne := rcl_ne_nil alpha halpha
        (graspCandidates ops nodes currentIdx unvisited c).1 hcne
      have hrpos : 0 < ((graspCandidates ops nodes currentIdx unvisited c).1.filter
          (fun x => x.2 ≤ rclThreshold alpha
            (graspCandidates ops nodes currentIdx unvisited c).1)).length :=
        List.length_pos.mpr hrne
      have hidx := randFloor_lt (hR k).1 (hR k).2 hrpos
      have hselmem : ((graspCandidates ops nodes currentIdx unvisited c).1.filter
          (fun x => x.2 ≤ rclThreshold alpha
            (graspCandidates ops nodes currentIdx unvisited c).1)).getD
          (randFloor (R k) ((graspCandidates ops nodes currentIdx
            unvisited c).1.filter (fun x => x.2 ≤ rclThreshold alpha
              (graspCandidates ops nodes currentIdx unvisited c).1)).length)
          (0, 0) ∈
          (graspCandidates ops nodes currentIdx unvisited c).1.filter
          (fun x => x.2 ≤ rclThreshold alpha
            (graspCandidates ops nodes currentIdx unvisited c).1) := by
        rw [List.getD_eq_getElem _ _ hidx]
        exact List.getElem_mem _
      have hmem1 : ∀ x ∈ (graspCandidates ops nodes currentIdx unvisited c).1,
          x.1 ∈ unvisited := by
        intro x hx
        rw [graspCandidates_fst] at hx
        obtain ⟨i, hi, rfl⟩ := List.mem_map.mp hx
        exact hi
      have hsel1 := hmem1 _ (List.mem_of_mem_filter hselmem)
      simp only [graspLoop, hemp, if_false]
      refine (ih _ _ _ _ _
        (by rw [List.length_erase_of_mem hsel1]; omega)
        (hnd.erase _)).trans ?_
      exact erase_step_perm nodes tour unvisited _ hsel1

/-- `graspConstruction` returns a permutation of its input. -/
theorem graspConstruction_perm (ops : NumOps) (R : ℕ → ℚ) (nodes : List Node)
    (alpha : ℚ) (c : OperationCounter) (k : ℕ)
    (halpha : 0 ≤ alpha) (hR : ValidStream R) :
    (graspConstruction ops R nodes alpha c k).1 ~ nodes := by
  unfold graspConstruction
  by_cases h0 : nodes.length = 0
  · have : nodes = [] := List.length_eq_zero.mp h0
    subst this; simp
  · by_cases h1 : nodes.length = 1
    · obtain ⟨a, ha⟩ := List.length_eq_one.mp h1
      subst ha; simp [h0]
    · simp only [h0, h1, if_false]
      have hn : 0 < nodes.length := by omega
      have hstart := randFloor_lt (hR k).1 (hR k).2 hn
      have hmem : randFloor (R k) nodes.length ∈ List.range nodes.length := by
        rw [List.mem_range]; exact hstart
      refine (graspLoop_perm ops R nodes alpha halpha hR nodes.length
        ((List.range nodes.length).erase (randFloor (R k) nodes.length))
        (randFloor (R k) nodes.length)
        [nodes.getD (randFloor (R k) nodes.length) default] _ _
        (by rw [List.length_erase_of_mem hmem, List.length_range]; omega)
        ((List.nodup_range _).erase _)).trans ?_
      have hperm : List.range nodes.length ~
          randFloor (R k) nodes.length ::
            (List.range nodes.length).erase (randFloor (R k) nodes.length) :=
        List.perm_cons_erase hmem
      have hmap : (List.range nodes.length).map (fun i => nodes.getD i default) ~
          (randFloor (R k) nodes.length ::
            (List.range nodes.length).erase (randFloor (R k) nodes.length)).map
            (fun i => nodes.getD i default) :=
        List.Perm.map _ hperm
      rw [getD_range_map] at hmap
      calc [nodes.getD (randFloor (R k) nodes.length) default] ++
            ((List.range nodes.length).erase
              (randFloor (R k) nodes.length)).map (fun i => nodes.getD i default)
          = (randFloor (R k) nodes.length ::
              (List.range nodes.length).erase (randFloor (R k) nodes.length)).map
              (fun i => nodes.getD i default) := by
            simp only [List.map_cons, List.singleton_append]
        _ ~ nodes := hmap.symm

/-- One candidate check of the `grasp.ts` `localSearch` double loop (its
`&& !improved` conditions break out as soon as one swap is applied). -/
def lsTry (ops : NumOps) (st : OptSt) (i j : ℕ) : OptSt :=
  if st.improved then st
  else
    let dd := calculateDelta ops st.tour i j st.cnt
    if dd.1 < -eps then
      let sw := saTwoOptSwap st.tour i j dd.2
      ⟨sw.1, st.best + dd.1, true, sw.2⟩
    else { st with cnt := dd.2 }

/-- One `improved = false; iterations++` pass of `localSearch`. -/
def lsPass (ops : NumOps) (n : ℕ) (st : OptSt) : OptSt :=
  (List.range' 1 (n - 2)).foldl (fun st1 i =>
    (List.range' (i + 1) (n - (i + 1))).foldl
      (fun st2 j => lsTry ops st2 i j) st1) st

/-- The `while (improved && iterations < maxIterations)` loop of
`localSearch` (`maxIterations` passes are exact fuel). -/
def lsLoop (ops : NumOps) (n : ℕ) : ℕ → OptSt → OptSt
  | 0, st => st
  | fuel + 1, st =>
    if st.improved then
      lsLoop ops n fuel (lsPass ops n { st with improved := false })
    else st

/-- `grasp.ts` `localSearch(tour, maxIterations, counter)`. -/
def localSearch (ops : NumOps) (tour : List Node) (maxIterations : ℕ)
    (c : OperationCounter) : List Node × ℚ × OperationCounter :=
  if tour.length < 4 then
    let dc := tourDistance ops tour c
    (tour, dc.1, dc.2)
  else
    let dc := tourDistance ops tour c
    let res := lsLoop ops tour.length maxIterations ⟨tour, dc.1, true, dc.2⟩
    (res.tour, res.best, res.cnt)

theorem lsTry_perm (ops : NumOps) (st : OptSt) (i j : ℕ) :
    (lsTry ops st i j).tour ~ st.tour := by
  unfold lsTry
  dsimp only
  split
  · exact List.Perm.refl _
  · split
    · exact saTwoOptSwap_perm _ _ _ _
    · exact List.Perm.refl _

theorem lsPass_perm (ops : NumOps) (n : ℕ) (st : OptSt) :
    (lsPass ops n st).tour ~ st.tour := by
  unfold lsPass
  have inner : ∀ (i : ℕ) (js : List ℕ) (s : OptSt),
      ((js.foldl (fun st2 j => lsTry ops st2 i j) s).tour) ~ s.tour := by
    intro i js
    induction js with
    | nil => intro s; exact List.Perm.refl _
    | cons hd tl ih =>
      intro s
      simp only [List.foldl_cons]
      exact (ih _).trans (lsTry_perm ops s i hd)
  have outer : ∀ (is : List ℕ) (s : OptSt),
      ((is.foldl (fun st1 i =>
        (List.range' (i + 1) (n - (i + 1))).foldl
          (fun st2 j => lsTry ops st2 i j) st1) s).tour) ~ s.tour := by
    intro is
    induction is with
    | nil => intro s; exact List.Perm.refl _
    | cons hd tl ih =>
      intro s
      simp only [List.foldl_cons]
      exact (ih _).trans (inner hd _ s)
  exact outer _ st

theorem lsLoop_perm (ops : NumOps) (n : ℕ) :
    ∀ (fuel : ℕ) (st : OptSt), (lsLoop ops n fuel st).tour ~ st.tour := by
  intro fuel
  induction fuel with
  | zero => intro st; exact List.Perm.refl _
  | succ f ih =>
    intro st
    simp only [lsLoop]
    split
    · exact (ih _).trans (lsPass_perm ops n _)
    · exact List.Perm.refl _

theorem localSearch_perm (ops : NumOps) (tour : List Node)
    (maxIterations : ℕ) (c : OperationCounter) :
    (localSearch ops tour maxIterations c).1 ~ tour := by
  unfold localSearch
  split
  · exact List.Perm.refl _
  · exact lsLoop_perm ops tour.length maxIterations _

/-- Mutable locals of the GRASP restart loop (`bestDistance` starts at
`Infinity`). -/
structure GraspSt where
  best : List Node
  bestD : WithTop ℚ
  cnt : OperationCounter
  k : ℕ

/-- One `iter` pass of the `grasp.ts` `solve` restart loop. -/
def graspIterStep (ops : NumOps) (R : ℕ → ℚ) (nodes : List Node)
    (alpha : ℚ) (lsMax : ℕ) (st : GraspSt) : GraspSt :=
  let con := graspConstruction ops R nodes alpha st.cnt st.k
  let ls := localSearch ops con.1 lsMax con.2.1
  if (ls.2.1 : WithTop ℚ) < st.bestD then
    ⟨ls.1, (ls.2.1 : WithTop ℚ),
      { ls.2.2 with
        reads := ls.2.2.reads + ls.1.length
        writes := ls.2.2.writes + ls.1.length }, con.2.2⟩
  else ⟨st.best, st.bestD, ls.2.2, con.2.2⟩

/-- The `for (let iter = 0; iter < iterations; iter++)` loop of
`grasp.ts` `solve`. -/
def graspRun (ops : NumOps) (R : ℕ → ℚ) (nodes : List Node) (alpha : ℚ)
    (lsMax : ℕ) : ℕ → GraspSt → GraspSt
  | 0, st => st
  | it + 1, st =>
    graspRun ops R nodes alpha lsMax it (graspIterStep ops R nodes alpha lsMax st)

/-- `grasp.ts` `solve` (`alpha`, `iterations`,
`localSearchMaxIterations` from config; runtime modelled as 0). -/
def graspSolve (ops : NumOps) (R : ℕ → ℚ) (g : Graph) (alpha : ℚ)
    (iterations lsMax : ℕ) : Result :=
  let nodes := g.nodes
  let n := nodes.length
  if n = 0 then ⟨[], ⟨((0:ℚ) : WithTop ℚ), 0, 0, 0⟩⟩
  else if n = 1 then ⟨[nodes.getD 0 default], ⟨((0:ℚ) : WithTop ℚ), 0, 1, 0⟩⟩
  else if n = 2 then
    let dc := tourDistance ops [nodes.getD 0 default, nodes.getD 1 default] ⟨2, 3⟩
    ⟨[nodes.getD 0 default, nodes.getD 1 default, nodes.getD 0 default],
      ⟨(dc.1 : WithTop ℚ), 0, dc.2.reads, dc.2.writes⟩⟩
  else
    let res := graspRun ops R nodes alpha lsMax iterations ⟨[], ⊤, ⟨0, 0⟩, 0⟩
    ⟨res.best ++ [res.best.getD 0 default],
      ⟨res.bestD, 0, res.cnt.reads, res.cnt.writes⟩⟩

theorem graspIterStep_perm (ops : NumOps) (R : ℕ → ℚ) (nodes : List Node)
    (alpha : ℚ) (lsMax : ℕ) (st : GraspSt)
    (halpha : 0 ≤ alpha) (hR : ValidStream R)
    (h : st.bestD = ⊤ ∨ st.best ~ nodes) :
    (graspIterStep ops R nodes alpha lsMax st).best ~ nodes := by
  unfold graspIterStep
  dsimp only
  have hcon : (localSearch ops
      (graspConstruction ops R nodes alpha st.cnt st.k).1 lsMax
      (graspConstruction ops R nodes alpha st.cnt st.k).2.1).1 ~ nodes :=
    (localSearch_perm ops _ lsMax _).trans
      (graspConstruction_perm ops R nodes alpha st.cnt st.k halpha hR)
  split
  · exact hcon
  · next hlt =>
    rcases h with htop | hperm
    · exact absurd (htop ▸ WithTop.coe_lt_top _) hlt
    · exact hperm

theorem graspRun_perm (ops : NumOps) (R : ℕ → ℚ) (nodes : List Node)
    (alpha : ℚ) (lsMax : ℕ) (halpha : 0 ≤ alpha) (hR : ValidStream R) :
    ∀ (it : ℕ) (st : GraspSt), 1 ≤ it → (st.bestD = ⊤ ∨ st.best ~ nodes) →
      (graspRun ops R nodes alpha lsMax it st).best ~ nodes := by
  intro it
  induction it with
  | zero => intro st h; omega
  | succ it ih =>
    intro st _ h
    simp only [graspRun]
    cases it with
    | zero =>
      simp only [graspRun]
      exact graspIterStep_perm ops R nodes alpha lsMax st halpha hR h
    | succ it2 =>
      exact ih _ (by omega)
        (Or.inr (graspIterStep_perm ops R nodes alpha lsMax st halpha hR h))

theorem graspSolve_nil (ops : NumOps) (R : ℕ → ℚ) (es : List Edge)
    (alpha : ℚ) (iterations lsMax : ℕ) :
    graspSolve ops R ⟨[], es⟩ alpha iterations lsMax =
      ⟨[], ⟨((0:ℚ) : WithTop ℚ), 0, 0, 0⟩⟩ := rfl

theorem graspSolve_single (ops : NumOps) (R : ℕ → ℚ) (a : Node)
    (es : List Edge) (alpha : ℚ) (iterations lsMax : ℕ) :
    graspSolve ops R ⟨[a], es⟩ alpha iterations lsMax =
      ⟨[a], ⟨((0:ℚ) : WithTop ℚ), 0, 1, 0⟩⟩ := rfl

/-- On `n ≥ 2` (with `alpha ≥ 0`, at least one restart and a valid random
stream) the GRASP path is a closed permutation tour. -/
theorem graspSolve_path (ops : NumOps) (R : ℕ → ℚ) (g : Graph) (alpha : ℚ)
    (iterations lsMax : ℕ) (h2 : 2 ≤ g.nodes.length)
    (halpha : 0 ≤ alpha) (hit : 1 ≤ iterations) (hR : ValidStream R) :
    ∃ tour, tour ~ g.nodes ∧
      (graspSolve ops R g alpha iterations lsMax).path =
        tour ++ [tour.getD 0 default] := by
  have h0 : g.nodes.length ≠ 0 := by omega
  have h1 : g.nodes.length ≠ 1 := by omega
  by_cases hn2 : g.nodes.length = 2
  · obtain ⟨a, b, hab⟩ : ∃ a b, g.nodes = [a, b] := by
      cases gn : g.nodes with
      | nil => rw [gn] at hn2; simp at hn2
      | cons a t =>
        cases t with
        | nil => rw [gn] at hn2; simp at hn2
        | cons b t2 =>
          cases t2 with
          | nil => exact ⟨a, b, rfl⟩
          | cons c t3 => rw [gn] at hn2; simp at hn2
    refine ⟨[a, b], by rw [hab], ?_⟩
    unfold graspSolve
    rw [hab]
    rfl
  · refine ⟨(graspRun ops R g.nodes alpha lsMax iterations
      ⟨[], ⊤, ⟨0, 0⟩, 0⟩).best, ?_, ?_⟩
    · exact graspRun_perm ops R g.nodes alpha lsMax halpha hR iterations _
        hit (Or.inl rfl)
    · unfold graspSolve
      simp only [h0, h1, hn2, if_false]

/-! ### `ant-colony.ts` -/

/-- `ant-colony.ts` `initializePheromones(n, initialValue, counter)`
(matrices are modelled as total functions `ℕ → ℕ → ℚ`; the source writes
`n * n` cells). -/
def initializePheromones (n : ℕ) (initialValue : ℚ) (c : OperationCounter) :
    (ℕ → ℕ → ℚ) × OperationCounter :=
  (fun _ _ => initialValue, { c with writes := c.writes + n * n })

/-- `ant-colony.ts` `computeDistanceMatrix(nodes, counter)`: 0 on the
diagonal, `distance` (4 reads each) off it, one write per cell. -/
def computeDistanceMatrix (ops : NumOps) (nodes : List Node)
    (c : OperationCounter) : (ℕ → ℕ → ℚ) × OperationCounter :=
  (fun i j => if i = j then 0
    else distVal ops (nodes.getD i default) (nodes.getD j default),
   { c with
      reads := c.reads + 4 * (nodes.length * nodes.length - nodes.length)
      writes := c.writes + nodes.length * nodes.length })

/-- The cumulative roulette scan of `selectNextCity` (returns at the first
candidate whose cumulative probability reaches the random threshold). -/
def roulette : List (ℕ × ℚ) → ℚ → ℚ → Option ℕ
  | [], _, _ => none
  | p :: rest, cum, rand =>
    if rand ≤ cum + p.2 then some p.1 else roulette rest (cum + p.2) rand

/-- `ant-colony.ts` `selectNextCity(...)`: per-candidate probability
`pow(tau, alpha) * pow(eta, beta)` (2 reads each), roulette selection, and
the `?? currentIdx` fallback to the last candidate. -/
def selectNextCity (ops : NumOps) (R : ℕ → ℚ) (currentIdx : ℕ)
    (unvisited : List ℕ) (pher dist : ℕ → ℕ → ℚ) (alpha beta : ℚ)
    (c : OperationCounter) (k : ℕ) : ℕ × OperationCounter × ℕ :=
  let probabilities := unvisited.map (fun nextIdx =>
    let tau := pher currentIdx nextIdx
    let d := dist currentIdx nextIdx
    let eta := if 0 < d then 1 / d else 1000
    (nextIdx, ops.pow tau alpha * ops.pow eta beta))
  let c1 : OperationCounter := { c with reads := c.reads + 2 * unvisited.length }
  let total := (probabilities.map (fun p => p.2)).sum
  let random := R k * total
  (match roulette probabilities 0 random with
   | some idx => idx
   | none =>
     match probabilities.getLast? with
     | some p => p.1
     | none => currentIdx, c1, k + 1)

theorem roulette_mem :
    ∀ (l : List (ℕ × ℚ)) (cum rand : ℚ) (idx : ℕ),
      roulette l cum rand = some idx → ∃ p ∈ l, p.1 = idx := by
  intro l
  induction l with
  | nil => intro cum rand idx h; exact absurd h (by simp [roulette])
  | cons hd tl ih =>
    intro cum rand idx h
    simp only [roulette] at h
    split at h
    · exact ⟨hd, List.mem_cons_self _ _, by injection h⟩
    · obtain ⟨p, hp, he⟩ := ih _ _ _ h
      exact ⟨p, List.mem_cons_of_mem _ hp, he⟩

/-- With a nonempty unvisited set, `selectNextCity` always returns a member
(both the roulette return and the final fallback pick a candidate). -/
theorem selectNextCity_mem (ops : NumOps) (R : ℕ → ℚ) (currentIdx : ℕ)
    (unvisited : List ℕ) (pher dist : ℕ → ℕ → ℚ) (alpha beta : ℚ)
    (c : OperationCounter) (k : ℕ) (h : unvisited ≠ []) :
    (selectNextCity ops R currentIdx unvisited pher dist alpha beta c k).1 ∈
      unvisited := by
  unfold selectNextCity
  dsimp only
  split
  · next idx heq =>
    obtain ⟨p, hp, he⟩ := roulette_mem _ _ _ _ heq
    obtain ⟨i, hi, rfl⟩ := List.mem_map.mp hp
    exact he ▸ hi
  · split
    · next p heq =>
      obtain ⟨hl, hpe⟩ := List.mem_getLast?_eq_getLast (Option.mem_def.mpr heq)
      have hp : p ∈ unvisited.map (fun nextIdx =>
          let tau := pher currentIdx nextIdx
          let d := dist currentIdx nextIdx
          let eta := if 0 < d then 1 / d else 1000
          (nextIdx, ops.pow tau alpha * ops.pow eta beta)) := by
        rw [hpe]
        exact List.getLast_mem hl
      obtain ⟨i, hi, rfl⟩ := List.mem_map.mp hp
      exact hi
    · next heq =>
      rw [List.getLast?_eq_none_iff] at heq
      simp only [List.map_eq_nil_iff] at heq
      exact absurd heq h

/-- The `while (unvisited.size > 0)` loop of `ant-colony.ts`
`constructTour` (current city = last tour entry; fuel is exact). -/
def acoLoop (ops : NumOps) (R : ℕ → ℚ) (pher dist : ℕ → ℕ → ℚ)
    (alpha beta : ℚ) : ℕ → List ℕ → List ℕ → OperationCounter → ℕ →
    List ℕ × OperationCounter × ℕ
  | 0, _, tour, c, k => (tour, c, k)
  | fuel + 1, unvisited, tour, c, k =>
    if unvisited.isEmpty then (tour, c, k)
    else
      let cur := tour.getD (tour.length - 1) 0
      let sel := selectNextCity ops R cur unvisited pher dist alpha beta c k
      acoLoop ops R pher dist alpha beta fuel (unvisited.erase sel.1)
        (tour ++ [sel.1])
        { sel.2.1 with writes := sel.2.1.writes + 1 } sel.2.2

/-- `ant-colony.ts` `constructTour(...)` (random start city, then repeated
probabilistic selection). -/
def constructTour (ops : NumOps) (R : ℕ → ℚ) (n : ℕ)
    (pher dist : ℕ → ℕ → ℚ) (alpha beta : ℚ) (c : OperationCounter)
    (k : ℕ) : List ℕ × OperationCounter × ℕ :=
  let startIdx := randFloor (R k) n
  acoLoop ops R pher dist alpha beta n ((List.range n).erase startIdx)
    [startIdx] { c with writes := c.writes + 1 } (k + 1)

theorem acoLoop_perm (ops : NumOps) (R : ℕ → ℚ) (pher dist : ℕ → ℕ → ℚ)
    (alpha beta : ℚ) :
    ∀ (fuel : ℕ) (unvisited tour : List ℕ) (c : OperationCounter) (k : ℕ),
      unvisited.length ≤ fuel →
      (acoLoop ops R pher dist alpha beta fuel unvisited tour c k).1 ~
        tour ++ unvisited := by
  intro fuel
  induction fuel with
  | zero =>
    intro unvisited tour c k hle
    have : unvisited = [] := List.length_eq_zero.mp (Nat.le_zero.mp hle)
    subst this
    simp [acoLoop]
  | succ n ih =>
    intro unvisited tour c k hle
    by_cases hemp : unvisited.isEmpty
    · have : unvisited = [] := List.isEmpty_iff.mp hemp
      subst this
      simp [acoLoop]
    · have hne : unvisited ≠ [] := fun h => hemp (by simp [h])
      have hmem := selectNextCity_mem ops R (tour.getD (tour.length - 1) 0)
        unvisited pher dist alpha beta c k hne
      simp only [acoLoop, hemp, if_false]
      refine (ih _ _ _ _
        (by rw [List.length_erase_of_mem hmem]; omega)).trans ?_
      have hperm : unvisited ~ _ :: unvisited.erase _ := List.perm_cons_erase hmem
      calc (tour ++ [(selectNextCity ops R (tour.getD (tour.length - 1) 0)
            unvisited pher dist alpha beta c k).1]) ++
            unvisited.erase (selectNextCity ops R (tour.getD (tour.length - 1) 0)
              unvisited pher dist alpha beta c k).1
          = tour ++ ((selectNextCity ops R (tour.getD (tour.length - 1) 0)
              unvisited pher dist alpha beta c k).1 ::
              unvisited.erase (selectNextCity ops R
                (tour.getD (tour.length - 1) 0)
                unvisited pher dist alpha beta c k).1) := by
            simp
        _ ~ tour ++ unvisited := List.Perm.append_left tour hperm.symm

/-- Each constructed ant tour visits every city exactly once. -/
theorem constructTour_perm (ops : NumOps) (R : ℕ → ℚ) (n : ℕ)
    (pher dist : ℕ → ℕ → ℚ) (alpha beta : ℚ) (c : OperationCounter)
    (k : ℕ) (hn : 0 < n) (hR : ValidStream R) :
    (constructTour ops R n pher dist alpha beta c k).1 ~ List.range n := by
  unfold constructTour
  have hstart := randFloor_lt (hR k).1 (hR k).2 hn
  have hmem : randFloor (R k) n ∈ List.range n := by
    rw [List.mem_range]; exact hstart
  refine (acoLoop_perm ops R pher dist alpha beta n _ _ _ _
    (by rw [List.length_erase_of_mem hmem, List.length_range]; omega)).trans ?_
  have hperm : List.range n ~
      randFloor (R k) n :: (List.range n).erase (randFloor (R k) n) :=
    List.perm_cons_erase hmem
  calc [randFloor (R k) n] ++ (List.range n).erase (randFloor (R k) n)
      = randFloor (R k) n :: (List.range n).erase (randFloor (R k) n) := by simp
    _ ~ List.range n := hperm.symm

/-- `ant-colony.ts` `calculateTourLength(tour, distances, counter)` (1 read
per edge plus the closing edge). -/
def calculateTourLength (tour : List ℕ) (dist : ℕ → ℕ → ℚ)
    (c : OperationCounter) : ℚ × OperationCounter :=
  let body := (tour.zip tour.tail).foldl
    (fun (acc : ℚ × OperationCounter) p =>
      (acc.1 + dist p.1 p.2, { acc.2 with reads := acc.2.reads + 1 })) (0, c)
  (body.1 + dist (tour.getD (tour.length - 1) 0) (tour.getD 0 0),
    { body.2 with reads := body.2.reads + 1 })

/-- A single symmetric-deposit cell update `row[b] += d` of
`updatePheromones`. -/
def matAdd (p : ℕ → ℕ → ℚ) (a b : ℕ) (d : ℚ) : ℕ → ℕ → ℚ :=
  fun i j => if i = a ∧ j = b then p i j + d else p i j

/-- The per-tour deposit loop of `updatePheromones` (both directions of
every edge, then the closing edge). -/
def depositTour (p : ℕ → ℕ → ℚ) (tour : List ℕ) (d : ℚ) : ℕ → ℕ → ℚ :=
  let body := (tour.zip tour.tail).foldl
    (fun m pr => matAdd (matAdd m pr.1 pr.2 d) pr.2 pr.1 d) p
  matAdd (matAdd body (tour.getD (tour.length - 1) 0) (tour.getD 0 0) d)
    (tour.getD 0 0) (tour.getD (tour.length - 1) 0) d

/-- `ant-colony.ts` `updatePheromones(...)`: evaporation over all `n * n`
cells, then `Q / length` deposits per tour. (A JS zero-length tour would
deposit `Infinity`; in `ℚ` the division yields 0 — pheromone magnitudes do
not affect any stated property.) -/
def updatePheromones (p : ℕ → ℕ → ℚ) (n : ℕ) (allTours : List (List ℕ))
    (allLengths : List ℚ) (evaporationRate q : ℚ) (c : OperationCounter) :
    (ℕ → ℕ → ℚ) × OperationCounter :=
  let evap : ℕ → ℕ → ℚ := fun i j => p i j * (1 - evaporationRate)
  let c1 : OperationCounter := { c with
    reads := c.reads + n * n
    writes := c.writes + n * n }
  (List.range allTours.length).foldl
    (fun (acc : (ℕ → ℕ → ℚ) × OperationCounter) kk =>
      let tour := allTours.getD kk []
      let len := allLengths.getD kk 0
      let deposit := q / len
      (depositTour acc.1 tour deposit,
        { acc.2 with
          reads := acc.2.reads + 2 * tour.length
          writes := acc.2.writes + 2 * tour.length })) (evap, c1)

/-- `ant-colony.ts` `indicesToNodes(tour, nodes, counter)`. -/
def indicesToNodes (tour : List ℕ) (nodes : List Node)
    (c : OperationCounter) : List Node × OperationCounter :=
  (tour.map (fun idx => nodes.getD idx default),
    { c with
      reads := c.reads + tour.length
      writes := c.writes + tour.length })

/-- Mutable locals of the main ACO loop. -/
structure AcoSt where
  pher : ℕ → ℕ → ℚ
  best : List ℕ
  bestLen : WithTop ℚ
  cnt : OperationCounter
  k : ℕ

/-- The `for (let ant = 0; ...)` loop of one ACO iteration, accumulating
`iterationTours` / `iterationLengths` and tracking the best tour. -/
def acoAntLoop (ops : NumOps) (R : ℕ → ℚ) (n : ℕ) (dist : ℕ → ℕ → ℚ)
    (alpha beta : ℚ) : ℕ → AcoSt → List (List ℕ) → List ℚ →
    AcoSt × List (List ℕ) × List ℚ
  | 0, st, tours, lens => (st, tours, lens)
  | ant + 1, st, tours, lens =>
    let tc := constructTour ops R n st.pher dist alpha beta st.cnt st.k
    let lc := calculateTourLength tc.1 dist tc.2.1
    let upd : AcoSt :=
      if (lc.1 : WithTop ℚ) < st.bestLen then
        { st with
          best := tc.1
          bestLen := (lc.1 : WithTop ℚ)
          cnt := { lc.2 with writes := lc.2.writes + tc.1.length }
          k := tc.2.2 }
      else { st with cnt := lc.2, k := tc.2.2 }
    acoAntLoop ops R n dist alpha beta ant upd (tours ++ [tc.1])
      (lens ++ [lc.1])

/-- One `iter` pass of `ant-colony.ts` `solve` (all ants then a pheromone
update). -/
def acoIter (ops : NumOps) (R : ℕ → ℚ) (n : ℕ) (dist : ℕ → ℕ → ℚ)
    (alpha beta evaporationRate q : ℚ) (antCount : ℕ) (st : AcoSt) : AcoSt :=
  let r := acoAntLoop ops R n dist alpha beta antCount st [] []
  let up := updatePheromones r.1.pher n r.2.1 r.2.2 evaporationRate q r.1.cnt
  { r.1 with pher := up.1, cnt := up.2 }

/-- The main `for (let iter = 0; ...)` loop of `ant-colony.ts` `solve`. -/
def acoRun (ops : NumOps) (R : ℕ → ℚ) (n : ℕ) (dist : ℕ → ℕ → ℚ)
    (alpha beta evaporationRate q : ℚ) (antCount : ℕ) : ℕ → AcoSt → AcoSt
  | 0, st => st
  | it + 1, st =>
    acoRun ops R n dist alpha beta evaporationRate q antCount it
      (acoIter ops R n dist alpha beta evaporationRate q antCount st)

/-- `ant-colony.ts` `solve` (config values `antCount`, `iterations`,
`alpha`, `beta`, `evaporationRate`, `Q`; runtime modelled as 0). -/
def acoSolve (ops : NumOps) (R : ℕ → ℚ) (g : Graph)
    (antCount iterations : ℕ) (alpha beta evaporationRate q : ℚ) : Result :=
  let nodes := g.nodes
  let n := nodes.length
  if n = 0 then ⟨[], ⟨((0:ℚ) : WithTop ℚ), 0, 0, 0⟩⟩
  else if n = 1 then ⟨[nodes.getD 0 default], ⟨((0:ℚ) : WithTop ℚ), 0, 1, 0⟩⟩
  else if n = 2 then
    let dc := tourDistance ops [nodes.getD 0 default, nodes.getD 1 default] ⟨2, 3⟩
    ⟨[nodes.getD 0 default, nodes.getD 1 default, nodes.getD 0 default],
      ⟨(dc.1 : WithTop ℚ), 0, dc.2.reads, dc.2.writes⟩⟩
  else
    let ph := initializePheromones n (1 / (n : ℚ)) ⟨0, 0⟩
    let dm := computeDistanceMatrix ops nodes ph.2
    let res := acoRun ops R n dm.1 alpha beta evaporationRate q antCount
      iterations ⟨ph.1, [], ⊤, dm.2, 0⟩
    let np := indicesToNodes res.best nodes res.cnt
    ⟨np.1 ++ [np.1.getD 0 default],
      ⟨res.bestLen, 0, np.2.reads, np.2.writes⟩⟩

theorem acoAntLoop_keep (ops : NumOps) (R : ℕ → ℚ) (n : ℕ)
    (dist : ℕ → ℕ → ℚ) (alpha beta : ℚ) (hn : 0 < n) (hR : ValidStream R) :
    ∀ (ants : ℕ) (st : AcoSt) (tours : List (List ℕ)) (lens : List ℚ),
      st.best ~ List.range n →
      (acoAntLoop ops R n dist alpha beta ants st tours lens).1.best ~
        List.range n := by
  intro ants
  induction ants with
  | zero => intro st tours lens h; exact h
  | succ ants ih =>
    intro st tours lens h
    simp only [acoAntLoop]
    apply ih
    split
    · exact constructTour_perm ops R n st.pher dist alpha beta st.cnt st.k hn hR
    · exact h

theorem acoAntLoop_perm (ops : NumOps) (R : ℕ → ℚ) (n : ℕ)
    (dist : ℕ → ℕ → ℚ) (alpha beta : ℚ) (hn : 0 < n) (hR : ValidStream R) :
    ∀ (ants : ℕ) (st : AcoSt) (tours : List (List ℕ)) (lens : List ℚ),
      1 ≤ ants → (st.bestLen = ⊤ ∨ st.best ~ List.range n) →
      (acoAntLoop ops R n dist alpha beta ants st tours lens).1.best ~
        List.range n := by
  intro ants
  rcases ants with _ | ants
  · intro st tours lens h; omega
  intro st tours lens _ h
  simp only [acoAntLoop]
  apply acoAntLoop_keep ops R n dist alpha beta hn hR
  split
  · exact constructTour_perm ops R n st.pher dist alpha beta st.cnt st.k hn hR
  · next hlt =>
    rcases h with htop | hperm
    · exact absurd (htop ▸ WithTop.coe_lt_top _) hlt
    · exact hperm

theorem acoRun_perm (ops : NumOps) (R : ℕ → ℚ) (n : ℕ)
    (dist : ℕ → ℕ → ℚ) (alpha beta evaporationRate q : ℚ) (antCount : ℕ)
    (hn : 0 < n) (hR : ValidStream R) (hant : 1 ≤ antCount) :
    ∀ (it : ℕ) (st : AcoSt), 1 ≤ it →
      (st.bestLen = ⊤ ∨ st.best ~ List.range n) →
      (acoRun ops R n dist alpha beta evaporationRate q antCount it st).best ~
        List.range n := by
  intro it
  induction it with
  | zero => intro st h; omega
  | succ it ih =>
    intro st _ h
    simp only [acoRun]
    have hstep : (acoIter ops R n dist alpha beta evaporationRate q antCount
        st).best ~ List.range n := by
      unfold acoIter
      exact acoAntLoop_perm ops R n dist alpha beta hn hR antCount st [] []
        hant h
    cases it with
    | zero => exact hstep
    | succ it2 => exact ih _ (by omega) (Or.inr hstep)

theorem acoSolve_nil (ops : NumOps) (R : ℕ → ℚ) (es : List Edge)
    (antCount iterations : ℕ) (alpha beta er q : ℚ) :
    acoSolve ops R ⟨[], es⟩ antCount iterations alpha beta er q =
      ⟨[], ⟨((0:ℚ) : WithTop ℚ), 0, 0, 0⟩⟩ := rfl

theorem acoSolve_single (ops : NumOps) (R : ℕ → ℚ) (a : Node)
    (es : List Edge) (antCount iterations : ℕ) (alpha beta er q : ℚ) :
    acoSolve ops R ⟨[a], es⟩ antCount iterations alpha beta er q =
      ⟨[a], ⟨((0:ℚ) : WithTop ℚ), 0, 1, 0⟩⟩ := rfl

/-- On `n ≥ 2` (with at least one ant and one iteration and a valid random
stream) the Ant Colony path is a closed permutation tour. -/
theorem acoSolve_path (ops : NumOps) (R : ℕ → ℚ) (g : Graph)
    (antCount iterations : ℕ) (alpha beta er q : ℚ)
    (h2 : 2 ≤ g.nodes.length) (hant : 1 ≤ antCount) (hit : 1 ≤ iterations)
    (hR : ValidStream R) :
    ∃ tour, tour ~ g.nodes ∧
      (acoSolve ops R g antCount iterations alpha beta er q).path =
        tour ++ [tour.getD 0 default] := by
  have h0 : g.nodes.length ≠ 0 := by omega
  have h1 : g.nodes.length ≠ 1 := by omega
  by_cases hn2 : g.nodes.length = 2
  · obtain ⟨a, b, hab⟩ : ∃ a b, g.nodes = [a, b] := by
      cases gn : g.nodes with
      | nil => rw [gn] at hn2; simp at hn2
      | cons a t =>
        cases t with
        | nil => rw [gn] at hn2; simp at hn2
        | cons b t2 =>
          cases t2 with
          | nil => exact ⟨a, b, rfl⟩
          | cons c t3 => rw [gn] at hn2; simp at hn2
    refine ⟨[a, b], by rw [hab], ?_⟩
    unfold acoSolve
    rw [hab]
    rfl
  · have hperm : (acoRun ops R g.nodes.length
        (computeDistanceMatrix ops g.nodes
          (initializePheromones g.nodes.length (1 / (g.nodes.length : ℚ))
            ⟨0, 0⟩).2).1 alpha beta er q antCount iterations
        ⟨(initializePheromones g.nodes.length (1 / (g.nodes.length : ℚ))
            ⟨0, 0⟩).1, [], ⊤,
          (computeDistanceMatrix ops g.nodes
            (initializePheromones g.nodes.length (1 / (g.nodes.length : ℚ))
              ⟨0, 0⟩).2).2, 0⟩).best ~ List.range g.nodes.length :=
      acoRun_perm ops R g.nodes.length _ alpha beta er q antCount
        (by omega) hR hant iterations _ hit (Or.inl rfl)
    refine ⟨(acoRun ops R g.nodes.length
        (computeDistanceMatrix ops g.nodes
          (initializePheromones g.nodes.length (1 / (g.nodes.length : ℚ))
            ⟨0, 0⟩).2).1 alpha beta er q antCount iterations
        ⟨(initializePheromones g.nodes.length (1 / (g.nodes.length : ℚ))
            ⟨0, 0⟩).1, [], ⊤,
          (computeDistanceMatrix ops g.nodes
            (initializePheromones g.nodes.length (1 / (g.nodes.length : ℚ))
              ⟨0, 0⟩).2).2, 0⟩).best.map
        (fun idx => g.nodes.getD idx default), ?_, ?_⟩
    · have := List.Perm.map (fun idx => g.nodes.getD idx default) hperm
      rw [getD_range_map] at this
      exact this
    · unfold acoSolve
      simp only [h0, h1, hn2, if_false]
      rfl

/-! ### `genetic.ts` -/

/-- The Fisher-Yates loop of `genetic.ts` `shuffleArray` (index `i` runs
from `result.length - 1` down to 1; `j = floor(random * (i + 1))`). -/
def shuffleGo (R : ℕ → ℚ) : ℕ → List Node → OperationCounter → ℕ →
    List Node × OperationCounter × ℕ
  | 0, t, c, k => (t, c, k)
  | i + 1, t, c, k =>
    shuffleGo R i (listSwap t (i + 1) (randFloor (R k) (i + 2)))
      { c with reads := c.reads + 2, writes := c.writes + 2 } (k + 1)

/-- `genetic.ts` `shuffleArray(array, counter)`. -/
def shuffleArray (R : ℕ → ℚ) (array : List Node) (c : OperationCounter)
    (k : ℕ) : List Node × OperationCounter × ℕ :=
  shuffleGo R (array.length - 1) array
    { c with writes := c.writes + array.length } k

theorem shuffleGo_perm (R : ℕ → ℚ) :
    ∀ (i : ℕ) (t : List Node) (c : OperationCounter) (k : ℕ),
      (shuffleGo R i t c k).1 ~ t := by
  intro i
  induction i with
  | zero => intro t c k; exact List.Perm.refl _
  | succ i ih =>
    intro t c k
    simp only [shuffleGo]
    exact (ih _ _ _).trans (listSwap_perm _ _ _)

theorem shuffleArray_perm (R : ℕ → ℚ) (array : List Node)
    (c : OperationCounter) (k : ℕ) :
    (shuffleArray R array c k).1 ~ array := shuffleGo_perm R _ _ _ _

/-- The `for (let i = 1; i < populationSize; i++)` random-permutation loop
of `genetic.ts` `initializePopulation`. -/
def initPopGo (R : ℕ → ℚ) (nodes : List Node) :
    ℕ → List (List Node) → OperationCounter → ℕ →
    List (List Node) × OperationCounter × ℕ
  | 0, pop, c, k => (pop, c, k)
  | m + 1, pop, c, k =>
    let s := shuffleArray R nodes c k
    initPopGo R nodes m (pop ++ [s.1]) s.2.1 s.2.2

/-- `genetic.ts` `initializePopulation(nodes, populationSize, counter)`:
one nearest-neighbour individual plus random shuffles. -/
def initializePopulation (ops : NumOps) (R : ℕ → ℚ) (nodes : List Node)
    (populationSize : ℕ) (c : OperationCounter) (k : ℕ) :
    List (List Node) × OperationCounter × ℕ :=
  let nn := nearestNeighborTour ops nodes c
  initPopGo R nodes (populationSize - 1) [nn.1] nn.2 k

theorem initPopGo_mem (R : ℕ → ℚ) (nodes : List Node) :
    ∀ (m : ℕ) (pop : List (List Node)) (c : OperationCounter) (k : ℕ),
      (∀ ind ∈ pop, ind ~ nodes) →
      ∀ ind ∈ (initPopGo R nodes m pop c k).1, ind ~ nodes := by
  intro m
  induction m with
  | zero => intro pop c k hpop; exact hpop
  | succ m ih =>
    intro pop c k hpop
    simp only [initPopGo]
    refine ih _ _ _ ?_
    intro ind hind
    rcases List.mem_append.mp hind with h | h
    · exact hpop ind h
    · rw [List.mem_singleton] at h
      subst h
      exact shuffleArray_perm R nodes c k

/-- Every individual of the initial population is a permutation of the
input nodes. -/
theorem initializePopulation_mem (ops : NumOps) (R : ℕ → ℚ)
    (nodes : List Node) (populationSize : ℕ) (c : OperationCounter) (k : ℕ) :
    ∀ ind ∈ (initializePopulation ops R nodes populationSize c k).1,
      ind ~ nodes := by
  unfold initializePopulation
  refine initPopGo_mem R nodes _ _ _ _ ?_
  intro ind hind
  rw [List.mem_singleton] at hind
  subst hind
  exact nearestNeighborTour_perm ops nodes c

/-- The `for (let i = 1; i < tournamentSize; i++)` rounds of
`genetic.ts` `tournamentSelection`. -/
def tournGo (R : ℕ → ℚ) (popLen : ℕ) (fitness : List (WithTop ℚ)) :
    ℕ → ℕ → WithTop ℚ → OperationCounter → ℕ → ℕ × OperationCounter × ℕ
  | 0, bestIdx, _, c, k => (bestIdx, c, k)
  | rounds + 1, bestIdx, bestFit, c, k =>
    let idx := randFloor (R k) popLen
    let c1 : OperationCounter := { c with reads := c.reads + 1 }
    if bestFit < fitness.getD idx 0 then
      tournGo R popLen fitness rounds idx (fitness.getD idx 0) c1 (k + 1)
    else tournGo R popLen fitness rounds bestIdx bestFit c1 (k + 1)

/-- `genetic.ts` `tournamentSelection(population, fitness, counter,
tournamentSize)` (the solver always uses the default size 3). -/
def tournamentSelection (R : ℕ → ℚ) (population : List (List Node))
    (fitness : List (WithTop ℚ)) (c : OperationCounter) (k : ℕ)
    (tournamentSize : ℕ) : List Node × OperationCounter × ℕ :=
  let bestIdx0 := randFloor (R k) population.length
  let c0 : OperationCounter := { c with reads := c.reads + 1 }
  let t := tournGo R population.length fitness (tournamentSize - 1) bestIdx0
    (fitness.getD bestIdx0 0) c0 (k + 1)
  let selected := population.getD t.1 []
  (selected,
    { t.2.1 with
      reads := t.2.1.reads + selected.length
      writes := t.2.1.writes + selected.length }, t.2.2)

theorem tournGo_lt (R : ℕ → ℚ) (popLen : ℕ) (fitness : List (WithTop ℚ))
    (hR : ValidStream R) (hpop : 0 < popLen) :
    ∀ (rounds bestIdx : ℕ) (bestFit : WithTop ℚ) (c : OperationCounter)
      (k : ℕ), bestIdx < popLen →
      (tournGo R popLen fitness rounds bestIdx bestFit c k).1 < popLen := by
  intro rounds
  induction rounds with
  | zero => intro bestIdx _ _ _ hb; exact hb
  | succ rounds ih =>
    intro bestIdx bestFit c k hb
    simp only [tournGo]
    split
    · exact ih _ _ _ _ (randFloor_lt (hR k).1 (hR k).2 hpop)
    · exact ih _ _ _ _ hb

/-- The tournament winner is a member of the population. -/
theorem tournamentSelection_mem (R : ℕ → ℚ) (population : List (List Node))
    (fitness : List (WithTop ℚ)) (c : OperationCounter) (k : ℕ)
    (tournamentSize : ℕ) (hR : ValidStream R) (hpop : 0 < population.length) :
    (tournamentSelection R population fitness c k tournamentSize).1 ∈
      population := by
  unfold tournamentSelection
  dsimp only
  have hlt := tournGo_lt R population.length fitness hR hpop
    (tournamentSize - 1) (randFloor (R k) population.length)
    (fitness.getD (randFloor (R k) population.length) 0)
    { c with reads := c.reads + 1 } (k + 1)
    (randFloor_lt (hR k).1 (hR k).2 hpop)
  rw [List.getD_eq_getElem _ _ hlt]
  exact List.getElem_mem _

/-- The `while (j === i && result.length > 1)` re-roll loop of
`genetic.ts` `swapMutation`, with fuel (the source spins until the random
index differs; on fuel exhaustion the identity swap is kept). -/
def rerollJ (R : ℕ → ℚ) (i len : ℕ) : ℕ → ℕ → ℕ → ℕ × ℕ
  | 0, j, k => (j, k)
  | f + 1, j, k =>
    if j = i ∧ 1 < len then rerollJ R i len f (randFloor (R k) len) (k + 1)
    else (j, k)

/-- `genetic.ts` `swapMutation(tour, counter)`. -/
def swapMutation (R : ℕ → ℚ) (tour : List Node) (c : OperationCounter)
    (k : ℕ) (fuel : ℕ) : List Node × OperationCounter × ℕ :=
  if tour.length < 2 then (tour, c, k)
  else
    let c1 : OperationCounter := { c with
      reads := c.reads + tour.length
      writes := c.writes + tour.length }
    let i := randFloor (R k) tour.length
    let j0 := randFloor (R (k + 1)) tour.length
    let rj := rerollJ R i tour.length fuel j0 (k + 2)
    (listSwap tour i rj.1,
      { c1 with reads := c1.reads + 2, writes := c1.writes + 2 }, rj.2)

theorem swapMutation_perm (R : ℕ → ℚ) (tour : List Node)
    (c : OperationCounter) (k : ℕ) (fuel : ℕ) :
    (swapMutation R tour c k fuel).1 ~ tour := by
  unfold swapMutation
  split
  · exact List.Perm.refl _
  · exact listSwap_perm _ _ _

/-- `genetic.ts` `calculateFitness(population, counter)`:
`1 / distance`, or `Infinity` for zero distance. -/
def calculateFitness (ops : NumOps) (population : List (List Node))
    (c : OperationCounter) : List (WithTop ℚ) × OperationCounter :=
  population.foldl (fun (acc : List (WithTop ℚ) × OperationCounter) tour =>
    let dc := tourDistance ops tour acc.2
    (acc.1 ++ [if 0 < dc.1 then ((1 / dc.1 : ℚ) : WithTop ℚ) else ⊤], dc.2))
    ([], c)

/-- `genetic.ts` `getEliteIndices(fitness, count)`: indices sorted by
descending fitness (the JS comparator `b.fitness - a.fitness`, modelled by
a stable descending merge sort), truncated to `count`. -/
def getEliteIndices (fitness : List (WithTop ℚ)) (count : ℕ) : List ℕ :=
  let indexed := fitness.enum.map (fun p => (p.2, p.1))
  let sorted := indexed.mergeSort (fun a b => b.1 ≤ a.1)
  (sorted.take count).map (fun item => item.2)

theorem getEliteIndices_lt (fitness : List (WithTop ℚ)) (count : ℕ) :
    ∀ i ∈ getEliteIndices fitness count, i < fitness.length := by
  intro i hi
  unfold getEliteIndices at hi
  obtain ⟨p, hp, rfl⟩ := List.mem_map.mp hi
  have hp2 : p ∈ (fitness.enum.map (fun p => (p.2, p.1))).mergeSort
      (fun a b => b.1 ≤ a.1) := List.mem_of_mem_take hp
  have hp3 : p ∈ fitness.enum.map (fun p => (p.2, p.1)) :=
    (List.mergeSort_perm _ _).mem_iff.mp hp2
  obtain ⟨q, hq, rfl⟩ := List.mem_map.mp hp3
  have := List.fst_lt_of_mem_enum hq
  simpa using this

/-- Mutable locals of the second (cyclic fill) loop of
`genetic.ts` `orderCrossover`. -/
structure OxSt where
  child : List (Option Node)
  used : List ℕ
  childIdx : ℕ
  cnt : OperationCounter

/-- One pass of the cyclic fill loop of `orderCrossover`: read
`parent2[(end + 1 + i) % n]` and insert it at the cursor unless its id was
already used. -/
def oxStep (p2 : List Node) (n e : ℕ) (st : OxSt) (i : ℕ) : OxSt :=
  let city := p2.getD ((e + 1 + i) % n) default
  let c1 : OperationCounter := { st.cnt with reads := st.cnt.reads + 1 }
  if city.id ∈ st.used then { st with cnt := c1 }
  else
    { child := st.child.set st.childIdx (some city)
      used := st.used ++ [city.id]
      childIdx := (st.childIdx + 1) % n
      cnt := { c1 with writes := c1.writes + 1 } }

/-- `genetic.ts` `orderCrossover(parent1, parent2, counter)`: copy the
random slice `[start, end]` of `parent1` into a `null`-initialised child,
then fill the remaining slots cyclically from `parent2`, skipping used
ids. The final `child as Node[]` cast reads each slot with a junk default
(a `null` would be `undefined`-like; valid runs leave none). -/
def orderCrossover (R : ℕ → ℚ) (p1 p2 : List Node) (c : OperationCounter)
    (k : ℕ) : List Node × OperationCounter × ℕ :=
  let n := p1.length
  if n < 3 then
    (p1, { c with reads := c.reads + n, writes := c.writes + n }, k)
  else
    let s0 := randFloor (R k) n
    let e0 := randFloor (R (k + 1)) n
    let start := if e0 < s0 then e0 else s0
    let e := if e0 < s0 then s0 else e0
    let segIdx := List.range' start (e + 1 - start)
    let child0 := segIdx.foldl
      (fun ch i => ch.set i (some (p1.getD i default)))
      (List.replicate n none)
    let used0 := segIdx.map (fun i => (p1.getD i default).id)
    let c0 : OperationCounter := { c with
      reads := c.reads + (e + 1 - start)
      writes := c.writes + (e + 1 - start) }
    let fill := (List.range n).foldl (oxStep p2 n e)
      ⟨child0, used0, (e + 1) % n, c0⟩
    (fill.child.map (fun o => o.getD default), fill.cnt, k + 2)

/-- The fill step reading a prefetched city (definitional repackaging of
`oxStep` used to fold over the cyclically rotated parent). -/
def oxCityStep (n : ℕ) (st : OxSt) (city : Node) : OxSt :=
  let c1 : OperationCounter := { st.cnt with reads := st.cnt.reads + 1 }
  if city.id ∈ st.used then { st with cnt := c1 }
  else
    { child := st.child.set st.childIdx (some city)
      used := st.used ++ [city.id]
      childIdx := (st.childIdx + 1) % n
      cnt := { c1 with writes := c1.writes + 1 } }

theorem ox_fold_eq (p2 : List Node) (n e : ℕ) (st : OxSt) :
    (List.range n).foldl (oxStep p2 n e) st =
      ((List.range n).map (fun i => p2.getD ((e + 1 + i) % n) default)).foldl
        (oxCityStep n) st := by
  rw [List.foldl_map]
  rfl

theorem ox_cities_eq (p2 : List Node) (n e : ℕ) (hp2 : p2.length = n)
    (hn : 0 < n) :
    (List.range n).map (fun i => p2.getD ((e + 1 + i) % n) default) =
      p2.rotate (e + 1) := by
  apply List.ext_getElem
  · simp [hp2]
  · intro i h1 h2
    simp only [List.getElem_map, List.getElem_range]
    rw [List.getElem_rotate]
    have hidx : (e + 1 + i) % n = (i + (e + 1)) % p2.length := by
      rw [hp2, Nat.add_comm]
    rw [List.getD_eq_getElem _ _ (by rw [hp2]; exact Nat.mod_lt _ hn)]
    congr 1

theorem add_mod_right_inj {n c t m : ℕ} (hc : c < n) (ht : t < n) :
    ((c + m) % n = (t + m) % n) ↔ c = t := by
  constructor
  · intro h
    have h2 : c % n = t % n := Nat.ModEq.add_right_cancel' m h
    rwa [Nat.mod_eq_of_lt hc, Nat.mod_eq_of_lt ht] at h2
  · intro h; rw [h]

theorem rotate_set {α : Type _} (l : List α) (m c : ℕ) (x : α)
    (hc : c < l.length) :
    (l.set ((c + m) % l.length) x).rotate m = (l.rotate m).set c x := by
  have hn : 0 < l.length := lt_of_le_of_lt (Nat.zero_le c) hc
  apply List.ext_getElem
  · simp
  · intro i h1 h2
    have hi : i < l.length := by simpa using h1
    rw [List.getElem_rotate]
    simp only [List.length_set]
    rw [List.getElem_set, List.getElem_set]
    by_cases hci : c = i
    · subst hci
      rw [if_pos rfl, if_pos rfl]
    · rw [if_neg hci, if_neg (by
        intro hmod
        exact hci ((add_mod_right_inj hc hi).mp hmod))]
      rw [List.getElem_rotate]

theorem foldl_set_range' {α : Type _} (f : ℕ → α) :
    ∀ (len a : ℕ) (ch : List α), a + len ≤ ch.length →
      (List.range' a len).foldl (fun ch2 i => ch2.set i (f i)) ch =
        ch.take a ++ (List.range' a len).map f ++ ch.drop (a + len) := by
  intro len
  induction len with
  | zero =>
    intro a ch _
    simp [List.take_append_drop]
  | succ len ih =>
    intro a ch hle
    rw [List.range'_succ]
    simp only [List.foldl_cons, List.map_cons]
    have ha : a < ch.length := by omega
    rw [ih (a + 1) (ch.set a (f a)) (by simpa using (by omega : a + 1 + len ≤ ch.length))]
    have htake : (ch.set a (f a)).take (a + 1) = ch.take a ++ [f a] := by
      rw [List.set_take]
      rw [List.take_succ]
      rw [List.getElem?_eq_getElem ha]
      simp only [Option.toList_some]
      rw [List.set_append_right _ _ (by simp [Nat.min_eq_left (Nat.le_of_lt ha)])]
      congr 1
      have hlt : (ch.take a).length = a := by
        rw [List.length_take]
        omega
      rw [hlt]
      simp
    have hdrop : (ch.set a (f a)).drop (a + 1 + len) = ch.drop (a + 1 + len) :=
      List.drop_set_of_lt _ _ (by omega)
    rw [htake, hdrop]
    have harith : a + (len + 1) = a + 1 + len := by omega
    rw [harith]
    simp [List.append_assoc]

theorem range'_map_getD {α : Type _} (l : List α) (d : α) :
    ∀ (len a : ℕ), a + len ≤ l.length →
      (List.range' a len).map (fun i => l.getD i d) = (l.take (a + len)).drop a := by
  intro len
  induction len with
  | zero =>
    intro a _
    rw [List.drop_eq_nil_of_le (by rw [List.length_take]; omega)]
    rfl
  | succ len ih =>
    intro a hle
    rw [List.range'_succ]
    simp only [List.map_cons]
    rw [ih (a + 1) (by omega)]
    have ha : a < l.length := by omega
    have hlt : a < (l.take (a + (len + 1))).length := by
      rw [List.length_take]
      omega
    rw [List.drop_eq_getElem_cons hlt]
    congr 1
    · rw [List.getElem_take]
      rw [List.getD_eq_getElem _ _ ha]
    · have harith : a + (len + 1) = a + 1 + len := by omega
      rw [harith]

/-- The child array after the slice-copy loop, viewed rotated so the
cursor's cyclic walk becomes a left-to-right fill: a block of `null`s
followed by the copied `parent1` slice. -/
theorem ox_child0_rot (p1 : List Node) (start e n : ℕ) (hse : start ≤ e)
    (hen : e < n) (hn : n = p1.length) :
    ((List.range' start (e + 1 - start)).foldl
        (fun ch i => ch.set i (some (p1.getD i default)))
        (List.replicate n (none : Option Node))).rotate (e + 1) =
      List.replicate (n - (e + 1) + start) none ++
        ((p1.take (e + 1)).drop start).map some := by
  have h1 : start + (e + 1 - start) ≤ (List.replicate n (none : Option Node)).length := by
    simp only [List.length_replicate]
    omega
  rw [foldl_set_range' (fun i => some (p1.getD i default)) (e + 1 - start) start _ h1]
  have hmap : (List.range' start (e + 1 - start)).map
      (fun i => some (p1.getD i default)) =
      ((p1.take (e + 1)).drop start).map some := by
    have := range'_map_getD p1 default (e + 1 - start) start
      (by omega : start + (e + 1 - start) ≤ p1.length)
    have harith : start + (e + 1 - start) = e + 1 := by omega
    rw [harith] at this
    calc (List.range' start (e + 1 - start)).map (fun i => some (p1.getD i default))
        = ((List.range' start (e + 1 - start)).map (fun i => p1.getD i default)).map
            some := by rw [List.map_map]; rfl
      _ = ((p1.take (e + 1)).drop start).map some := by rw [this]
  rw [hmap]
  have htk : (List.replicate n (none : Option Node)).take start =
      List.replicate start none := by
    rw [List.take_replicate]
    congr 1
    omega
  have hdr : (List.replicate n (none : Option Node)).drop (start + (e + 1 - start)) =
      List.replicate (n - (e + 1)) none := by
    rw [List.drop_replicate]
    congr 1
    omega
  rw [htk, hdr]
  have hseglen : (((p1.take (e + 1)).drop start).map some).length = e + 1 - start := by
    simp only [List.length_map, List.length_drop, List.length_take]
    omega
  have hablen : (List.replicate start (none : Option Node) ++
      ((p1.take (e + 1)).drop start).map some).length = e + 1 := by
    simp only [List.length_append, List.length_replicate, hseglen]
    omega
  have htot : (List.replicate start (none : Option Node) ++
      ((p1.take (e + 1)).drop start).map some ++
      List.replicate (n - (e + 1)) none).length = n := by
    simp only [List.length_append, List.length_replicate, hseglen]
    omega
  rw [List.rotate_eq_drop_append_take (by rw [htot]; omega)]
  rw [List.drop_left' hablen, List.take_left' hablen]
  rw [List.replicate_add]
  conv_rhs => rw [List.append_assoc]

/-- Invariant of the cyclic fill loop of `orderCrossover`, in rotated
coordinates: already-inserted cities, then the remaining `null` block, then
the copied slice; each unused city is inserted at the cursor (the head of
the `null` block), and the number of remaining `null`s always equals the
number of upcoming insertions. -/
theorem ox_fill_spec (n e : ℕ) (seg : List Node) (hn : 0 < n) :
    ∀ (xs ins : List Node) (m : ℕ) (child : List (Option Node))
      (used : List ℕ) (cnt : OperationCounter),
      child.length = n →
      child.rotate (e + 1) =
        ins.map some ++ List.replicate m none ++ seg.map some →
      used = seg.map Node.id ++ ins.map Node.id →
      m = (xs.filter (fun x => ¬ x.id ∈ seg.map Node.id)).length →
      ((ins ++ xs).map Node.id).Nodup →
      (xs.foldl (oxCityStep n)
          ⟨child, used, (e + 1 + ins.length) % n, cnt⟩).child.rotate (e + 1) =
        (ins ++ xs.filter (fun x => ¬ x.id ∈ seg.map Node.id)).map some ++
          seg.map some := by
  intro xs
  induction xs with
  | nil =>
    intro ins m child used cnt hlen hrot hused hm hnd
    simp only [List.filter_nil, List.length_nil] at hm
    subst hm
    simp only [List.foldl_nil, List.filter_nil, List.append_nil]
    rw [hrot]
    simp
  | cons x xs ih =>
    intro ins m child used cnt hlen hrot hused hm hnd
    simp only [List.foldl_cons]
    by_cases hxid : x.id ∈ seg.map Node.id
    · -- the city id was already used by the slice: skip it
      have hinused : x.id ∈ used := by
        rw [hused]; exact List.mem_append_left _ hxid
      have hstep : oxCityStep n ⟨child, used, (e + 1 + ins.length) % n, cnt⟩ x =
          ⟨child, used, (e + 1 + ins.length) % n,
            { cnt with reads := cnt.reads + 1 }⟩ := by
        unfold oxCityStep
        dsimp only
        rw [if_pos hinused]
      rw [hstep]
      rw [List.filter_cons_of_neg (by simpa using hxid)]
      refine ih ins m child used _ hlen hrot hused ?_ ?_
      · rw [hm, List.filter_cons_of_neg (by simpa using hxid)]
      · exact List.Nodup.sublist
          (List.Sublist.map _ ((List.sublist_cons_self x xs).append_left ins)) hnd
    · -- fresh city: insert at the cursor
      have hxins : ¬ x.id ∈ ins.map Node.id := by
        intro hmem
        rw [List.map_append, List.map_cons] at hnd
        exact (List.disjoint_of_nodup_append hnd) hmem (List.mem_cons_self _ _)
      have hnotused : ¬ x.id ∈ used := by
        rw [hused]
        intro hmem
        rcases List.mem_append.mp hmem with h | h
        · exact hxid h
        · exact hxins h
      have hstep : oxCityStep n ⟨child, used, (e + 1 + ins.length) % n, cnt⟩ x =
          ⟨child.set ((e + 1 + ins.length) % n) (some x), used ++ [x.id],
            ((e + 1 + ins.length) % n + 1) % n,
            { reads := cnt.reads + 1, writes := cnt.writes + 1 }⟩ := by
        unfold oxCityStep
        dsimp only
        rw [if_neg hnotused]
      rw [hstep]
      have hm1 : m = (xs.filter (fun y => ¬ y.id ∈ seg.map Node.id)).length + 1 := by
        rw [hm, List.filter_cons_of_pos (by simpa using hxid)]
        rfl
      have hinslt : ins.length < n := by
        have hlr := congrArg List.length hrot
        simp only [List.length_rotate, List.length_append, List.length_map,
          List.length_replicate, hlen] at hlr
        omega
      have hset : (child.set ((e + 1 + ins.length) % n) (some x)).rotate (e + 1) =
          (child.rotate (e + 1)).set ins.length (some x) := by
        have hrs := rotate_set child (e + 1) ins.length (some x)
          (by rw [hlen]; exact hinslt)
        rw [hlen] at hrs
        have harith : ins.length + (e + 1) = e + 1 + ins.length := by omega
        rw [harith] at hrs
        exact hrs
      have hrot2 : (child.set ((e + 1 + ins.length) % n) (some x)).rotate (e + 1) =
          (ins ++ [x]).map some ++
            List.replicate ((xs.filter
              (fun y => ¬ y.id ∈ seg.map Node.id)).length) none ++
            seg.map some := by
        rw [hset, hrot, hm1, List.replicate_succ]
        rw [List.append_assoc, List.cons_append]
        rw [List.set_append_right _ _ (by rw [List.length_map])]
        rw [List.length_map, Nat.sub_self, List.set_cons_zero]
        simp [List.append_assoc]
      have hidx : ((e + 1 + ins.length) % n + 1) % n =
          (e + 1 + (ins ++ [x]).length) % n := by
        rw [Nat.mod_add_mod]
        congr 1
        simp only [List.length_append, List.length_singleton]
        omega
      rw [hidx]
      have hused2 : used ++ [x.id] =
          seg.map Node.id ++ (ins ++ [x]).map Node.id := by
        rw [hused]
        simp [List.append_assoc]
      have hnd2 : (((ins ++ [x]) ++ xs).map Node.id).Nodup := by
        rw [List.append_assoc, List.singleton_append]
        exact hnd
      have H := ih (ins ++ [x]) _ _ _
        { reads := cnt.reads + 1, writes := cnt.writes + 1 }
        (by rw [List.length_set]; exact hlen) hrot2 hused2 rfl hnd2
      rw [List.filter_cons_of_pos (by simpa using hxid)]
      rw [show ins ++ x :: xs.filter (fun y => ¬ y.id ∈ seg.map Node.id) =
        (ins ++ [x]) ++ xs.filter (fun y => ¬ y.id ∈ seg.map Node.id) from by
          simp]
      exact H

/-- With pairwise-distinct ids, the cities surviving the used-id filter are
exactly those outside the copied slice. -/
theorem ox_filter_eq (p1 : List Node) (start e : ℕ)
    (hids : (p1.map Node.id).Nodup) (hse : start ≤ e) (hen : e < p1.length) :
    p1.filter (fun x => ¬ x.id ∈ ((p1.take (e + 1)).drop start).map Node.id) =
      p1.take start ++ p1.drop (e + 1) := by
  have hdecomp : p1 = (p1.take start ++ (p1.take (e + 1)).drop start) ++
      p1.drop (e + 1) := by
    rw [← take_decomp p1 (by omega : start ≤ e + 1), List.take_append_drop]
  set A := p1.take start with hA
  set B := (p1.take (e + 1)).drop start with hB
  set C := p1.drop (e + 1) with hC
  have hnodup : ((A ++ B ++ C).map Node.id).Nodup := by
    rw [← hdecomp]; exact hids
  rw [List.map_append, List.map_append] at hnodup
  have hAB := (List.nodup_append.mp hnodup).1
  have hdisj := (List.nodup_append.mp hnodup).2.2
  have hdisjAB := (List.nodup_append.mp hAB).2.2
  conv_lhs => rw [hdecomp]
  rw [List.filter_append, List.filter_append]
  have hBnil : B.filter (fun x => ¬ x.id ∈ B.map Node.id) = [] := by
    rw [List.filter_eq_nil_iff]
    intro a ha
    simp only [decide_not, Bool.not_eq_true', decide_eq_false_iff_not, not_not]
    exact List.mem_map_of_mem _ ha
  have hAself : A.filter (fun x => ¬ x.id ∈ B.map Node.id) = A := by
    rw [List.filter_eq_self]
    intro a ha
    simp only [decide_not, Bool.not_eq_true', decide_eq_false_iff_not,
      Bool.not_eq_false', decide_eq_true_eq]
    intro hmem
    exact hdisjAB (List.mem_map_of_mem _ ha) hmem
  have hCself : C.filter (fun x => ¬ x.id ∈ B.map Node.id) = C := by
    rw [List.filter_eq_self]
    intro a ha
    simp only [decide_not, Bool.not_eq_true', decide_eq_false_iff_not,
      Bool.not_eq_false', decide_eq_true_eq]
    intro hmem
    exact hdisj (List.mem_append_right _ hmem) (List.mem_map_of_mem _ ha)
  rw [hBnil, hAself, hCself, List.append_nil]

/-- Core of the order-crossover permutation argument, for an arbitrary
in-range slice `[start, e]`. -/
theorem ox_main (p1 p2 : List Node) (start e : ℕ) (c0 : OperationCounter)
    (hperm : p2 ~ p1) (hids : (p1.map Node.id).Nodup)
    (hse : start ≤ e) (hen : e < p1.length) :
    (((List.range p1.length).foldl (oxStep p2 p1.length e)
        ⟨(List.range' start (e + 1 - start)).foldl
            (fun ch i => ch.set i (some (p1.getD i default)))
            (List.replicate p1.length none),
          (List.range' start (e + 1 - start)).map
            (fun i => (p1.getD i default).id),
          (e + 1) % p1.length, c0⟩).child.map
      (fun o => o.getD default)) ~ p1 := by
  have hn0 : 0 < p1.length := by omega
  have hp2n : p2.length = p1.length := hperm.length_eq
  have hrot := ox_child0_rot p1 start e p1.length hse hen rfl
  have hseg : (List.range' start (e + 1 - start)).map
      (fun i => p1.getD i default) = (p1.take (e + 1)).drop start := by
    have := range'_map_getD p1 default (e + 1 - start) start
      (by omega : start + (e + 1 - start) ≤ p1.length)
    have harith : start + (e + 1 - start) = e + 1 := by omega
    rwa [harith] at this
  have hused0 : (List.range' start (e + 1 - start)).map
      (fun i => (p1.getD i default).id) =
      ((p1.take (e + 1)).drop start).map Node.id ++
        List.map Node.id [] := by
    rw [List.map_nil, List.append_nil, ← hseg, List.map_map]
    rfl
  have hlen0 : ((List.range' start (e + 1 - start)).foldl
      (fun ch i => ch.set i (some (p1.getD i default)))
      (List.replicate p1.length none)).length = p1.length := by
    have hlr := congrArg List.length hrot
    simp only [List.length_rotate, List.length_append, List.length_map,
      List.length_replicate, List.length_drop, List.length_take] at hlr
    omega
  have hp2rot : p2.rotate (e + 1) ~ p1 := (List.rotate_perm p2 (e + 1)).trans hperm
  have hm0 : p1.length - (e + 1) + start =
      ((p2.rotate (e + 1)).filter
        (fun x => ¬ x.id ∈ ((p1.take (e + 1)).drop start).map Node.id)).length := by
    have hfl := (hp2rot.filter
      (fun x => ¬ x.id ∈ ((p1.take (e + 1)).drop start).map Node.id)).length_eq
    rw [hfl, ox_filter_eq p1 start e hids hse hen]
    simp only [List.length_append, List.length_take, List.length_drop]
    omega
  have hnd0 : ((([] : List Node) ++ p2.rotate (e + 1)).map Node.id).Nodup := by
    rw [List.nil_append]
    exact ((hp2rot.map Node.id).nodup_iff).mpr hids
  have H := ox_fill_spec p1.length e ((p1.take (e + 1)).drop start) hn0
    (p2.rotate (e + 1)) [] (p1.length - (e + 1) + start) _ _ c0
    hlen0 hrot hused0 hm0 hnd0
  rw [ox_fold_eq, ox_cities_eq p2 p1.length e hp2n hn0]
  have hresperm : ((p2.rotate (e + 1)).foldl (oxCityStep p1.length)
      ⟨(List.range' start (e + 1 - start)).foldl
          (fun ch i => ch.set i (some (p1.getD i default)))
          (List.replicate p1.length none),
        (List.range' start (e + 1 - start)).map
          (fun i => (p1.getD i default).id),
        (e + 1) % p1.length, c0⟩).child ~
      ((([] : List Node) ++ (p2.rotate (e + 1)).filter
        (fun x => ¬ x.id ∈ ((p1.take (e + 1)).drop start).map Node.id)).map some ++
        ((p1.take (e + 1)).drop start).map some) := by
    rw [← H]
    exact (List.rotate_perm _ (e + 1)).symm
  have hmapped := hresperm.map (fun (o : Option Node) => o.getD default)
  rw [List.nil_append] at hmapped
  rw [← List.map_append, List.map_map] at hmapped
  have hid : ((p2.rotate (e + 1)).filter
      (fun x => ¬ x.id ∈ ((p1.take (e + 1)).drop start).map Node.id) ++
      (p1.take (e + 1)).drop start).map
      ((fun (o : Option Node) => o.getD default) ∘ some) =
      (p2.rotate (e + 1)).filter
        (fun x => ¬ x.id ∈ ((p1.take (e + 1)).drop start).map Node.id) ++
        (p1.take (e + 1)).drop start := by
    rw [show ((fun (o : Option Node) => o.getD default) ∘ some) = id from rfl]
    rw [List.map_id]
  rw [hid] at hmapped
  refine hmapped.trans ?_
  have hfilterperm : (p2.rotate (e + 1)).filter
      (fun x => ¬ x.id ∈ ((p1.take (e + 1)).drop start).map Node.id) ~
      p1.take start ++ p1.drop (e + 1) := by
    refine (hp2rot.filter _).trans ?_
    rw [ox_filter_eq p1 start e hids hse hen]
  refine (hfilterperm.append (List.Perm.refl _)).trans ?_
  have hdecomp : p1 = (p1.take start ++ (p1.take (e + 1)).drop start) ++
      p1.drop (e + 1) := by
    rw [← take_decomp p1 (by omega : start ≤ e + 1), List.take_append_drop]
  conv_rhs => rw [hdecomp]
  calc (p1.take start ++ p1.drop (e + 1)) ++ (p1.take (e + 1)).drop start
      = p1.take start ++ (p1.drop (e + 1) ++ (p1.take (e + 1)).drop start) := by
        rw [List.append_assoc]
    _ ~ p1.take start ++ ((p1.take (e + 1)).drop start ++ p1.drop (e + 1)) :=
        List.Perm.append_left _ List.perm_append_comm
    _ = (p1.take start ++ (p1.take (e + 1)).drop start) ++ p1.drop (e + 1) := by
        rw [List.append_assoc]

/-- `orderCrossover` produces a permutation of its first parent whenever
the parents are permutations of each other with distinct ids (valid random
values keep the slice bounds in range). -/
theorem orderCrossover_perm (R : ℕ → ℚ) (p1 p2 : List Node)
    (c : OperationCounter) (k : ℕ) (hR : ValidStream R)
    (hperm : p2 ~ p1) (hids : (p1.map Node.id).Nodup) :
    (orderCrossover R p1 p2 c k).1 ~ p1 := by
  unfold orderCrossover
  dsimp only
  split
  · exact List.Perm.refl _
  · next h3 =>
    have hn0 : 0 < p1.length := by omega
    have hs0 := randFloor_lt (hR k).1 (hR k).2 hn0
    have he0 := randFloor_lt (hR (k + 1)).1 (hR (k + 1)).2 hn0
    refine ox_main p1 p2 _ _ _ hperm hids ?_ ?_
    · split
      · next h => omega
      · next h => omega
    · split
      · exact hs0
      · exact he0

theorem foldl_push_length {α β γ : Type _} (F : List α × γ → β → List α × γ)
    (hF : ∀ p b, (F p b).1.length = p.1.length + 1) :
    ∀ (l : List β) (p : List α × γ),
      (l.foldl F p).1.length = p.1.length + l.length := by
  intro l
  induction l with
  | nil => intro p; rfl
  | cons hd tl ih =>
    intro p
    simp only [List.foldl_cons, List.length_cons]
    rw [ih (F p hd), hF]
    omega

theorem calculateFitness_length (ops : NumOps) (population : List (List Node))
    (c : OperationCounter) :
    (calculateFitness ops population c).1.length = population.length := by
  unfold calculateFitness
  rw [foldl_push_length _ (fun p b => by simp) population ([], c)]
  simp

/-- Mutable locals of the genetic main loop. -/
structure GenSt where
  population : List (List Node)
  fitness : List (WithTop ℚ)
  best : List Node
  bestD : ℚ
  cnt : OperationCounter
  k : ℕ

/-- The `while (newPopulation.length < populationSize)` breeding loop of
`genetic.ts` `solve`: tournament parents, crossover with probability
`crossoverRate`, mutation with probability `mutationRate`. Each pass adds
exactly one offspring, so `populationSize` passes are ample fuel. -/
def breedGo (R : ℕ → ℚ) (population : List (List Node))
    (fitness : List (WithTop ℚ)) (crossoverRate mutationRate : ℚ)
    (populationSize mutFuel : ℕ) :
    ℕ → List (List Node) → OperationCounter → ℕ →
    List (List Node) × OperationCounter × ℕ
  | 0, newPop, c, k => (newPop, c, k)
  | f + 1, newPop, c, k =>
    if newPop.length < populationSize then
      let t1 := tournamentSelection R population fitness c k 3
      let t2 := tournamentSelection R population fitness t1.2.1 t1.2.2 3
      let off1 : List Node × OperationCounter × ℕ :=
        if R t2.2.2 < crossoverRate then
          orderCrossover R t1.1 t2.1 t2.2.1 (t2.2.2 + 1)
        else
          (t1.1,
            { t2.2.1 with
              reads := t2.2.1.reads + t1.1.length
              writes := t2.2.1.writes + t1.1.length }, t2.2.2 + 1)
      let off2 : List Node × OperationCounter × ℕ :=
        if R off1.2.2 < mutationRate then
          swapMutation R off1.1 off1.2.1 (off1.2.2 + 1) mutFuel
        else (off1.1, off1.2.1, off1.2.2 + 1)
      breedGo R population fitness crossoverRate mutationRate populationSize
        mutFuel f (newPop ++ [off2.1]) off2.2.1 off2.2.2
    else (newPop, c, k)

/-- The elite carry-over loop of one generation (copies
`population[idx]` for each elite index). -/
def eliteFold (population : List (List Node)) (elite : List ℕ)
    (c : OperationCounter) : List (List Node) × OperationCounter :=
  elite.foldl
    (fun (acc : List (List Node) × OperationCounter) idx =>
      let ind := population.getD idx []
      (acc.1 ++ [ind],
        { acc.2 with
          reads := acc.2.reads + ind.length
          writes := acc.2.writes + ind.length })) ([], c)

/-- The best-tour scan at the end of one generation. -/
def bestScan (ops : NumOps) (pop : List (List Node))
    (init : List Node × ℚ × OperationCounter) :
    List Node × ℚ × OperationCounter :=
  pop.foldl
    (fun (acc : List Node × ℚ × OperationCounter) ind =>
      let dc := tourDistance ops ind acc.2.2
      if dc.1 < acc.2.1 then
        (ind, dc.1,
          { dc.2 with
            reads := dc.2.reads + ind.length
            writes := dc.2.writes + ind.length })
      else (acc.1, acc.2.1, dc.2)) init

/-- One generation of `genetic.ts` `solve`: elite carry-over, breeding,
fitness recomputation, and the best-tour scan. -/
def genStep (ops : NumOps) (R : ℕ → ℚ)
    (populationSize eliteCountEff mutFuel : ℕ)
    (crossoverRate mutationRate : ℚ) (st : GenSt) : GenSt :=
  let elite := getEliteIndices st.fitness eliteCountEff
  let initPop := eliteFold st.population elite st.cnt
  let bred := breedGo R st.population st.fitness crossoverRate mutationRate
    populationSize mutFuel populationSize initPop.1 initPop.2 st.k
  let fit2 := calculateFitness ops bred.1 bred.2.1
  let scan := bestScan ops bred.1 (st.best, st.bestD, fit2.2)
  ⟨bred.1, fit2.1, scan.1, scan.2.1, scan.2.2, bred.2.2⟩

/-- The `for (let gen = 0; gen < generations; gen++)` loop of
`genetic.ts` `solve`. -/
def genRun (ops : NumOps) (R : ℕ → ℚ)
    (populationSize eliteCountEff mutFuel : ℕ)
    (crossoverRate mutationRate : ℚ) : ℕ → GenSt → GenSt
  | 0, st => st
  | gens + 1, st =>
    genRun ops R populationSize eliteCountEff mutFuel crossoverRate
      mutationRate gens
      (genStep ops R populationSize eliteCountEff mutFuel crossoverRate
        mutationRate st)

/-- `genetic.ts` `solve` (config `populationSize`, `generations`,
`mutationRate`, `crossoverRate`, `eliteCount`; runtime modelled as 0;
`mutFuel` bounds the mutation re-roll loop). -/
def geneticSolve (ops : NumOps) (R : ℕ → ℚ) (g : Graph)
    (populationSize generations : ℕ) (mutationRate crossoverRate : ℚ)
    (eliteCount mutFuel : ℕ) : Result :=
  let nodes := g.nodes
  let n := nodes.length
  if n = 0 then ⟨[], ⟨((0:ℚ) : WithTop ℚ), 0, 0, 0⟩⟩
  else if n = 1 then ⟨[nodes.getD 0 default], ⟨((0:ℚ) : WithTop ℚ), 0, 1, 0⟩⟩
  else if n = 2 then
    let dc := tourDistance ops [nodes.getD 0 default, nodes.getD 1 default] ⟨2, 3⟩
    ⟨[nodes.getD 0 default, nodes.getD 1 default, nodes.getD 0 default],
      ⟨(dc.1 : WithTop ℚ), 0, dc.2.reads, dc.2.writes⟩⟩
  else
    let ec := min eliteCount populationSize
    let ip := initializePopulation ops R nodes populationSize ⟨0, 0⟩ 0
    let fit := calculateFitness ops ip.1 ip.2.1
    let bt := ip.1.getD 0 []
    let bd := tourDistance ops bt fit.2
    let res := genRun ops R populationSize ec mutFuel crossoverRate
      mutationRate generations ⟨ip.1, fit.1, bt, bd.1, bd.2, ip.2.2⟩
    ⟨res.best ++ [res.best.getD 0 default],
      ⟨(res.bestD : WithTop ℚ), 0, res.cnt.reads, res.cnt.writes⟩⟩

theorem breedGo_mem (R : ℕ → ℚ) (nodes : List Node)
    (population : List (List Node)) (fitness : List (WithTop ℚ))
    (crossoverRate mutationRate : ℚ) (populationSize mutFuel : ℕ)
    (hR : ValidStream R) (hpop : 0 < population.length)
    (hmem : ∀ ind ∈ population, ind ~ nodes)
    (hids : (nodes.map Node.id).Nodup) :
    ∀ (f : ℕ) (newPop : List (List Node)) (c : OperationCounter) (k : ℕ),
      (∀ ind ∈ newPop, ind ~ nodes) →
      ∀ ind ∈ (breedGo R population fitness crossoverRate mutationRate
        populationSize mutFuel f newPop c k).1, ind ~ nodes := by
  intro f
  induction f with
  | zero => intro newPop c k hnew; exact hnew
  | succ f ih =>
    intro newPop c k hnew
    simp only [breedGo]
    split
    · have ht1 : (tournamentSelection R population fitness c k 3).1 ~ nodes :=
        hmem _ (tournamentSelection_mem R population fitness c k 3 hR hpop)
      have ht2 : (tournamentSelection R population fitness
          (tournamentSelection R population fitness c k 3).2.1
          (tournamentSelection R population fitness c k 3).2.2 3).1 ~ nodes :=
        hmem _ (tournamentSelection_mem R population fitness _ _ 3 hR hpop)
      refine ih _ _ _ ?_
      intro ind hind
      rcases List.mem_append.mp hind with h | h
      · exact hnew ind h
      · rw [List.mem_singleton] at h
        subst h
        repeat' split
        all_goals
          first
            | exact ht1
            | exact (orderCrossover_perm R _ _ _ _ hR (ht2.trans ht1.symm)
                (((ht1.map Node.id).nodup_iff).mpr hids)).trans ht1
            | exact (swapMutation_perm R _ _ _ _).trans ht1
            | exact (swapMutation_perm R _ _ _ _).trans
                ((orderCrossover_perm R _ _ _ _ hR (ht2.trans ht1.symm)
                  (((ht1.map Node.id).nodup_iff).mpr hids)).trans ht1)
    · exact hnew

theorem breedGo_length (R : ℕ → ℚ) (population : List (List Node))
    (fitness : List (WithTop ℚ)) (crossoverRate mutationRate : ℚ)
    (populationSize mutFuel : ℕ) :
    ∀ (f : ℕ) (newPop : List (List Node)) (c : OperationCounter) (k : ℕ),
      populationSize ≤ newPop.length + f →
      populationSize ≤ (breedGo R population fitness crossoverRate
        mutationRate populationSize mutFuel f newPop c k).1.length := by
  intro f
  induction f with
  | zero => intro newPop c k h; simpa using h
  | succ f ih =>
    intro newPop c k h
    simp only [breedGo]
    split
    · refine ih _ _ _ ?_
      simp only [List.length_append, List.length_singleton]
      omega
    · next hge => dsimp only; omega


theorem eliteFold_mem (nodes : List Node) (population : List (List Node))
    (hmem : ∀ ind ∈ population, ind ~ nodes) :
    ∀ (elite : List ℕ) (c : OperationCounter),
      (∀ i ∈ elite, i < population.length) →
      ∀ ind ∈ (eliteFold population elite c).1, ind ~ nodes := by
  have haux : ∀ (elite : List ℕ)
      (acc : List (List Node) × OperationCounter),
      (∀ ind ∈ acc.1, ind ~ nodes) →
      (∀ i ∈ elite, i < population.length) →
      ∀ ind ∈ (elite.foldl
        (fun (acc : List (List Node) × OperationCounter) idx =>
          (acc.1 ++ [population.getD idx []],
            { acc.2 with
              reads := acc.2.reads + (population.getD idx []).length
              writes := acc.2.writes +
                (population.getD idx []).length })) acc).1, ind ~ nodes := by
    intro elite
    induction elite with
    | nil => intro acc hacc _ ind hind; exact hacc ind hind
    | cons hd tl ih =>
      intro acc hacc hil
      simp only [List.foldl_cons]
      refine ih _ ?_ (fun i hi => hil i (List.mem_cons_of_mem _ hi))
      intro ind hind
      rcases List.mem_append.mp hind with h | h
      · exact hacc ind h
      · rw [List.mem_singleton] at h
        subst h
        have hlt : hd < population.length := hil hd (List.mem_cons_self _ _)
        rw [List.getD_eq_getElem _ _ hlt]
        exact hmem _ (List.getElem_mem _)
  intro elite c hel
  exact haux elite ([], c) (by intro ind h; exact absurd h (List.not_mem_nil _)) hel

theorem bestScan_perm (ops : NumOps) (nodes : List Node)
    (pop : List (List Node)) (hmem : ∀ ind ∈ pop, ind ~ nodes) :
    ∀ (init : List Node × ℚ × OperationCounter), init.1 ~ nodes →
      (bestScan ops pop init).1 ~ nodes := by
  unfold bestScan
  induction pop with
  | nil => intro init h; exact h
  | cons hd tl ih =>
    intro init h
    simp only [List.foldl_cons]
    refine ih (fun ind hi => hmem ind (List.mem_cons_of_mem _ hi)) _ ?_
    dsimp only
    split
    · exact hmem hd (List.mem_cons_self _ _)
    · exact h

/-- One generation preserves the population invariant: every individual
(and the tracked best tour) stays a permutation of the input nodes, the
fitness list tracks the population, and the population stays nonempty. -/
theorem genStep_inv (ops : NumOps) (R : ℕ → ℚ) (nodes : List Node)
    (populationSize eliteCountEff mutFuel : ℕ)
    (crossoverRate mutationRate : ℚ) (st : GenSt)
    (hR : ValidStream R) (hids : (nodes.map Node.id).Nodup)
    (hpop : 1 ≤ populationSize)
    (hfit : st.fitness.length = st.population.length)
    (hpoplen : 0 < st.population.length)
    (hmem : ∀ ind ∈ st.population, ind ~ nodes)
    (hbest : st.best ~ nodes) :
    (∀ ind ∈ (genStep ops R populationSize eliteCountEff mutFuel
        crossoverRate mutationRate st).population, ind ~ nodes) ∧
    (genStep ops R populationSize eliteCountEff mutFuel crossoverRate
      mutationRate st).best ~ nodes ∧
    (genStep ops R populationSize eliteCountEff mutFuel crossoverRate
      mutationRate st).fitness.length =
      (genStep ops R populationSize eliteCountEff mutFuel crossoverRate
        mutationRate st).population.length ∧
    0 < (genStep ops R populationSize eliteCountEff mutFuel crossoverRate
      mutationRate st).population.length := by
  unfold genStep
  dsimp only
  have helite : ∀ i ∈ getEliteIndices st.fitness eliteCountEff,
      i < st.population.length := by
    intro i hi
    rw [← hfit]
    exact getEliteIndices_lt st.fitness eliteCountEff i hi
  have hinitmem := eliteFold_mem nodes st.population hmem
    (getEliteIndices st.fitness eliteCountEff) st.cnt helite
  have hbredmem := breedGo_mem R nodes st.population st.fitness crossoverRate
    mutationRate populationSize mutFuel hR hpoplen hmem hids populationSize
    (eliteFold st.population (getEliteIndices st.fitness eliteCountEff)
      st.cnt).1
    (eliteFold st.population (getEliteIndices st.fitness eliteCountEff)
      st.cnt).2 st.k hinitmem
  have hbredlen := breedGo_length R st.population st.fitness crossoverRate
    mutationRate populationSize mutFuel populationSize
    (eliteFold st.population (getEliteIndices st.fitness eliteCountEff)
      st.cnt).1
    (eliteFold st.population (getEliteIndices st.fitness eliteCountEff)
      st.cnt).2 st.k (by omega)
  refine ⟨hbredmem, ?_, ?_, ?_⟩
  · exact bestScan_perm ops nodes _ hbredmem _ hbest
  · exact calculateFitness_length ops _ _
  · omega

/-- The population invariant holds after any number of generations. -/
theorem genRun_inv (ops : NumOps) (R : ℕ → ℚ) (nodes : List Node)
    (populationSize eliteCountEff mutFuel : ℕ)
    (crossoverRate mutationRate : ℚ)
    (hR : ValidStream R) (hids : (nodes.map Node.id).Nodup)
    (hpop : 1 ≤ populationSize) :
    ∀ (gens : ℕ) (st : GenSt),
      st.fitness.length = st.population.length →
      0 < st.population.length →
      (∀ ind ∈ st.population, ind ~ nodes) →
      st.best ~ nodes →
      (∀ ind ∈ (genRun ops R populationSize eliteCountEff mutFuel
          crossoverRate mutationRate gens st).population, ind ~ nodes) ∧
      (genRun ops R populationSize eliteCountEff mutFuel crossoverRate
        mutationRate gens st).best ~ nodes := by
  intro gens
  induction gens with
  | zero => intro st _ _ hmem hbest; exact ⟨hmem, hbest⟩
  | succ gens ih =>
    intro st hfit hpoplen hmem hbest
    simp only [genRun]
    obtain ⟨h1, h2, h3, h4⟩ := genStep_inv ops R nodes populationSize
      eliteCountEff mutFuel crossoverRate mutationRate st hR hids hpop
      hfit hpoplen hmem hbest
    exact ih _ h3 h4 h1 h2

theorem initPopGo_length (R : ℕ → ℚ) (nodes : List Node) :
    ∀ (m : ℕ) (pop : List (List Node)) (c : OperationCounter) (k : ℕ),
      (initPopGo R nodes m pop c k).1.length = pop.length + m := by
  intro m
  induction m with
  | zero => intro pop c k; simp [initPopGo]
  | succ m ih =>
    intro pop c k
    simp only [initPopGo]
    rw [ih]
    simp only [List.length_append, List.length_singleton]
    omega

theorem geneticSolve_nil (ops : NumOps) (R : ℕ → ℚ) (es : List Edge)
    (ps gens : ℕ) (mr cr : ℚ) (ec mf : ℕ) :
    geneticSolve ops R ⟨[], es⟩ ps gens mr cr ec mf =
      ⟨[], ⟨((0:ℚ) : WithTop ℚ), 0, 0, 0⟩⟩ := rfl

theorem geneticSolve_single (ops : NumOps) (R : ℕ → ℚ) (a : Node)
    (es : List Edge) (ps gens : ℕ) (mr cr : ℚ) (ec mf : ℕ) :
    geneticSolve ops R ⟨[a], es⟩ ps gens mr cr ec mf =
      ⟨[a], ⟨((0:ℚ) : WithTop ℚ), 0, 1, 0⟩⟩ := rfl

/-- On `n ≥ 2` (with distinct ids, a nonempty population and a valid
random stream) the Genetic Algorithm path is a closed permutation tour. -/
theorem geneticSolve_path (ops : NumOps) (R : ℕ → ℚ) (g : Graph)
    (ps gens : ℕ) (mr cr : ℚ) (ec mf : ℕ)
    (h2 : 2 ≤ g.nodes.length) (hps : 1 ≤ ps)
    (hids : (g.nodes.map Node.id).Nodup) (hR : ValidStream R) :
    ∃ tour, tour ~ g.nodes ∧
      (geneticSolve ops R g ps gens mr cr ec mf).path =
        tour ++ [tour.getD 0 default] := by
  have h0 : g.nodes.length ≠ 0 := by omega
  have h1 : g.nodes.length ≠ 1 := by omega
  by_cases hn2 : g.nodes.length = 2
  · obtain ⟨a, b, hab⟩ : ∃ a b, g.nodes = [a, b] := by
      cases gn : g.nodes with
      | nil => rw [gn] at hn2; simp at hn2
      | cons a t =>
        cases t with
        | nil => rw [gn] at hn2; simp at hn2
        | cons b t2 =>
          cases t2 with
          | nil => exact ⟨a, b, rfl⟩
          | cons c t3 => rw [gn] at hn2; simp at hn2
    refine ⟨[a, b], by rw [hab], ?_⟩
    unfold geneticSolve
    rw [hab]
    rfl
  · have hiplen : (initializePopulation ops R g.nodes ps ⟨0, 0⟩ 0).1.length =
        ps := by
      unfold initializePopulation
      rw [initPopGo_length]
      simp only [List.length_singleton]
      omega
    have hipmem := initializePopulation_mem ops R g.nodes ps ⟨0, 0⟩ 0
    have hbt : (initializePopulation ops R g.nodes ps ⟨0, 0⟩ 0).1.getD 0 [] ~
        g.nodes := by
      have hlt : 0 < (initializePopulation ops R g.nodes ps ⟨0, 0⟩ 0).1.length := by
        omega
      rw [List.getD_eq_getElem _ _ hlt]
      exact hipmem _ (List.getElem_mem _)
    have hrun := genRun_inv ops R g.nodes ps (min ec ps) mf cr mr hR hids hps
      gens ⟨(initializePopulation ops R g.nodes ps ⟨0, 0⟩ 0).1,
        (calculateFitness ops (initializePopulation ops R g.nodes ps ⟨0, 0⟩ 0).1
          (initializePopulation ops R g.nodes ps ⟨0, 0⟩ 0).2.1).1,
        (initializePopulation ops R g.nodes ps ⟨0, 0⟩ 0).1.getD 0 [],
        (tourDistance ops
          ((initializePopulation ops R g.nodes ps ⟨0, 0⟩ 0).1.getD 0 [])
          (calculateFitness ops
            (initializePopulation ops R g.nodes ps ⟨0, 0⟩ 0).1
            (initializePopulation ops R g.nodes ps ⟨0, 0⟩ 0).2.1).2).1,
        (tourDistance ops
          ((initializePopulation ops R g.nodes ps ⟨0, 0⟩ 0).1.getD 0 [])
          (calculateFitness ops
            (initializePopulation ops R g.nodes ps ⟨0, 0⟩ 0).1
            (initializePopulation ops R g.nodes ps ⟨0, 0⟩ 0).2.1).2).2,
        (initializePopulation ops R g.nodes ps ⟨0, 0⟩ 0).2.2⟩
      (calculateFitness_length ops _ _)
      (by show 0 < (initializePopulation ops R g.nodes ps ⟨0, 0⟩ 0).1.length
          omega) hipmem hbt
    refine ⟨_, hrun.2, ?_⟩
    unfold geneticSolve
    simp only [h0, h1, hn2, if_false]

theorem naiveSolve_single (ops : NumOps) (a : Node) (es : List Edge) :
    (naiveSolve ops ⟨[a], es⟩).path = [a] ∧
    (naiveSolve ops ⟨[a], es⟩).performance.distance = ((0:ℚ) : WithTop ℚ) := by
  obtain ⟨p, hp, hdist, hpath, _⟩ := naiveSolve_spec ops ⟨[a], es⟩ (by simp)
  have hpa : p = [a] := List.perm_singleton.mp hp
  subst hpa
  constructor
  · rw [hpath]
    simp
  · rw [hdist]
    have h2 : loopLen ops 1 [a] = 0 := by
      simp [loopLen, List.range_succ, Nat.mod_one, distVal_self]
    show ((loopLen ops ([a] : List Node).length [a] : ℚ) : WithTop ℚ) =
      ((0:ℚ) : WithTop ℚ)
    simp only [List.length_singleton]
    rw [h2]

/-! ### Claim assembly helpers -/

/-- Any settlement path other than a successful supersede (`runCall` with a
working factory) leaves the runner state idle. -/
theorem settle_resets (r : Runner) (e : REvent)
    (hne : ∀ t, e ≠ .runCall t (.ok ())) (hs : (runnerStep r e).2 ≠ []) :
    (runnerStep r e).1.state.isRunning = false ∧
    (runnerStep r e).1.state.canCancel = false := by
  cases e with
  | runCall t create =>
    cases create with
    | ok u => exact absurd rfl (hne t)
    | error m =>
      by_cases hrun : r.state.isRunning = true
      · cases hp : r.pending with
        | none =>
          unfold runnerStep
          rw [hrun, cancelStep_no_pending hp]
          exact ⟨rfl, rfl⟩
        | some p =>
          rw [runnerStep_runCall_running_err t m hrun hp]
          exact ⟨rfl, rfl⟩
      · rw [runnerStep_runCall_idle_err t m (by simpa using hrun)]
        exact ⟨rfl, rfl⟩
  | msgSuccess res =>
    by_cases hw : r.worker = true
    · unfold runnerStep
      rw [hw]
      cases r.pending <;> exact ⟨rfl, rfl⟩
    · rw [runnerStep_msgSuccess_no_worker res (by simpa using hw)] at hs
      exact absurd rfl hs
  | msgError m =>
    by_cases hw : r.worker = true
    · unfold runnerStep
      rw [hw]
      cases r.pending <;> exact ⟨rfl, rfl⟩
    · rw [runnerStep_msgError_no_worker m (by simpa using hw)] at hs
      exact absurd rfl hs
  | fault m =>
    by_cases hw : r.worker = true
    · unfold runnerStep
      rw [hw]
      cases r.pending <;> exact ⟨rfl, rfl⟩
    · rw [runnerStep_fault_no_worker m (by simpa using hw)] at hs
      exact absurd rfl hs
  | timerFire =>
    cases ht : r.timer with
    | none =>
      rw [runnerStep_timerFire_none ht] at hs
      exact absurd rfl hs
    | some v =>
      unfold runnerStep
      rw [ht]
      cases r.pending <;> exact ⟨rfl, rfl⟩
  | cancelCall =>
    rw [runnerStep_cancel_eq] at hs ⊢
    rcases hp : r.pending with _ | p
    · rw [cancelStep_no_pending hp] at hs
      exact absurd rfl hs
    · by_cases hrun : r.state.isRunning = true
      · rw [cancelStep_running hrun hp]
        exact ⟨rfl, rfl⟩
      · rw [cancelStep_not_running (by simpa using hrun)] at hs
        exact absurd rfl hs
  | clearErrorCall => exact absurd rfl hs

/-- Every settlement emitted by a `runCall` step is either the CANCELLED
rejection of the superseded call or a worker-creation failure. -/
theorem runCall_settlements (r : Runner) (t : Option ℤ)
    (create : Except String Unit) :
    ∀ s ∈ (runnerStep r (.runCall t create)).2,
      s.outcome = Outcome.rejected ErrorCode.CANCELLED
        "Algorithm cancelled by user" ∨
      ∃ m, s.outcome = Outcome.rejected ErrorCode.WORKER_ERROR
        ("Failed to create worker: " ++ m) := by
  intro s hs
  unfold runnerStep at hs
  have hcs : ∀ s2 ∈ (if r.state.isRunning = true then cancelStep r
      else (r, [])).2, s2.outcome =
      Outcome.rejected ErrorCode.CANCELLED "Algorithm cancelled by user" := by
    intro s2 hs2
    split at hs2
    · rcases hrp : r.pending with _ | p
      · rw [cancelStep_no_pending hrp] at hs2
        exact absurd hs2 (List.not_mem_nil _)
      · by_cases hrun2 : r.state.isRunning = true
        · rw [cancelStep_running hrun2 hrp] at hs2
          rw [List.mem_singleton] at hs2
          rw [hs2]
        · rw [cancelStep_not_running (by simpa using hrun2)] at hs2
          exact absurd hs2 (List.not_mem_nil _)
    · exact absurd hs2 (List.not_mem_nil _)
  rcases create with m2 | u
  · dsimp only at hs
    rcases List.mem_append.mp hs with h | h
    · exact Or.inl (hcs s h)
    · rw [List.mem_singleton] at h
      exact Or.inr ⟨m2, by rw [h]⟩
  · rcases t with _ | v
    · dsimp only at hs
      exact Or.inl (hcs s hs)
    · dsimp only at hs
      by_cases hv : v ≠ 0 ∧ 0 < v
      · rw [if_pos hv] at hs
        exact Or.inl (hcs s hs)
      · rw [if_neg hv] at hs
        exact Or.inl (hcs s hs)

/-- Only timer expiry ever produces a `TIMEOUT` settlement. -/
theorem timeout_only_timer (r : Runner) (e : REvent) (s : Settlement)
    (m : String) (hs : s ∈ (runnerStep r e).2)
    (ho : s.outcome = Outcome.rejected ErrorCode.TIMEOUT m) :
    e = REvent.timerFire := by
  cases e with
  | runCall t create =>
    exfalso
    rcases runCall_settlements r t create s hs with h | ⟨m2, h⟩
    · rw [ho] at h
      simp only [Outcome.rejected.injEq] at h
      exact ErrorCode.noConfusion h.1
    · rw [ho] at h
      simp only [Outcome.rejected.injEq] at h
      exact ErrorCode.noConfusion h.1
  | msgSuccess res =>
    exfalso
    unfold runnerStep at hs
    dsimp only at hs
    split at hs
    · rcases hrp : r.pending with _ | p <;> rw [hrp] at hs <;> dsimp only at hs
      · exact absurd hs (List.not_mem_nil _)
      · rw [List.mem_singleton] at hs
        rw [hs] at ho
        exact Outcome.noConfusion ho
    · dsimp only at hs
      exact absurd hs (List.not_mem_nil _)
  | msgError m2 =>
    exfalso
    unfold runnerStep at hs
    dsimp only at hs
    split at hs
    · rcases hrp : r.pending with _ | p <;> rw [hrp] at hs <;> dsimp only at hs
      · exact absurd hs (List.not_mem_nil _)
      · rw [List.mem_singleton] at hs
        rw [hs] at ho
        simp only [Outcome.rejected.injEq] at ho
        exact ErrorCode.noConfusion ho.1
    · dsimp only at hs
      exact absurd hs (List.not_mem_nil _)
  | fault m2 =>
    exfalso
    unfold runnerStep at hs
    dsimp only at hs
    split at hs
    · rcases hrp : r.pending with _ | p <;> rw [hrp] at hs <;> dsimp only at hs
      · exact absurd hs (List.not_mem_nil _)
      · rw [List.mem_singleton] at hs
        rw [hs] at ho
        simp only [Outcome.rejected.injEq] at ho
        exact ErrorCode.noConfusion ho.1
    · dsimp only at hs
      exact absurd hs (List.not_mem_nil _)
  | timerFire => rfl
  | cancelCall =>
    exfalso
    rw [runnerStep_cancel_eq] at hs
    rcases hrp : r.pending with _ | p
    · rw [cancelStep_no_pending hrp] at hs
      exact absurd hs (List.not_mem_nil _)
    · by_cases hrun : r.state.isRunning = true
      · rw [cancelStep_running hrun hrp] at hs
        rw [List.mem_singleton] at hs
        rw [hs] at ho
        simp only [Outcome.rejected.injEq] at ho
        exact ErrorCode.noConfusion ho.1
      · rw [cancelStep_not_running (by simpa using hrun)] at hs
        exact absurd hs (List.not_mem_nil _)
  | clearErrorCall =>
    exact absurd hs (List.not_mem_nil _)

/-- Closing a permutation tour `tour ++ [tour[0]]` yields a path of length
`n + 1` whose endpoints share an id and whose ids without the closing
element are exactly the input ids. -/
theorem closed_path_props (nodes tour : List Node) (h : tour ~ nodes)
    (h2 : 2 ≤ nodes.length) :
    (tour ++ [tour.getD 0 default]).length = nodes.length + 1 ∧
    ((tour ++ [tour.getD 0 default]).getD 0 default).id =
      ((tour ++ [tour.getD 0 default]).getD nodes.length default).id ∧
    (tour ++ [tour.getD 0 default]).dropLast.map Node.id ~
      nodes.map Node.id := by
  have hlen : tour.length = nodes.length := h.length_eq
  refine ⟨?_, ?_, ?_⟩
  · simp [hlen]
  · have hfirst : (tour ++ [tour.getD 0 default]).getD 0 default =
        tour.getD 0 default := by
      rw [List.getD_eq_getElem?_getD, List.getElem?_append_left (by omega)]
      rw [← List.getD_eq_getElem?_getD]
    have hlast : (tour ++ [tour.getD 0 default]).getD nodes.length default =
        tour.getD 0 default := by
      rw [List.getD_eq_getElem?_getD,
        List.getElem?_append_right (by omega : tour.length ≤ nodes.length)]
      rw [hlen, Nat.sub_self]
      rfl
    rw [hfirst, hlast]
  · rw [List.dropLast_concat]
    exact h.map Node.id

/-! ### Claim theorems -/

/-- **C1.** If `run()` is called while a previous call is still in flight,
the previous call's promise is rejected with a `CANCELLED` error first
(the head of the settlement list), every further settlement of the step
belongs to the new call's fresh id, and the new call becomes the unique
pending job — at most one job per runner instance, last-caller-wins. -/
theorem claim_C1_run_supersedes (r : Runner) (p : ℕ) (t : Option ℤ)
    (create : Except String Unit) (settled : List ℕ)
    (hinv : RInv r settled) (hrun : r.state.isRunning = true)
    (hp : r.pending = some p) :
    ∃ rest, (runnerStep r (.runCall t create)).2 =
        ⟨p, Outcome.rejected ErrorCode.CANCELLED "Algorithm cancelled by user"⟩
          :: rest ∧
      (∀ s ∈ rest, s.callId = r.nextId) ∧
      p ≠ r.nextId ∧
      (runnerStep r (.runCall t create)).1.pending = some r.nextId := by
  have hplt : p < r.nextId := hinv.pending_lt p hp
  rcases create with m | ⟨⟩
  · rw [runnerStep_runCall_running_err t m hrun hp]
    refine ⟨[⟨r.nextId, Outcome.rejected ErrorCode.WORKER_ERROR
      ("Failed to create worker: " ++ m)⟩], rfl, ?_, by omega, rfl⟩
    intro s hs
    rw [List.mem_singleton] at hs
    rw [hs]
  · rw [runnerStep_runCall_running_ok t hrun hp]
    exact ⟨[], rfl, fun s hs => absurd hs (List.not_mem_nil _), by omega, rfl⟩

theorem claim_C1_witness :
    RInv ⟨⟨true, true, none⟩, some 0, true, none, 1⟩ [] ∧
    (⟨⟨true, true, none⟩, some 0, true, none, 1⟩ : Runner).state.isRunning
      = true ∧
    (⟨⟨true, true, none⟩, some 0, true, none, 1⟩ : Runner).pending = some 0 ∧
    ∃ rest, (runnerStep ⟨⟨true, true, none⟩, some 0, true, none, 1⟩
        (.runCall none (.ok ()))).2 =
        ⟨0, Outcome.rejected ErrorCode.CANCELLED "Algorithm cancelled by user"⟩
          :: rest ∧
      (∀ s ∈ rest, s.callId =
        (⟨⟨true, true, none⟩, some 0, true, none, 1⟩ : Runner).nextId) ∧
      0 ≠ (⟨⟨true, true, none⟩, some 0, true, none, 1⟩ : Runner).nextId ∧
      (runnerStep ⟨⟨true, true, none⟩, some 0, true, none, 1⟩
        (.runCall none (.ok ()))).1.pending =
        some (⟨⟨true, true, none⟩, some 0, true, none, 1⟩ : Runner).nextId :=
  ⟨by constructor <;> simp, rfl, rfl,
    claim_C1_run_supersedes _ 0 none (.ok ()) []
      (by constructor <;> simp) rfl rfl⟩

/-- **C2.** Every settlement path other than the in-step supersede —
success, worker error, uncaught fault, timeout, cancellation and
worker-creation failure — leaves the runner with `isRunning = false` and
`canCancel = false`, and over any event sequence no `run()` call settles
more than once. -/
theorem claim_C2_settle_resets :
    (∀ (r : Runner) (e : REvent), (∀ t, e ≠ .runCall t (.ok ())) →
      (runnerStep r e).2 ≠ [] →
      (runnerStep r e).1.state.isRunning = false ∧
      (runnerStep r e).1.state.canCancel = false) ∧
    (∀ es : List REvent,
      ((runnerTrace initialRunner es).2.map (·.callId)).Nodup) :=
  ⟨settle_resets, runnerTrace_settles_once⟩

theorem claim_C2_witness :
    ((runnerStep ⟨⟨true, true, none⟩, some 0, true, none, 1⟩
        (.msgSuccess ⟨[], ⟨((0:ℚ) : WithTop ℚ), 0, 0, 0⟩⟩)).1.state.isRunning
      = false ∧
    (runnerStep ⟨⟨true, true, none⟩, some 0, true, none, 1⟩
        (.msgSuccess ⟨[], ⟨((0:ℚ) : WithTop ℚ), 0, 0, 0⟩⟩)).1.state.canCancel
      = false) ∧
    ((runnerTrace initialRunner [.runCall none (.ok ()),
      .msgSuccess ⟨[], ⟨((0:ℚ) : WithTop ℚ), 0, 0, 0⟩⟩]).2.map
        (·.callId)).Nodup :=
  ⟨claim_C2_settle_resets.1 _ _ (fun t h => REvent.noConfusion h)
      (by decide),
    claim_C2_settle_resets.2 _⟩

/-- **C3.** A timer is armed by `run()` exactly when the configured
timeout is a positive number (0 or undefined never arm one); expiry of an
armed timer settles the pending call with a `TIMEOUT` error whose message
includes the configured duration and resets the state; an unarmed timer
event is a no-op; and no event other than timer expiry ever produces a
`TIMEOUT` settlement. -/
theorem claim_C3_timeout (r : Runner) (settled : List ℕ) (v : ℤ)
    (hinv : RInv r settled) (hidle : r.state.isRunning = false) :
    ((runnerStep r (.runCall (some v) (.ok ()))).1.timer =
      (if 0 < v then some v else none)) ∧
    ((runnerStep r (.runCall none (.ok ()))).1.timer = none) ∧
    (∀ r2 : Runner, r2.timer = none → runnerStep r2 .timerFire = (r2, [])) ∧
    (∀ (r2 : Runner) (w : ℤ) (id : ℕ), r2.timer = some w →
      r2.pending = some id →
      (runnerStep r2 .timerFire).2 =
        [⟨id, Outcome.rejected ErrorCode.TIMEOUT
          ("Algorithm timed out after " ++ toString w ++ "ms")⟩] ∧
      (runnerStep r2 .timerFire).1.state.isRunning = false) ∧
    (∀ (r2 : Runner) (e : REvent) (s : Settlement) (m : String),
      s ∈ (runnerStep r2 e).2 →
      s.outcome = Outcome.rejected ErrorCode.TIMEOUT m →
      e = .timerFire) := by
  have htn : r.timer = none := by
    cases ht : r.timer with
    | none => rfl
    | some w =>
      rw [hinv.timer_running w ht] at hidle
      exact Bool.noConfusion hidle
  refine ⟨?_, ?_, ?_, ?_, timeout_only_timer⟩
  · rw [runnerStep_runCall_idle_ok (some v) hidle]
    dsimp only
    by_cases hv : 0 < v
    · rw [if_pos ⟨by omega, hv⟩, if_pos hv]
    · rw [if_neg (fun hc => hv hc.2), if_neg hv]
      exact htn
  · rw [runnerStep_runCall_idle_ok none hidle]
    exact htn
  · exact fun r2 ht => runnerStep_timerFire_none ht
  · intro r2 w id ht hp
    rw [runnerStep_timerFire_eq ht hp]
    exact ⟨rfl, rfl⟩

theorem claim_C3_witness :
    RInv initialRunner [] ∧ initialRunner.state.isRunning = false ∧
    ((runnerStep initialRunner (.runCall (some 7) (.ok ()))).1.timer =
      (if (0:ℤ) < 7 then some 7 else none)) :=
  ⟨RInv_initial, rfl,
    (claim_C3_timeout initialRunner [] 7 RInv_initial rfl).1⟩

/-- **C4.** `cancel()` is a no-op when nothing is running or pending;
when a run is in flight it settles the pending promise with a `CANCELLED`
error, returns the state to idle, and leaves `state.error` null. -/
theorem claim_C4_cancel :
    (∀ r : Runner, r.state.isRunning = false →
      runnerStep r .cancelCall = (r, [])) ∧
    (∀ r : Runner, r.pending = none →
      runnerStep r .cancelCall = (r, [])) ∧
    (∀ (r : Runner) (id : ℕ), r.state.isRunning = true →
      r.pending = some id →
      (runnerStep r .cancelCall).2 =
        [⟨id, Outcome.rejected ErrorCode.CANCELLED
          "Algorithm cancelled by user"⟩] ∧
      (runnerStep r .cancelCall).1.state.error = none ∧
      (runnerStep r .cancelCall).1.state.isRunning = false ∧
      (runnerStep r .cancelCall).1.state.canCancel = false) := by
  refine ⟨?_, ?_, ?_⟩
  · intro r h
    rw [runnerStep_cancel_eq, cancelStep_not_running h]
  · intro r h
    rw [runnerStep_cancel_eq, cancelStep_no_pending h]
  · intro r id hrun hp
    rw [runnerStep_cancel_eq, cancelStep_running hrun hp]
    exact ⟨rfl, rfl, rfl, rfl⟩

theorem claim_C4_witness :
    initialRunner.state.isRunning = false ∧
    runnerStep initialRunner .cancelCall = (initialRunner, []) :=
  ⟨rfl, claim_C4_cancel.1 initialRunner rfl⟩

/-- **C5.** For a `run` request the worker replies with the error variant
`"Algorithm not found: <name>"` when the name is not registered, reports a
thrown fault's message through the same error variant, and otherwise
replies with the success variant carrying the heuristic's `Result`. -/
theorem claim_C5_worker
    (getAlgorithm : String →
      Option (Graph → Option AlgorithmConfig → Except String Result))
    (name : String) (g : Graph) (cfg : Option AlgorithmConfig) :
    (getAlgorithm name = none →
      workerHandle getAlgorithm ⟨"run", name, g, cfg⟩ =
        WorkerResponse.error ("Algorithm not found: " ++ name)) ∧
    (∀ solve m, getAlgorithm name = some solve →
      solve g cfg = Except.error m →
      workerHandle getAlgorithm ⟨"run", name, g, cfg⟩ =
        WorkerResponse.error m) ∧
    (∀ solve res, getAlgorithm name = some solve →
      solve g cfg = Except.ok res →
      workerHandle getAlgorithm ⟨"run", name, g, cfg⟩ =
        WorkerResponse.success res) := by
  refine ⟨?_, ?_, ?_⟩
  · intro h
    unfold workerHandle
    rw [if_neg (by simp)]
    rw [h]
  · intro solve m h hs
    unfold workerHandle
    rw [if_neg (by simp)]
    rw [h]
    dsimp only
    rw [hs]
  · intro solve res h hs
    unfold workerHandle
    rw [if_neg (by simp)]
    rw [h]
    dsimp only
    rw [hs]

theorem claim_C5_witness :
    ((fun _ : String =>
      (none : Option (Graph → Option AlgorithmConfig →
        Except String Result))) "foo" = none) ∧
    workerHandle (fun _ => none) ⟨"run", "foo", ⟨[], []⟩, none⟩ =
      WorkerResponse.error ("Algorithm not found: " ++ "foo") :=
  ⟨rfl, (claim_C5_worker (fun _ => none) "foo" ⟨[], []⟩ none).1 rfl⟩

/-- **C6.** Every registered heuristic returns the empty path with zero
distance and zero counters on the empty graph, and the single node with
zero distance on a one-node graph — identically across all seven
heuristics (naive, nearest neighbour, k-opt, simulated annealing, GRASP,
genetic, ant colony), for every configuration and random stream. -/
theorem claim_C6_base_cases (ops : NumOps) (R : ℕ → ℚ) (es : List Edge)
    (a : Node) (fuel kk : ℕ) (t0 t1 t2 : ℚ) (mi : ℕ) (alpha : ℚ)
    (it lsMax ps gens : ℕ) (mr cr : ℚ) (ec mf ac it2 : ℕ)
    (al be er q : ℚ) :
    (naiveSolve ops ⟨[], es⟩ = ⟨[], ⟨((0:ℚ) : WithTop ℚ), 0, 0, 0⟩⟩ ∧
     nearestNeighbourSolve ops ⟨[], es⟩ =
       ⟨[], ⟨((0:ℚ) : WithTop ℚ), 0, 0, 0⟩⟩ ∧
     koptSolve ops fuel kk ⟨[], es⟩ = ⟨[], ⟨((0:ℚ) : WithTop ℚ), 0, 0, 0⟩⟩ ∧
     saSolve ops R ⟨[], es⟩ t0 t1 t2 mi =
       ⟨[], ⟨((0:ℚ) : WithTop ℚ), 0, 0, 0⟩⟩ ∧
     graspSolve ops R ⟨[], es⟩ alpha it lsMax =
       ⟨[], ⟨((0:ℚ) : WithTop ℚ), 0, 0, 0⟩⟩ ∧
     geneticSolve ops R ⟨[], es⟩ ps gens mr cr ec mf =
       ⟨[], ⟨((0:ℚ) : WithTop ℚ), 0, 0, 0⟩⟩ ∧
     acoSolve ops R ⟨[], es⟩ ac it2 al be er q =
       ⟨[], ⟨((0:ℚ) : WithTop ℚ), 0, 0, 0⟩⟩) ∧
    ((naiveSolve ops ⟨[a], es⟩).path = [a] ∧
     (naiveSolve ops ⟨[a], es⟩).performance.distance =
       ((0:ℚ) : WithTop ℚ) ∧
     (nearestNeighbourSolve ops ⟨[a], es⟩).path = [a] ∧
     (nearestNeighbourSolve ops ⟨[a], es⟩).performance.distance =
       ((0:ℚ) : WithTop ℚ) ∧
     (koptSolve ops fuel kk ⟨[a], es⟩).path = [a] ∧
     (koptSolve ops fuel kk ⟨[a], es⟩).performance.distance =
       ((0:ℚ) : WithTop ℚ) ∧
     (saSolve ops R ⟨[a], es⟩ t0 t1 t2 mi).path = [a] ∧
     (saSolve ops R ⟨[a], es⟩ t0 t1 t2 mi).performance.distance =
       ((0:ℚ) : WithTop ℚ) ∧
     (graspSolve ops R ⟨[a], es⟩ alpha it lsMax).path = [a] ∧
     (graspSolve ops R ⟨[a], es⟩ alpha it lsMax).performance.distance =
       ((0:ℚ) : WithTop ℚ) ∧
     (geneticSolve ops R ⟨[a], es⟩ ps gens mr cr ec mf).path = [a] ∧
     (geneticSolve ops R ⟨[a], es⟩ ps gens mr cr ec mf).performance.distance =
       ((0:ℚ) : WithTop ℚ) ∧
     (acoSolve ops R ⟨[a], es⟩ ac it2 al be er q).path = [a] ∧
     (acoSolve ops R ⟨[a], es⟩ ac it2 al be er q).performance.distance =
       ((0:ℚ) : WithTop ℚ)) :=
  ⟨⟨rfl, rfl, rfl, rfl, rfl, rfl, rfl⟩,
   ⟨(naiveSolve_single ops a es).1, (naiveSolve_single ops a es).2,
    rfl, rfl, rfl, rfl, rfl, rfl, rfl, rfl, rfl, rfl, rfl, rfl⟩⟩

/-- **C8.** The Naive heuristic (a pure function of its graph, hence
deterministic) returns as distance the minimum over all permutations of
the input nodes of the closed-tour length (closing edge included). -/
theorem claim_C8_naive_optimal (ops : NumOps) (g : Graph)
    (h : g.nodes ≠ []) :
    ∃ p, p ~ g.nodes ∧
      (naiveSolve ops g).performance.distance =
        ((tourLen ops p : ℚ) : WithTop ℚ) ∧
      ∀ q, q ~ g.nodes →
        (naiveSolve ops g).performance.distance ≤
          ((tourLen ops q : ℚ) : WithTop ℚ) := by
  obtain ⟨p, hp, hdist, _, hmin⟩ := naiveSolve_spec ops g h
  have hpne : p ≠ [] := fun hnil => h (List.perm_nil.mp (hnil ▸ hp).symm)
  have hplen : p.length = g.nodes.length := hp.length_eq
  refine ⟨p, hp, ?_, ?_⟩
  · rw [hdist, ← hplen, loopLen_eq_tourLen ops p hpne]
  · intro q hq
    have hqne : q ≠ [] := fun hnil => h (List.perm_nil.mp (hnil ▸ hq).symm)
    have hqlen : q.length = g.nodes.length := hq.length_eq
    have := hmin q hq
    rwa [← hqlen, loopLen_eq_tourLen ops q hqne] at this

theorem claim_C8_witness :
    (⟨[⟨0, 0, 0⟩], []⟩ : Graph).nodes ≠ [] ∧
    ∃ p, p ~ (⟨[⟨0, 0, 0⟩], []⟩ : Graph).nodes ∧
      (naiveSolve ⟨fun _ => 0, fun _ _ => 0, fun _ => 0, rfl⟩
        ⟨[⟨0, 0, 0⟩], []⟩).performance.distance =
        ((tourLen ⟨fun _ => 0, fun _ _ => 0, fun _ => 0, rfl⟩ p : ℚ) :
          WithTop ℚ) ∧
      ∀ q, q ~ (⟨[⟨0, 0, 0⟩], []⟩ : Graph).nodes →
        (naiveSolve ⟨fun _ => 0, fun _ _ => 0, fun _ => 0, rfl⟩
          ⟨[⟨0, 0, 0⟩], []⟩).performance.distance ≤
          ((tourLen ⟨fun _ => 0, fun _ _ => 0, fun _ => 0, rfl⟩ q : ℚ) :
            WithTop ℚ) :=
  ⟨by simp,
    claim_C8_naive_optimal ⟨fun _ => 0, fun _ _ => 0, fun _ => 0, rfl⟩
      ⟨[⟨0, 0, 0⟩], []⟩ (by simp)⟩

/-- **C9 (amended).** For `k > 3` the position combinations are exhaustive
whenever the raw count is at most 1000, the stride sub-sampling
`step = ⌊count / 1000⌋` bounds the explored combinations by 1999 (not
1000 as specified), and the segment permutation/reversal combinations per
position set are capped at 100. -/
theorem claim_C9_sampling_bounds (n k : ℕ) (segments : List (List Node)) :
    ((kOptPosGo n k [] 0).length ≤ 1000 →
      generateKOptPositions n k = kOptPosGo n k [] 0) ∧
    (generateKOptPositions n k).length ≤ 1999 ∧
    (generateSegmentPermutations segments).length ≤ 100 :=
  ⟨generateKOptPositions_exhaustive n k, generateKOptPositions_len_le n k,
    generateSegmentPermutations_le segments⟩

theorem claim_C9_witness :
    (kOptPosGo 5 4 [] 0).length ≤ 1000 ∧
    generateKOptPositions 5 4 = kOptPosGo 5 4 [] 0 :=
  ⟨by decide, (claim_C9_sampling_bounds 5 4 []).1 (by decide)⟩

set_option maxRecDepth 10000 in
/-- **C9 counterexample.** At `n = 18`, `k = 4` the raw combination count
is `C(14,4) = 1001 > 1000`, the stride becomes `⌊1001/1000⌋ = 1`, and the
sub-sampler emits all 1001 position combinations — more than the 1000 the
specification promises. -/
theorem claim_C9_counterexample :
    1000 < (generateKOptPositions 18 4).length ∧
    (generateKOptPositions 18 4).length = 1001 := by
  constructor
  · show 1000 < 1001
    omega
  · rfl

/-- **C7.** For every registered heuristic, on graphs with
pairwise-distinct node ids (and config values within the UI ranges: a
nonnegative GRASP alpha, at least one GRASP restart, a nonempty genetic
population, at least one ant and one ACO iteration, and a valid random
stream): for `n ≥ 2` the returned path has length `n + 1` with matching
first/last ids and its node ids without the closing element are exactly
the input ids; for `n = 1` the path's ids are exactly the input ids. -/
theorem claim_C7_closed_tours (ops : NumOps) (R : ℕ → ℚ) (g : Graph)
    (fuel kk mi it lsMax ps gens ec mf ac it2 : ℕ)
    (t0 t1 t2 alpha mr cr al be er q : ℚ)
    (hids : (g.nodes.map Node.id).Nodup) (hR : ValidStream R)
    (halpha : 0 ≤ alpha) (hit : 1 ≤ it) (hps : 1 ≤ ps)
    (hac : 1 ≤ ac) (hit2 : 1 ≤ it2) :
    (2 ≤ g.nodes.length →
      ((naiveSolve ops g).path.length = g.nodes.length + 1 ∧
        ((naiveSolve ops g).path.getD 0 default).id =
          ((naiveSolve ops g).path.getD g.nodes.length default).id ∧
        (naiveSolve ops g).path.dropLast.map Node.id ~
          g.nodes.map Node.id) ∧
      ((nearestNeighbourSolve ops g).path.length = g.nodes.length + 1 ∧
        ((nearestNeighbourSolve ops g).path.getD 0 default).id =
          ((nearestNeighbourSolve ops g).path.getD
            g.nodes.length default).id ∧
        (nearestNeighbourSolve ops g).path.dropLast.map Node.id ~
          g.nodes.map Node.id) ∧
      ((koptSolve ops fuel kk g).path.length = g.nodes.length + 1 ∧
        ((koptSolve ops fuel kk g).path.getD 0 default).id =
          ((koptSolve ops fuel kk g).path.getD g.nodes.length default).id ∧
        (koptSolve ops fuel kk g).path.dropLast.map Node.id ~
          g.nodes.map Node.id) ∧
      ((saSolve ops R g t0 t1 t2 mi).path.length = g.nodes.length + 1 ∧
        ((saSolve ops R g t0 t1 t2 mi).path.getD 0 default).id =
          ((saSolve ops R g t0 t1 t2 mi).path.getD
            g.nodes.length default).id ∧
        (saSolve ops R g t0 t1 t2 mi).path.dropLast.map Node.id ~
          g.nodes.map Node.id) ∧
      ((graspSolve ops R g alpha it lsMax).path.length =
          g.nodes.length + 1 ∧
        ((graspSolve ops R g alpha it lsMax).path.getD 0 default).id =
          ((graspSolve ops R g alpha it lsMax).path.getD
            g.nodes.length default).id ∧
        (graspSolve ops R g alpha it lsMax).path.dropLast.map Node.id ~
          g.nodes.map Node.id) ∧
      ((geneticSolve ops R g ps gens mr cr ec mf).path.length =
          g.nodes.length + 1 ∧
        ((geneticSolve ops R g ps gens mr cr ec mf).path.getD
            0 default).id =
          ((geneticSolve ops R g ps gens mr cr ec mf).path.getD
            g.nodes.length default).id ∧
        (geneticSolve ops R g ps gens mr cr ec mf).path.dropLast.map
          Node.id ~ g.nodes.map Node.id) ∧
      ((acoSolve ops R g ac it2 al be er q).path.length =
          g.nodes.length + 1 ∧
        ((acoSolve ops R g ac it2 al be er q).path.getD 0 default).id =
          ((acoSolve ops R g ac it2 al be er q).path.getD
            g.nodes.length default).id ∧
        (acoSolve ops R g ac it2 al be er q).path.dropLast.map Node.id ~
          g.nodes.map Node.id)) ∧
    (g.nodes.length = 1 →
      ((naiveSolve ops g).path.map Node.id = g.nodes.map Node.id ∧
       (nearestNeighbourSolve ops g).path.map Node.id =
         g.nodes.map Node.id ∧
       (koptSolve ops fuel kk g).path.map Node.id = g.nodes.map Node.id ∧
       (saSolve ops R g t0 t1 t2 mi).path.map Node.id =
         g.nodes.map Node.id ∧
       (graspSolve ops R g alpha it lsMax).path.map Node.id =
         g.nodes.map Node.id ∧
       (geneticSolve ops R g ps gens mr cr ec mf).path.map Node.id =
         g.nodes.map Node.id ∧
       (acoSolve ops R g ac it2 al be er q).path.map Node.id =
         g.nodes.map Node.id)) := by
  constructor
  · intro h2
    have hne : g.nodes ≠ [] := by
      intro hnil
      rw [hnil] at h2
      simp at h2
    refine ⟨?_, ?_, ?_, ?_, ?_, ?_, ?_⟩
    · obtain ⟨p, hp, _, hpath, _⟩ := naiveSolve_spec ops g hne
      have hp1 : 1 < p.length := by
        rw [hp.length_eq]
        omega
      rw [hpath, if_pos hp1]
      exact closed_path_props g.nodes p hp h2
    · obtain ⟨tour, hperm, hpath⟩ := nearestNeighbourSolve_path ops g h2
      rw [hpath]
      exact closed_path_props g.nodes tour hperm h2
    · obtain ⟨tour, hperm, hpath⟩ := koptSolve_path ops fuel kk g h2
      rw [hpath]
      exact closed_path_props g.nodes tour hperm h2
    · obtain ⟨tour, hperm, hpath⟩ := saSolve_path ops R g t0 t1 t2 mi h2
      rw [hpath]
      exact closed_path_props g.nodes tour hperm h2
    · obtain ⟨tour, hperm, hpath⟩ :=
        graspSolve_path ops R g alpha it lsMax h2 halpha hit hR
      rw [hpath]
      exact closed_path_props g.nodes tour hperm h2
    · obtain ⟨tour, hperm, hpath⟩ :=
        geneticSolve_path ops R g ps gens mr cr ec mf h2 hps hids hR
      rw [hpath]
      exact closed_path_props g.nodes tour hperm h2
    · obtain ⟨tour, hperm, hpath⟩ :=
        acoSolve_path ops R g ac it2 al be er q h2 hac hit2 hR
      rw [hpath]
      exact closed_path_props g.nodes tour hperm h2
  · intro h1
    obtain ⟨a, ha⟩ := List.length_eq_one.mp h1
    have hg : g = ⟨[a], g.edges⟩ := by
      cases g with
      | mk nodes edges => simp only at ha ⊢; rw [ha]
    rw [hg]
    refine ⟨?_, ?_, ?_, ?_, ?_, ?_, ?_⟩
    · rw [(naiveSolve_single ops a g.edges).1]
    · rw [show (nearestNeighbourSolve ops ⟨[a], g.edges⟩).path = [a] from rfl]
    · rw [show (koptSolve ops fuel kk ⟨[a], g.edges⟩).path = [a] from rfl]
    · rw [show (saSolve ops R ⟨[a], g.edges⟩ t0 t1 t2 mi).path = [a] from rfl]
    · rw [show (graspSolve ops R ⟨[a], g.edges⟩ alpha it lsMax).path = [a]
        from rfl]
    · rw [show (geneticSolve ops R ⟨[a], g.edges⟩ ps gens mr cr ec mf).path =
        [a] from rfl]
    · rw [show (acoSolve ops R ⟨[a], g.edges⟩ ac it2 al be er q).path = [a]
        from rfl]

theorem claim_C7_witness :
    (([⟨0, 0, 0⟩, ⟨1, 3, 0⟩] : List Node).map Node.id).Nodup ∧
    ValidStream (fun _ => 0) ∧ (0 : ℚ) ≤ 3 / 10 ∧ (1 : ℕ) ≤ 1 ∧
    (2 : ℕ) ≤ ([⟨0, 0, 0⟩, ⟨1, 3, 0⟩] : List Node).length ∧
    (nearestNeighbourSolve ⟨fun _ => 0, fun _ _ => 0, fun _ => 0, rfl⟩
      ⟨[⟨0, 0, 0⟩, ⟨1, 3, 0⟩], []⟩).path.length =
      (⟨[⟨0, 0, 0⟩, ⟨1, 3, 0⟩], []⟩ : Graph).nodes.length + 1 :=
  ⟨by decide, fun i => ⟨le_refl 0, by norm_num⟩, by norm_num, le_refl 1,
    by decide,
    ((claim_C7_closed_tours ⟨fun _ => 0, fun _ _ => 0, fun _ => 0, rfl⟩
      (fun _ => 0) ⟨[⟨0, 0, 0⟩, ⟨1, 3, 0⟩], []⟩ 1 2 1 1 1 1 1 1 1 1 1
      0 0 0 (3 / 10) 0 0 0 0 0 0 (by decide)
      (fun i => ⟨le_refl 0, by norm_num⟩) (by norm_num) (le_refl 1)
      (le_refl 1) (le_refl 1) (le_refl 1)).1 (by decide)).2.1.1⟩

/-- **C10.** With pairwise-distinct node ids and a valid random stream,
being a permutation of the input node list is an invariant of every
population-producing operation of the genetic algorithm: it holds for the
whole initial population, is preserved by order crossover and swap
mutation, tournament selection returns a population member, and after any
number of generations every individual (and the tracked best tour) is
still a permutation of the input. -/
theorem claim_C10_population_invariant (ops : NumOps) (R : ℕ → ℚ)
    (nodes : List Node) (hR : ValidStream R)
    (hids : (nodes.map Node.id).Nodup) :
    (∀ (ps : ℕ) (c : OperationCounter) (k : ℕ),
      ∀ ind ∈ (initializePopulation ops R nodes ps c k).1, ind ~ nodes) ∧
    (∀ (p1 p2 : List Node) (c : OperationCounter) (k : ℕ),
      p1 ~ nodes → p2 ~ nodes → (orderCrossover R p1 p2 c k).1 ~ nodes) ∧
    (∀ (tour : List Node) (c : OperationCounter) (k fuel : ℕ),
      tour ~ nodes → (swapMutation R tour c k fuel).1 ~ nodes) ∧
    (∀ (population : List (List Node)) (fitness : List (WithTop ℚ))
      (c : OperationCounter) (k ts : ℕ), 0 < population.length →
      (∀ ind ∈ population, ind ~ nodes) →
      (tournamentSelection R population fitness c k ts).1 ~ nodes) ∧
    (∀ (psz ec mf gens : ℕ) (cr mr : ℚ) (st : GenSt), 1 ≤ psz →
      st.fitness.length = st.population.length →
      0 < st.population.length →
      (∀ ind ∈ st.population, ind ~ nodes) → st.best ~ nodes →
      (∀ ind ∈ (genRun ops R psz ec mf cr mr gens st).population,
        ind ~ nodes) ∧
      (genRun ops R psz ec mf cr mr gens st).best ~ nodes) := by
  refine ⟨?_, ?_, ?_, ?_, ?_⟩
  · intro ps c k
    exact initializePopulation_mem ops R nodes ps c k
  · intro p1 p2 c k hp1 hp2
    exact (orderCrossover_perm R p1 p2 c k hR (hp2.trans hp1.symm)
      (((hp1.map Node.id).nodup_iff).mpr hids)).trans hp1
  · intro tour c k fuel htour
    exact (swapMutation_perm R tour c k fuel).trans htour
  · intro population fitness c k ts hpop hmem
    exact hmem _ (tournamentSelection_mem R population fitness c k ts hR hpop)
  · intro psz ec mf gens cr mr st hpsz hfit hpoplen hmem hbest
    exact genRun_inv ops R nodes psz ec mf cr mr hR hids hpsz gens st
      hfit hpoplen hmem hbest

theorem claim_C10_witness :
    ValidStream (fun _ => 0) ∧
    (([⟨0, 0, 0⟩, ⟨1, 3, 0⟩, ⟨2, 0, 4⟩] : List Node).map Node.id).Nodup ∧
    (([⟨0, 0, 0⟩, ⟨1, 3, 0⟩, ⟨2, 0, 4⟩] : List Node) ~
      [⟨0, 0, 0⟩, ⟨1, 3, 0⟩, ⟨2, 0, 4⟩]) ∧
    (swapMutation (fun _ => 0) [⟨0, 0, 0⟩, ⟨1, 3, 0⟩, ⟨2, 0, 4⟩]
      ⟨0, 0⟩ 0 5).1 ~ [⟨0, 0, 0⟩, ⟨1, 3, 0⟩, ⟨2, 0, 4⟩] :=
  ⟨fun i => ⟨le_refl 0, by norm_num⟩, by decide, List.Perm.refl _,
    (claim_C10_population_invariant
      ⟨fun _ => 0, fun _ _ => 0, fun _ => 0, rfl⟩ (fun _ => 0)
      [⟨0, 0, 0⟩, ⟨1, 3, 0⟩, ⟨2, 0, 4⟩]
      (fun i => ⟨le_refl 0, by norm_num⟩) (by decide)).2.2.1
      [⟨0, 0, 0⟩, ⟨1, 3, 0⟩, ⟨2, 0, 4⟩] ⟨0, 0⟩ 0 5 (List.Perm.refl _)⟩
